import Mathlib

/-!
# RSS Guard: assembly and merge of the feed/category hierarchy

A shallow embedding of `StandardServiceRoot::assembleCategories`,
`StandardServiceRoot::categoriesForItem`, `StandardServiceRoot::assembleFeeds`
and `StandardServiceRoot::mergeImportExportModel`
(`src/services/standard/standardserviceroot.cpp`).

Pointers to `RootItem` objects are natural numbers (addresses); the objects
live in a `Heap`.  The hierarchy is what the `childItems` / `parent` fields of
the heap objects say.  Loops that the C++ code does not bound (`while`) take a
fuel argument and return `none` / `outOfFuel` when the fuel is used up.
-/

namespace RssGuard

/-! ## Data model -/

/-- Kinds of hierarchy nodes (`RootItemKind::Kind`); the variants are the ones
the specification lists: Root, RecycleBin, Feed, Category. -/
inductive RootItemKind where
  | Root
  | Bin
  | Feed
  | Category
deriving DecidableEq

/-- Modelled from the spec: the `RootItem` object (`core/rootitem.h` is not part
of the sources).  It has a kind, an integer id, a title, an ordered list of
children (pointers) and a non-owning back-reference to its parent. -/
structure RootItem where
  kind : RootItemKind
  id : Int
  title : String
  childItems : List Nat
  parent : Option Nat
deriving DecidableEq

/-- Object memory: `item p` is the object at address `p`; `next` is the address
the next `new` returns (every address `≥ next` is unallocated). -/
structure Heap where
  item : Nat → RootItem
  next : Nat

/-- Overwrite the object stored at address `p`. -/
def Heap.store (h : Heap) (p : Nat) (v : RootItem) : Heap :=
  { h with item := fun x => if x = p then v else h.item x }

/-- Modelled from the spec: `RootItem::appendChild(child)` called on `parent`
(`core/rootitem.cpp` is not part of the sources): the child is appended to the
ordered list of children of `parent`, and the back-reference of the child is
set to `parent`. -/
def appendChild (h : Heap) (parent child : Nat) : Heap :=
  let h1 := h.store parent
    { h.item parent with childItems := (h.item parent).childItems ++ [child] }
  h1.store child { h1.item child with parent := some parent }

/-- A `QHash<int, RootItem*>`: a finite map from ids to pointers. -/
abbrev QHash := Int → Option Nat

/-- The empty hash. -/
def QHash.empty : QHash := fun _ => none

/-- `QHash::insert(key, value)`: an existing entry for the key is replaced. -/
def QHash.insert (m : QHash) (key : Int) (value : Nat) : QHash :=
  fun k => if k = key then some value else m k

/-- `QHash::contains(key)`. -/
def QHash.contains (m : QHash) (key : Int) : Bool := (m key).isSome

/-! ## `assembleCategories` -/

/-- The local state of `assembleCategories`: the heap, the hash `assignments`
and the list `categories` of pairs (parent id, pointer to category) that are
still to be attached. -/
structure AssembleState where
  heap : Heap
  assignments : QHash
  categories : List (Int × Nat)

/-- The `for` loop of `assembleCategories` (lines 374-387).  With loop index
`i`, `kept` is `categories[0..i)` and the last argument is `categories[i..)`.
An entry whose parent id is in `assignments` is attached with `appendChild`,
its own id is inserted in `assignments`, and it is removed from the list
(`removeAt(i); i--`, so that the next entry is looked at next); any other entry
stays in the list. -/
def scanCategories (h : Heap) (a : QHash) (kept : List (Int × Nat)) :
    List (Int × Nat) → AssembleState
  | [] => ⟨h, a, kept⟩
  | (pid, c) :: rest =>
    match a pid with
    | some p =>
      let h1 := appendChild h p c
      scanCategories h1 (a.insert (h1.item c).id c) kept rest
    | none => scanCategories h a (kept ++ [(pid, c)]) rest

/-- One iteration of the `while` loop of `assembleCategories`: a full scan of
the pending list. -/
def assemblePass (s : AssembleState) : AssembleState :=
  scanCategories s.heap s.assignments [] s.categories

/-- The `while (!categories.isEmpty())` loop, with fuel: `none` when the fuel
runs out before the list is empty. -/
def assembleLoop : Nat → AssembleState → Option AssembleState
  | fuel, s =>
    if s.categories.isEmpty then some s
    else
      match fuel with
      | 0 => none
      | n + 1 => assembleLoop n (assemblePass s)

/-- The state in which the `while` loop of `assembleCategories` starts:
`assignments` is `{NO_PARENT_CATEGORY -> this}`. -/
def assembleInit (NO_PARENT_CATEGORY : Int) (h : Heap) (root : Nat)
    (categories : List (Int × Nat)) : AssembleState :=
  ⟨h, QHash.empty.insert NO_PARENT_CATEGORY root, categories⟩

/-- `StandardServiceRoot::assembleCategories(categories)` called on the object
at address `root`.  The constant `NO_PARENT_CATEGORY` (`definitions.h`, not
part of the sources) is a parameter. -/
def assembleCategories (NO_PARENT_CATEGORY : Int) (fuel : Nat) (h : Heap) (root : Nat)
    (categories : List (Int × Nat)) : Option Heap :=
  (assembleLoop fuel (assembleInit NO_PARENT_CATEGORY h root categories)).map
    AssembleState.heap

/-- The state after `n` iterations of the body of the `while` loop (whether or
not the loop condition still holds). -/
def assembleScans (n : Nat) (s : AssembleState) : AssembleState :=
  Nat.iterate assemblePass n s


/-- The ids that can become keys of `assignments`: the sentinel, and the id of
every category of the list whose parent id can become a key. -/
inductive Resolvable (NO_PARENT_CATEGORY : Int) (h : Heap) (cats : List (Int × Nat)) :
    Int → Prop where
  | sentinel : Resolvable NO_PARENT_CATEGORY h cats NO_PARENT_CATEGORY
  | step (p : Int × Nat) : p ∈ cats → Resolvable NO_PARENT_CATEGORY h cats p.1 →
      Resolvable NO_PARENT_CATEGORY h cats (h.item p.2).id

/-! ## Well-formed input of `assembleCategories` -/

/-- In the list `cats`, the pair `a` is the parent of record of the pair `b`:
the id of the category of `a` is the parent id of `b`. -/
def ParentOf (h : Heap) (cats : List (Int × Nat)) (a b : Int × Nat) : Prop :=
  a ∈ cats ∧ b ∈ cats ∧ (h.item a.2).id = b.1

/-- A well-formed list of (parent id, category) pairs: the ids of the
categories are pairwise distinct and are not the sentinel, every parent id is
the sentinel or the id of another category of the list, and no category is its
own ancestor. -/
structure WellFormedCategories (NO_PARENT_CATEGORY : Int) (h : Heap)
    (cats : List (Int × Nat)) : Prop where
  ids_nodup : (cats.map (fun p => (h.item p.2).id)).Nodup
  ids_ne : ∀ p ∈ cats, (h.item p.2).id ≠ NO_PARENT_CATEGORY
  parents : ∀ p ∈ cats,
    p.1 = NO_PARENT_CATEGORY ∨ ∃ q ∈ cats, q ≠ p ∧ (h.item q.2).id = p.1
  acyclic : ∀ p, ¬ Relation.TransGen (ParentOf h cats) p p

/-- The objects of the list are not yet in the hierarchy: no object of the heap
has one of them among its children. -/
def Unattached (h : Heap) (l : List (Int × Nat)) : Prop :=
  ∀ p ∈ l, ∀ x, p.2 ∉ (h.item x).childItems

/-- The invariant of `assembleCategories` on a well-formed input `cats`
(relative to the heap `h` and the root it starts from): `att` says which pairs
have been attached so far, `h'` and `a` are the current heap and hash. -/
structure AssembleInv (NO_PARENT_CATEGORY : Int) (h : Heap) (root : Nat)
    (cats : List (Int × Nat)) (h' : Heap) (a : QHash) (att : Int × Nat → Prop) : Prop where
  ids : ∀ x, (h'.item x).id = (h.item x).id
  keys : ∀ k v, a k = some v ↔
    (k = NO_PARENT_CATEGORY ∧ v = root) ∨ ∃ p ∈ cats, att p ∧ p.2 = v ∧ (h.item v).id = k
  pending : ∀ p ∈ cats, ¬ att p → ∀ x, p.2 ∉ (h'.item x).childItems
  attached : ∀ p ∈ cats, att p → ∃ par,
    ((p.1 = NO_PARENT_CATEGORY ∧ par = root) ∨
      ∃ q ∈ cats, q.2 = par ∧ (h.item par).id = p.1) ∧
    (∀ x, (h'.item x).childItems.count p.2 = if x = par then 1 else 0) ∧
    (h'.item p.2).parent = some par

/-! ## `categoriesForItem` and `assembleFeeds` -/

/-- The `while (!parents.isEmpty())` loop of `categoriesForItem` (lines
195-210), with fuel: `parents.takeFirst()` is the head of the work list, the
children of a category are appended at its end, and a category is inserted in
the hash only when its id is not yet a key. -/
def categoriesForItemLoop (h : Heap) : Nat → List Nat → QHash → Option QHash
  | _, [], categories => some categories
  | 0, _ :: _, _ => none
  | fuel + 1, item :: parents, categories =>
    if (h.item item).kind = RootItemKind.Category then
      categoriesForItemLoop h fuel (parents ++ (h.item item).childItems)
        (if categories.contains (h.item item).id then categories
          else categories.insert (h.item item).id item)
    else categoriesForItemLoop h fuel parents categories

/-- `StandardServiceRoot::categoriesForItem(root)`: the hash from id to
category of the categories found under `root`. -/
def categoriesForItem (fuel : Nat) (h : Heap) (root : Nat) : Option QHash :=
  categoriesForItemLoop h fuel (h.item root).childItems QHash.empty

/-- The body of the `foreach` of `assembleFeeds` (lines 237-247) for one pair
(parent id, pointer to feed).  The `qWarning` of the last branch writes a log
line and has no effect on the hierarchy. -/
def assembleFeedsStep (NO_PARENT_CATEGORY : Int) (root : Nat) (categories : QHash)
    (h : Heap) (feed : Int × Nat) : Heap :=
  if feed.1 = NO_PARENT_CATEGORY then appendChild h root feed.2
  else
    match categories feed.1 with
    | some category => appendChild h category feed.2
    | none => h

/-- `StandardServiceRoot::assembleFeeds(feeds)` called on the object at address
`root`; the fuel is the one of `categoriesForItem`. -/
def assembleFeeds (NO_PARENT_CATEGORY : Int) (fuel : Nat) (h : Heap) (root : Nat)
    (feeds : List (Int × Nat)) : Option Heap :=
  (categoriesForItem fuel h root).map
    (fun categories => feeds.foldl (assembleFeedsStep NO_PARENT_CATEGORY root categories) h)

/-- The categories of the heap form a finite forest: there is a weight of the
objects that, at every category, is at least the number of objects below it
(the sum over its children of their weight plus one). -/
def CategoryForest (h : Heap) : Prop :=
  ∃ w : Nat → Nat, ∀ x, (h.item x).kind = RootItemKind.Category →
    ((h.item x).childItems.map (fun c => w c + 1)).sum ≤ w x

/-! ## `mergeImportExportModel` -/

/-- A node of the tree of the `FeedsImportExportModel` that is merged: its
kind, id, title, what `model->isItemChecked(node)` returns, and its children.
The merge only reads this tree. -/
inductive SrcItem where
  | mk (kind : RootItemKind) (id : Int) (title : String) (checked : Bool)
      (childItems : List SrcItem) : SrcItem

/-- The kind of a source node. -/
def SrcItem.kind : SrcItem → RootItemKind
  | .mk k _ _ _ _ => k

/-- The id of a source node. -/
def SrcItem.id : SrcItem → Int
  | .mk _ i _ _ _ => i

/-- The title of a source node. -/
def SrcItem.title : SrcItem → String
  | .mk _ _ t _ _ => t

/-- The value of `model->isItemChecked(node)`. -/
def SrcItem.checked : SrcItem → Bool
  | .mk _ _ _ c _ => c

/-- The children of a source node. -/
def SrcItem.childItems : SrcItem → List SrcItem
  | .mk _ _ _ _ cs => cs

mutual
/-- The number of nodes of a source tree, its root included. -/
def SrcItem.nodeCount : SrcItem → Nat
  | .mk _ _ _ _ cs => 1 + SrcItem.nodeCountList cs
/-- The number of nodes of a list of source trees. -/
def SrcItem.nodeCountList : List SrcItem → Nat
  | [] => 0
  | c :: cs => c.nodeCount + SrcItem.nodeCountList cs
end

mutual
/-- Every node of the source tree, its root included, is unchecked. -/
def SrcItem.allUnchecked : SrcItem → Bool
  | .mk _ _ _ c cs => !c && SrcItem.allUncheckedList cs
/-- Every node of every tree of the list is unchecked. -/
def SrcItem.allUncheckedList : List SrcItem → Bool
  | [] => true
  | c :: cs => c.allUnchecked && SrcItem.allUncheckedList cs
end

/-- The node at a position of the source tree; a position is the list of the
child indices on the way from the root. -/
def SrcItem.nodeAt : SrcItem → List Nat → Option SrcItem
  | item, [] => some item
  | item, i :: rest =>
    match item.childItems[i]? with
    | some c => c.nodeAt rest
    | none => none

/-- The position is one of the tree, and the node at it and all the nodes on
the way to it, the root apart, are checked. -/
def SrcItem.checkedAlong : SrcItem → List Nat → Bool
  | _, [] => true
  | item, i :: rest =>
    match item.childItems[i]? with
    | some c => c.checked && c.checkedAlong rest
    | none => false

/-- The copy made by `new StandardCategory(*source_category)` followed by
`clearChildren()`, and by `new StandardFeed(*source_feed)` (a feed is a leaf):
kind, id and title of the source node, no children.  The parent pointer of the
copy is set when it is attached. -/
def cloneOf (source_item : SrcItem) : RootItem :=
  { kind := source_item.kind, id := source_item.id, title := source_item.title,
    childItems := [], parent := none }

/-- `new`: the object is stored at the first unallocated address. -/
def Heap.alloc (h : Heap) (v : RootItem) : Heap :=
  { item := fun x => if x = h.next then v else h.item x, next := h.next + 1 }

/-- A call of `addItself`: the destination heap at the time of the call, the
attach point `target_parent`, the position in the source tree of the node that
was cloned, the clone, and what `addItself` returned. -/
structure AttachEvent where
  heap : Heap
  target : Nat
  path : List Nat
  item : RootItem
  ok : Bool

/-- The outcome of `addItself(target_parent)` on a clone (`standardcategory.cpp`
and `standardfeed.cpp` are not part of the sources): a parameter of the merge,
which may depend on the number of calls made before, on the destination heap,
on the attach point and on the clone. -/
abbrev AddItself := Nat → Heap → Nat → RootItem → Bool

/-- The local state of `mergeImportExportModel`.  Both stacks have their top
at the head of the list; an entry of `new_parents` is a source node together
with its position in the source tree.  `log` and `iterations` are ghost
fields that the code does not have: the calls of `addItself` in order (its
length numbers the calls for `addItself`), and the number of iterations of the
`while` loop made so far. -/
structure MergeState where
  heap : Heap
  original_parents : List Nat
  new_parents : List (List Nat × SrcItem)
  some_feed_category_error : Bool
  log : List AttachEvent
  iterations : Nat

/-- The attach point has a child that is a category with the given title. -/
def hasChildCategoryTitled (h : Heap) (target : Nat) (title : String) : Bool :=
  (h.item target).childItems.any
    (fun child => decide ((h.item child).kind = RootItemKind.Category ∧
      (h.item child).title = title))

/-- The search of lines 293-298: the last child of `target_parent` that is a
category with the title of the clone (`NULL` when there is none). -/
def findExisting (h : Heap) (target_parent : Nat) (new_category_title : String) :
    Option Nat :=
  (h.item target_parent).childItems.foldl
    (fun existing_category child =>
      if (h.item child).kind = RootItemKind.Category ∧
          (h.item child).title = new_category_title then some child
      else existing_category)
    none

/-- Modelled from the spec: a successful attach of a clone (`addItself`
returned true, then `feedsModel()->reassignNodeToNewParent(clone,
target_parent)`; `feedsmodel.cpp` is not part of the sources): the clone, a new
object, becomes the last child of the attach point. -/
def attachClone (h : Heap) (target_parent : Nat) (clone : RootItem) : Heap :=
  appendChild (h.alloc clone) target_parent h.next

/-- The body of the `foreach` over the children of `source_parent` (lines
266-321) for the child `source_item` at position `path`. -/
def mergeItem (addItself : AddItself) (target_parent : Nat) (s : MergeState)
    (path : List Nat) (source_item : SrcItem) : MergeState :=
  if !source_item.checked then s
  else if source_item.kind = RootItemKind.Category then
    if addItself s.log.length s.heap target_parent (cloneOf source_item) then
      { s with
        heap := attachClone s.heap target_parent (cloneOf source_item)
        original_parents := s.heap.next :: s.original_parents
        new_parents := (path, source_item) :: s.new_parents
        log := s.log ++ [⟨s.heap, target_parent, path, cloneOf source_item, true⟩] }
    else
      match findExisting s.heap target_parent (cloneOf source_item).title with
      | some existing_category =>
        { s with
          original_parents := existing_category :: s.original_parents
          new_parents := (path, source_item) :: s.new_parents
          log := s.log ++ [⟨s.heap, target_parent, path, cloneOf source_item, false⟩] }
      | none =>
        { s with
          some_feed_category_error := true
          log := s.log ++ [⟨s.heap, target_parent, path, cloneOf source_item, false⟩] }
  else if source_item.kind = RootItemKind.Feed then
    if addItself s.log.length s.heap target_parent (cloneOf source_item) then
      { s with
        heap := attachClone s.heap target_parent (cloneOf source_item)
        log := s.log ++ [⟨s.heap, target_parent, path, cloneOf source_item, true⟩] }
    else
      { s with
        some_feed_category_error := true
        log := s.log ++ [⟨s.heap, target_parent, path, cloneOf source_item, false⟩] }
  else s

/-- The `foreach (RootItem *source_item, source_parent->childItems())` loop:
`i` is the index of the first child still to be processed, `path` the position
of `source_parent`. -/
def mergeChildren (addItself : AddItself) (target_parent : Nat) (path : List Nat) :
    Nat → List SrcItem → MergeState → MergeState
  | _, [], s => s
  | i, source_item :: rest, s =>
    mergeChildren addItself target_parent path (i + 1) rest
      (mergeItem addItself target_parent s (path ++ [i]) source_item)

/-- One iteration of the `while` loop (lines 262-322): both stacks are popped,
`original_parents` first, then the children of the popped source node are
processed.  `none` stands for `pop()` on an empty stack. -/
def mergeIteration (addItself : AddItself) (s : MergeState) : Option MergeState :=
  match s.original_parents, s.new_parents with
  | [], _ => none
  | _ :: _, [] => none
  | target_parent :: original_rest, (path, source_parent) :: new_rest =>
    some (mergeChildren addItself target_parent path 0 source_parent.childItems
      { s with
        original_parents := original_rest
        new_parents := new_rest
        iterations := s.iterations + 1 })

/-- How a run of a loop with fuel ends. -/
inductive Run (α : Type) where
  | done (a : α) : Run α
  | outOfFuel : Run α
  | popOnEmpty : Run α

/-- The `while (!new_parents.isEmpty())` loop, with fuel. -/
def mergeLoop (addItself : AddItself) : Nat → MergeState → Run MergeState
  | fuel, s =>
    match s.new_parents with
    | [] => Run.done s
    | _ :: _ =>
      match fuel with
      | 0 => Run.outOfFuel
      | n + 1 =>
        match mergeIteration addItself s with
        | none => Run.popOnEmpty
        | some s' => mergeLoop addItself n s'

/-- What `mergeImportExportModel` leaves: the destination heap, the returned
value, the text put in `output_message`, and the ghost fields of the state. -/
structure MergeResult where
  heap : Heap
  returned : Bool
  output_message : String
  log : List AttachEvent
  iterations : Nat

/-- The state in which the `while` loop of `mergeImportExportModel` starts. -/
def mergeInit (h : Heap) (root : Nat) (model_root : SrcItem) : MergeState :=
  { heap := h, original_parents := [root], new_parents := [([], model_root)],
    some_feed_category_error := false, log := [], iterations := 0 }

/-- Lines 325-332: the message and the returned value. -/
def mergeFinish (s : MergeState) : MergeResult :=
  { heap := s.heap
    returned := !s.some_feed_category_error
    output_message :=
      if s.some_feed_category_error then
        "Import successfull, but some feeds/categories were not imported due to error."
      else "Import was completely successfull."
    log := s.log
    iterations := s.iterations }

/-- `StandardServiceRoot::mergeImportExportModel(model, output_message)` called
on the object at address `root`, with `model_root` the tree under
`model->rootItem()`. -/
def mergeImportExportModel (addItself : AddItself) (fuel : Nat) (h : Heap) (root : Nat)
    (model_root : SrcItem) : Run MergeResult :=
  match mergeLoop addItself fuel (mergeInit h root model_root) with
  | Run.done s => Run.done (mergeFinish s)
  | Run.outOfFuel => Run.outOfFuel
  | Run.popOnEmpty => Run.popOnEmpty

/-- The number of source nodes under the entries of the stack `new_parents`,
the entries included. -/
def stackSize (l : List (List Nat × SrcItem)) : Nat :=
  (l.map (fun e => e.2.nodeCount)).sum

/-- The event of a call of `addItself`. -/
def attachEvent (s : MergeState) (target_parent : Nat) (path : List Nat)
    (source_item : SrcItem) (ok : Bool) : AttachEvent :=
  ⟨s.heap, target_parent, path, cloneOf source_item, ok⟩

/-- A merge conflict: the call of `addItself` failed, and the clone was a feed
or the attach point had no child category with the title of the clone. -/
def AttachEvent.isConflict (e : AttachEvent) : Bool :=
  !e.ok && (decide (e.item.kind = RootItemKind.Feed) ||
    !hasChildCategoryTitled e.heap e.target e.item.title)

/-- The call of `addItself` failed and the attach point had no child category
with the title of the clone. -/
def AttachEvent.failedWithoutFallback (e : AttachEvent) : Bool :=
  !e.ok && !hasChildCategoryTitled e.heap e.target e.item.title

/-! ## Concrete inputs -/

/-- An unused cell of the heap. -/
def blankItem : RootItem :=
  { kind := RootItemKind.Feed, id := 0, title := "", childItems := [], parent := none }

/-- A destination hierarchy: the root (address 0) has the category "News"
(address 1), which has the feed "A" (address 2). -/
def newsHeap : Heap :=
  { item := fun x =>
      match x with
      | 0 => { kind := RootItemKind.Root, id := 0, title := "root", childItems := [1],
               parent := none }
      | 1 => { kind := RootItemKind.Category, id := 5, title := "News", childItems := [2],
               parent := some 0 }
      | 2 => { kind := RootItemKind.Feed, id := 7, title := "A", childItems := [],
               parent := some 1 }
      | _ => blankItem
    next := 3 }

/-- A source tree: under the root, the checked category "News" with the
checked feed "B". -/
def newsSource : SrcItem :=
  .mk RootItemKind.Root 0 "" false
    [.mk RootItemKind.Category 0 "News" true [.mk RootItemKind.Feed 0 "B" true []]]

/-- An `addItself` that fails exactly when the attach point already has a child
with the title of the clone. -/
def addUnlessTitleTaken : AddItself :=
  fun _ h target clone =>
    !(h.item target).childItems.any (fun x => decide ((h.item x).title = clone.title))

/-- The invariant of the merge on positions: every call of `addItself` was for
the clone of a node of the source tree other than its root, at a position
whose nodes are all checked; and every entry of `new_parents` is the node at
its position, with all the nodes on the way checked. -/
def PathInv (src : SrcItem) (s : MergeState) : Prop :=
  (∀ e ∈ s.log, e.path ≠ [] ∧ src.checkedAlong e.path = true ∧
    ∃ c, src.nodeAt e.path = some c ∧ e.item = cloneOf c) ∧
  (∀ e ∈ s.new_parents, src.nodeAt e.1 = some e.2 ∧ src.checkedAlong e.1 = true)

/-- A source tree whose root is unchecked and has one checked feed. -/
def uncheckedRootSource : SrcItem :=
  .mk RootItemKind.Root 0 "" false [.mk RootItemKind.Feed 0 "B" true []]

/-! ## The invariant on the parents of categories -/

/-- Every allocated category that has a parent has the root or a category as
its parent. -/
def CategoryParentOK (root : Nat) (h : Heap) : Prop :=
  ∀ x, x < h.next → (h.item x).kind = RootItemKind.Category →
    ∀ p, (h.item x).parent = some p → p = root ∨ (h.item p).kind = RootItemKind.Category

/-- The pointers stored in allocated objects are addresses of allocated
objects. -/
def WellAllocated (h : Heap) : Prop :=
  ∀ x, x < h.next →
    (∀ c ∈ (h.item x).childItems, c < h.next) ∧
    (∀ p, (h.item x).parent = some p → p < h.next)

/-- An attach point: an allocated object that is the root or a category. -/
def AttachPoint (root : Nat) (h : Heap) (t : Nat) : Prop :=
  t < h.next ∧ (t = root ∨ (h.item t).kind = RootItemKind.Category)

/-- The invariant of the merge on the destination heap. -/
structure MergeInv (root : Nat) (s : MergeState) : Prop where
  alloc : WellAllocated s.heap
  parents : CategoryParentOK root s.heap
  stack : ∀ t ∈ s.original_parents, AttachPoint root s.heap t

/-- A heap for `assembleCategories`: the root (address 0) and two categories
not yet in the hierarchy, with ids 5 (address 1) and 7 (address 2). -/
def twoCategoriesHeap : Heap :=
  { item := fun x =>
      match x with
      | 0 => { kind := RootItemKind.Root, id := 0, title := "root", childItems := [],
               parent := none }
      | 1 => { kind := RootItemKind.Category, id := 5, title := "a", childItems := [],
               parent := none }
      | 2 => { kind := RootItemKind.Category, id := 7, title := "b", childItems := [],
               parent := none }
      | _ => blankItem
    next := 3 }

/-- A heap for `assembleFeeds`: the root (address 0) has the category with id 5
(address 1); two feeds (addresses 2 and 3) are not yet in the hierarchy. -/
def oneCategoryHeap : Heap :=
  { item := fun x =>
      match x with
      | 0 => { kind := RootItemKind.Root, id := 0, title := "root", childItems := [1],
               parent := none }
      | 1 => { kind := RootItemKind.Category, id := 5, title := "a", childItems := [],
               parent := some 0 }
      | 2 => { kind := RootItemKind.Feed, id := 1, title := "f", childItems := [],
               parent := none }
      | 3 => { kind := RootItemKind.Feed, id := 2, title := "g", childItems := [],
               parent := none }
      | _ => blankItem
    next := 4 }

/-- A source tree in which no node is checked. -/
def uncheckedSource : SrcItem :=
  .mk RootItemKind.Root 0 "" false
    [.mk RootItemKind.Category 0 "News" false [.mk RootItemKind.Feed 0 "B" false []]]

/-- A source tree with one checked feed, titled "News". -/
def feedNamedNewsSource : SrcItem :=
  .mk RootItemKind.Root 0 "" false [.mk RootItemKind.Feed 0 "News" true []]

/-- A source tree with an unchecked category that holds a checked feed. -/
def uncheckedCategorySource : SrcItem :=
  .mk RootItemKind.Root 0 "" false
    [.mk RootItemKind.Category 0 "News" false [.mk RootItemKind.Feed 0 "B" true []]]

/-- The invariant of the merge on the objects it creates, `h` being the heap
the merge started from: as many objects were created as calls of `addItself`
succeeded, and every object created is the clone of such a call, stored at the
first address that was unallocated at the time of the call, with the attach
point of the call as its parent. -/
def NewObjects (h : Heap) (heap : Heap) (log : List AttachEvent) : Prop :=
  heap.next = h.next + (log.filter (fun e => e.ok)).length ∧
  ∀ a, h.next ≤ a → a < heap.next →
    ∃ e ∈ log, e.ok = true ∧ e.heap.next = a ∧
      (heap.item a).kind = e.item.kind ∧ (heap.item a).id = e.item.id ∧
      (heap.item a).title = e.item.title ∧ (heap.item a).parent = some e.target

/-! ## The pairing of the two stacks of the merge -/

/-- The state after `n` iterations of the `while` loop of
`mergeImportExportModel`, when the loop makes that many: `none` when the loop
has ended before, or when a `pop()` hit an empty stack. -/
def mergeAfter (addItself : AddItself) : Nat → MergeState → Option MergeState
  | 0, s => some s
  | n + 1, s =>
    match s.new_parents with
    | [] => none
    | _ :: _ =>
      match mergeIteration addItself s with
      | none => none
      | some s' => mergeAfter addItself n s'

/-- Where a pair (attach point `t`, source node `sp` at position `path`) of
the two stacks comes from: the attach point is the root and the source node is
the root of the source tree; or a call of `addItself` for the clone of the
source node succeeded and the attach point is that clone, the object created
by the call; or a call of `addItself` for the clone of the source node failed
and the attach point was then a child of the attach point of the call, a
category with the title of the source node. -/
def PairOK (root : Nat) (src : SrcItem) (heap : Heap) (log : List AttachEvent)
    (t : Nat) (path : List Nat) (sp : SrcItem) : Prop :=
  (t = root ∧ path = [] ∧ sp = src) ∨
  (∃ e ∈ log, e.ok = true ∧ e.path = path ∧ e.item = cloneOf sp ∧
    sp.kind = RootItemKind.Category ∧ t = e.heap.next ∧ t < heap.next ∧
    (heap.item t).kind = sp.kind ∧ (heap.item t).id = sp.id ∧
    (heap.item t).title = sp.title ∧ (heap.item t).parent = some e.target) ∨
  (∃ e ∈ log, e.ok = false ∧ e.path = path ∧ e.item = cloneOf sp ∧
    sp.kind = RootItemKind.Category ∧ t ∈ (e.heap.item e.target).childItems ∧
    (e.heap.item t).kind = RootItemKind.Category ∧ (e.heap.item t).title = sp.title)

/-- The invariant of the merge on its two stacks: they have the same length,
and every entry of `original_parents` with the entry of `new_parents` at the
same depth is a pair as described by `PairOK`. -/
def StacksPaired (root : Nat) (src : SrcItem) (s : MergeState) : Prop :=
  s.original_parents.length = s.new_parents.length ∧
  ∀ pr ∈ s.original_parents.zip s.new_parents,
    PairOK root src s.heap s.log pr.1 pr.2.1 pr.2.2

/-- In the heap as it is now, the attach point is the root or a category with
the title of the source node. -/
def PairNow (root : Nat) (heap : Heap) (t : Nat) (sp : SrcItem) : Prop :=
  t = root ∨
    ((heap.item t).kind = RootItemKind.Category ∧ (heap.item t).title = sp.title)

/-- The invariant of the merge on a heap whose allocated objects only point to
allocated objects: this stays so, the root and the entries of
`original_parents` are allocated, and every pair of the stacks is as described
by `PairNow`. -/
def StacksNow (root : Nat) (s : MergeState) : Prop :=
  WellAllocated s.heap ∧ root < s.heap.next ∧
  ∀ pr ∈ s.original_parents.zip s.new_parents,
    pr.1 < s.heap.next ∧ PairNow root s.heap pr.1 pr.2.2

/-- The second heap extends the first: it has the allocated objects of the
first, with the same kind, id, title and parent. -/
def HeapExt (g g' : Heap) : Prop :=
  g.next ≤ g'.next ∧
  ∀ x, x < g.next →
    (g'.item x).kind = (g.item x).kind ∧ (g'.item x).id = (g.item x).id ∧
    (g'.item x).title = (g.item x).title ∧ (g'.item x).parent = (g.item x).parent

/-! ## Where `assembleFeeds` puts a pair -/

/-- The object under which a (parent id, feed) pair belongs: the root when the
parent id is the sentinel, the category that the hash has for the parent id
when there is one, no object otherwise. -/
def feedTarget (NO_PARENT_CATEGORY : Int) (root : Nat) (categories : QHash)
    (feed : Int × Nat) : Option Nat :=
  if feed.1 = NO_PARENT_CATEGORY then some root else categories feed.1

/-- A heap for `assembleFeeds`: the root (address 0) has the category with id 5
(address 1); three feeds (addresses 2, 3 and 4) are not yet in the
hierarchy. -/
def threeFeedsHeap : Heap :=
  { item := fun x =>
      match x with
      | 0 => { kind := RootItemKind.Root, id := 0, title := "root", childItems := [1],
               parent := none }
      | 1 => { kind := RootItemKind.Category, id := 5, title := "a", childItems := [],
               parent := some 0 }
      | 2 => { kind := RootItemKind.Feed, id := 1, title := "f", childItems := [],
               parent := none }
      | 3 => { kind := RootItemKind.Feed, id := 2, title := "g", childItems := [],
               parent := none }
      | 4 => { kind := RootItemKind.Feed, id := 3, title := "k", childItems := [],
               parent := none }
      | _ => blankItem
    next := 5 }

/-- The source node with its checked flag set to `b` (what
`model->isItemChecked` returns for the node itself), everything else kept. -/
def SrcItem.withChecked (b : Bool) : SrcItem → SrcItem
  | .mk k i t _ cs => .mk k i t b cs

/-- A source tree with nested checked categories: "Sport" holds the category
"Football" and the feed "F". -/
def sportSource : SrcItem :=
  .mk RootItemKind.Root 0 "" false
    [.mk RootItemKind.Category 0 "Sport" true
      [.mk RootItemKind.Category 0 "Football" true [],
       .mk RootItemKind.Feed 0 "F" true []]]

/-! ## The log of the merge and the calls of `addItself` -/

/-- The destination heap after the calls of the log, from the heap `h`: a call
that succeeded attached its clone, a call that failed left the heap as it
was. -/
def replayLog (h : Heap) (log : List AttachEvent) : Heap :=
  log.foldl (fun g e => if e.ok then attachClone g e.target e.item else g) h

/-- The attach point for the children of the source category of a call of
`addItself`: the clone (the object the call created) when the call succeeded,
the category that the search of lines 293-298 finds when the call failed. -/
def NextAttachPoint (e : AttachEvent) (t : Nat) : Prop :=
  (e.ok = true ∧ t = e.heap.next) ∨
  (e.ok = false ∧ findExisting e.heap e.target e.item.title = some t)

/-- The object `t` is an attach point for the children of the source node at
the position `path`: the position is the one of the root of the source tree and
`t` is the root, or a call of `addItself` was made for the clone of a category
at that position and `t` is the attach point that follows from the call. -/
def AttachPointAt (root : Nat) (log : List AttachEvent) (t : Nat) (path : List Nat) :
    Prop :=
  (path = [] ∧ t = root) ∨
  ∃ e ∈ log, e.path = path ∧ e.item.kind = RootItemKind.Category ∧ NextAttachPoint e t

/-- For each of the first `i` children of the source node `sp` (at position
`path`) that is checked and is a category or a feed, a call of `addItself` was
made for its clone with attach point `t`. -/
def ChildrenTriedUpTo (log : List AttachEvent) (t : Nat) (path : List Nat)
    (sp : SrcItem) (i : Nat) : Prop :=
  ∀ j c, j < i → sp.childItems[j]? = some c → c.checked = true →
    (c.kind = RootItemKind.Category ∨ c.kind = RootItemKind.Feed) →
    ∃ e ∈ log, e.path = path ++ [j] ∧ e.target = t ∧ e.item = cloneOf c

/-- For every child of the source node `sp` (at position `path`) that is
checked and is a category or a feed, a call of `addItself` was made for its
clone with attach point `t`. -/
def ChildrenTried (log : List AttachEvent) (t : Nat) (path : List Nat)
    (sp : SrcItem) : Prop :=
  ∀ j c, sp.childItems[j]? = some c → c.checked = true →
    (c.kind = RootItemKind.Category ∨ c.kind = RootItemKind.Feed) →
    ∃ e ∈ log, e.path = path ++ [j] ∧ e.target = t ∧ e.item = cloneOf c

/-- The invariant of the merge on its log: the heap is the one that the calls
of the log lead to; every entry of the log has the heap at the time of the
call and the answer of `addItself` to the call; the clones are categories and
feeds; every call was made at an attach point for the parent of its source
node; and the entries of the stacks are attach points for their source
nodes. -/
structure LogInv (addItself : AddItself) (h : Heap) (root : Nat) (s : MergeState) :
    Prop where
  heap_eq : s.heap = replayLog h s.log
  calls : ∀ i e, s.log[i]? = some e →
    e.heap = replayLog h (s.log.take i) ∧ e.ok = addItself i e.heap e.target e.item
  kinds : ∀ e ∈ s.log,
    e.item.kind = RootItemKind.Category ∨ e.item.kind = RootItemKind.Feed
  targets : ∀ e ∈ s.log, ∃ path j, e.path = path ++ [j] ∧
    AttachPointAt root s.log e.target path
  stack : ∀ pr ∈ s.original_parents.zip s.new_parents,
    AttachPointAt root s.log pr.1 pr.2.1

/-- Between two iterations of the `while` loop: for every attach point of a
source node, the pair is on the stacks or the children of the source node have
been tried. -/
def Pending (root : Nat) (src : SrcItem) (s : MergeState) : Prop :=
  ∀ t path sp, AttachPointAt root s.log t path → src.nodeAt path = some sp →
    (t, (path, sp)) ∈ s.original_parents.zip s.new_parents ∨
      ChildrenTried s.log t path sp

/-- Inside the `foreach` over the children of the source node at position
`path0`, with attach point `t0`, before the child of index `i0`: as `Pending`,
but for the pair being processed the children before `i0` have been tried. -/
def PendingAt (root : Nat) (src : SrcItem) (t0 : Nat) (path0 : List Nat) (i0 : Nat)
    (s : MergeState) : Prop :=
  ∀ t path sp, AttachPointAt root s.log t path → src.nodeAt path = some sp →
    (t, (path, sp)) ∈ s.original_parents.zip s.new_parents ∨
      ChildrenTried s.log t path sp ∨
      (t = t0 ∧ path = path0 ∧ ChildrenTriedUpTo s.log t path sp i0)

/-- An `addItself` that fails on every call. -/
def addNever : AddItself :=
  fun _ _ _ _ => false

/-! ## Lemmas on the scan of `assembleCategories` -/

theorem scan_kept (h : Heap) (a : QHash) (kept todo : List (Int × Nat)) :
    scanCategories h a kept todo =
      ⟨(scanCategories h a [] todo).heap, (scanCategories h a [] todo).assignments,
        kept ++ (scanCategories h a [] todo).categories⟩ := by
  induction todo generalizing h a kept with
  | nil => simp [scanCategories]
  | cons p rest ih =>
    obtain ⟨pid, c⟩ := p
    cases hp : a pid with
    | some q =>
      simp only [scanCategories, hp]
      rw [ih]
    | none =>
      simp only [scanCategories, hp]
      rw [ih, ih h a ([] ++ [(pid, c)])]
      simp

theorem scan_cons_some (h : Heap) (a : QHash) (pid : Int) (c q : Nat)
    (rest : List (Int × Nat)) (hp : a pid = some q) :
    scanCategories h a [] ((pid, c) :: rest) =
      scanCategories (appendChild h q c)
        (a.insert ((appendChild h q c).item c).id c) [] rest := by
  simp [scanCategories, hp]

theorem scan_cons_none (h : Heap) (a : QHash) (pid : Int) (c : Nat)
    (rest : List (Int × Nat)) (hp : a pid = none) :
    scanCategories h a [] ((pid, c) :: rest) =
      ⟨(scanCategories h a [] rest).heap, (scanCategories h a [] rest).assignments,
        (pid, c) :: (scanCategories h a [] rest).categories⟩ := by
  simp only [scanCategories, hp]
  rw [scan_kept]
  simp

theorem insert_isSome_mono (a : QHash) (key : Int) (v : Nat) (k : Int)
    (hk : (a k).isSome = true) : ((a.insert key v) k).isSome = true := by
  unfold QHash.insert
  split <;> simp_all

theorem scan_sublist (h : Heap) (a : QHash) (todo : List (Int × Nat)) :
    (scanCategories h a [] todo).categories.Sublist todo := by
  induction todo generalizing h a with
  | nil => simp [scanCategories]
  | cons p rest ih =>
    obtain ⟨pid, c⟩ := p
    cases hp : a pid with
    | some q =>
      rw [scan_cons_some _ _ _ _ _ _ hp]
      exact (ih _ _).trans (List.sublist_cons_self _ _)
    | none =>
      rw [scan_cons_none _ _ _ _ _ hp]
      exact (ih _ _).cons₂ _

theorem scan_keys_mono (h : Heap) (a : QHash) (todo : List (Int × Nat)) (k : Int)
    (hk : (a k).isSome = true) :
    ((scanCategories h a [] todo).assignments k).isSome = true := by
  induction todo generalizing h a with
  | nil => simpa [scanCategories] using hk
  | cons p rest ih =>
    obtain ⟨pid, c⟩ := p
    cases hp : a pid with
    | some q =>
      rw [scan_cons_some _ _ _ _ _ _ hp]
      exact ih _ _ (insert_isSome_mono _ _ _ _ hk)
    | none =>
      rw [scan_cons_none _ _ _ _ _ hp]
      exact ih _ _ hk

theorem scan_pending_none (h : Heap) (a : QHash) (todo : List (Int × Nat))
    (p : Int × Nat) (hp : p ∈ (scanCategories h a [] todo).categories) :
    a p.1 = none := by
  induction todo generalizing h a with
  | nil => simp [scanCategories] at hp
  | cons p0 rest ih =>
    obtain ⟨pid, c⟩ := p0
    cases hq : a pid with
    | some q =>
      rw [scan_cons_some _ _ _ _ _ _ hq] at hp
      have h1 := ih _ _ hp
      by_contra hne
      have h2 : (a p.1).isSome = true := by
        cases hx : a p.1 with
        | none => exact absurd hx hne
        | some _ => rfl
      have h3 := insert_isSome_mono a ((appendChild h q c).item c).id c p.1 h2
      rw [h1] at h3
      simp at h3
    | none =>
      rw [scan_cons_none _ _ _ _ _ hq] at hp
      simp only [List.mem_cons] at hp
      rcases hp with rfl | hp
      · exact hq
      · exact ih _ _ hp

theorem scan_removed_key (h : Heap) (a : QHash) (todo : List (Int × Nat))
    (p : Int × Nat) (hp : p ∈ todo)
    (hn : p ∉ (scanCategories h a [] todo).categories) :
    ((scanCategories h a [] todo).assignments p.1).isSome = true := by
  induction todo generalizing h a with
  | nil => simp at hp
  | cons p0 rest ih =>
    obtain ⟨pid, c⟩ := p0
    cases hq : a pid with
    | some q =>
      rw [scan_cons_some _ _ _ _ _ _ hq] at hn ⊢
      by_cases hmem : p ∈ rest
      · exact ih _ _ hmem hn
      · have hpe : p = (pid, c) := by
          rcases List.mem_cons.1 hp with h1 | h1
          · exact h1
          · exact absurd h1 hmem
        subst hpe
        apply scan_keys_mono
        apply insert_isSome_mono
        simp [hq]
    | none =>
      rw [scan_cons_none _ _ _ _ _ hq] at hn ⊢
      simp only [List.mem_cons, not_or] at hn
      rcases List.mem_cons.1 hp with h1 | h1
      · exact absurd h1 hn.1
      · exact ih _ _ h1 hn.2

theorem scan_noop (h : Heap) (a : QHash) (todo : List (Int × Nat))
    (hall : ∀ p ∈ todo, a p.1 = none) :
    scanCategories h a [] todo = ⟨h, a, todo⟩ := by
  induction todo with
  | nil => simp [scanCategories]
  | cons p0 rest ih =>
    obtain ⟨pid, c⟩ := p0
    have hq : a pid = none := hall (pid, c) (List.mem_cons_self _ _)
    rw [scan_cons_none _ _ _ _ _ hq, ih (fun p hp => hall p (List.mem_cons_of_mem _ hp))]


/-! ## Lemmas on the passes and on the `while` loop of `assembleCategories` -/

theorem pass_sublist (s : AssembleState) :
    (assemblePass s).categories.Sublist s.categories :=
  scan_sublist _ _ _

theorem pass_keys_mono (s : AssembleState) (k : Int)
    (hk : (s.assignments k).isSome = true) :
    ((assemblePass s).assignments k).isSome = true :=
  scan_keys_mono _ _ _ _ hk

theorem assembleScans_succ (n : Nat) (s : AssembleState) :
    assembleScans (n + 1) s = assemblePass (assembleScans n s) := by
  simp [assembleScans, Function.iterate_succ_apply']

theorem assembleScans_succ_left (n : Nat) (s : AssembleState) :
    assembleScans (n + 1) s = assembleScans n (assemblePass s) := by
  simp [assembleScans, Function.iterate_succ_apply]

theorem scans_keys_mono (s : AssembleState) (k : Int) {n m : Nat} (hnm : n ≤ m)
    (hk : ((assembleScans n s).assignments k).isSome = true) :
    ((assembleScans m s).assignments k).isSome = true := by
  induction hnm with
  | refl => exact hk
  | step _ ih =>
    rw [assembleScans_succ]
    exact pass_keys_mono _ _ ih

theorem scans_sublist (s : AssembleState) {n m : Nat} (hnm : n ≤ m) :
    (assembleScans m s).categories.Sublist (assembleScans n s).categories := by
  induction hnm with
  | refl => exact List.Sublist.refl _
  | step _ ih =>
    rw [assembleScans_succ]
    exact (pass_sublist _).trans ih

theorem pass_noop (s : AssembleState)
    (hall : ∀ p ∈ s.categories, s.assignments p.1 = none) : assemblePass s = s := by
  unfold assemblePass
  rw [scan_noop _ _ _ hall]

theorem pass_noop_of_length (s : AssembleState)
    (hlen : (assemblePass s).categories.length = s.categories.length) :
    assemblePass s = s := by
  have heq : (assemblePass s).categories = s.categories :=
    (pass_sublist s).eq_of_length hlen
  apply pass_noop
  intro p hp
  rw [← heq] at hp
  exact scan_pending_none _ _ _ _ hp

theorem assembleLoop_of_empty (fuel : Nat) (s : AssembleState)
    (he : s.categories = []) : assembleLoop fuel s = some s := by
  cases fuel <;> simp [assembleLoop, he]

theorem assembleLoop_succ (fuel : Nat) (s : AssembleState)
    (he : s.categories ≠ []) :
    assembleLoop (fuel + 1) s = assembleLoop fuel (assemblePass s) := by
  rw [assembleLoop]
  simp [he]

theorem assembleLoop_zero (s : AssembleState) (he : s.categories ≠ []) :
    assembleLoop 0 s = none := by
  rw [assembleLoop]
  simp [he]

/-- The loop returns as soon as the fuel covers a number of scans after which
the pending list is empty. -/
theorem assembleLoop_of_scans (n : Nat) :
    ∀ (s : AssembleState), (assembleScans n s).categories = [] →
      ∀ fuel, n ≤ fuel → ∃ m, m ≤ n ∧ assembleLoop fuel s = some (assembleScans m s) ∧
        (assembleScans m s).categories = [] := by
  induction n with
  | zero =>
    intro s he fuel _
    exact ⟨0, le_refl _, assembleLoop_of_empty _ _ he, he⟩
  | succ n ih =>
    intro s he fuel hf
    by_cases h0 : s.categories = []
    · exact ⟨0, Nat.zero_le _, assembleLoop_of_empty _ _ h0, h0⟩
    · obtain ⟨f, rfl⟩ : ∃ f, fuel = f + 1 := ⟨fuel - 1, by omega⟩
      rw [assembleScans_succ_left] at he
      obtain ⟨m, hm, hl, hc⟩ := ih (assemblePass s) he f (by omega)
      refine ⟨m + 1, by omega, ?_, ?_⟩
      · rw [assembleLoop_succ _ _ h0, hl, assembleScans_succ_left]
      · rw [assembleScans_succ_left]; exact hc

/-- A result of the loop is the state after some number of scans, and its
pending list is empty. -/
theorem assembleLoop_some (fuel : Nat) :
    ∀ (s r : AssembleState), assembleLoop fuel s = some r →
      ∃ n, n ≤ fuel ∧ r = assembleScans n s ∧ r.categories = [] := by
  induction fuel with
  | zero =>
    intro s r hr
    by_cases h0 : s.categories = []
    · rw [assembleLoop_of_empty _ _ h0] at hr
      cases hr
      exact ⟨0, le_refl _, rfl, h0⟩
    · rw [assembleLoop_zero _ h0] at hr
      cases hr
  | succ f ih =>
    intro s r hr
    by_cases h0 : s.categories = []
    · rw [assembleLoop_of_empty _ _ h0] at hr
      cases hr
      exact ⟨0, Nat.zero_le _, rfl, h0⟩
    · rw [assembleLoop_succ _ _ h0] at hr
      obtain ⟨n, hn, hrn, hc⟩ := ih _ _ hr
      exact ⟨n + 1, by omega, by rw [assembleScans_succ_left]; exact hrn, hc⟩

/-- An entry that left the pending list has its parent id in `assignments`. -/
theorem scans_removed_key (s : AssembleState) (p : Int × Nat) (hp : p ∈ s.categories) :
    ∀ n, p ∉ (assembleScans n s).categories →
      ∃ m, m ≤ n ∧ ((assembleScans m s).assignments p.1).isSome = true := by
  intro n
  induction n with
  | zero => intro hn; exact absurd hp hn
  | succ n ih =>
    intro hn
    by_cases hmem : p ∈ (assembleScans n s).categories
    · refine ⟨n + 1, le_refl _, ?_⟩
      rw [assembleScans_succ] at hn ⊢
      exact scan_removed_key _ _ _ _ hmem hn
    · obtain ⟨m, hm, hk⟩ := ih hmem
      exact ⟨m, by omega, hk⟩

/-- From a state with a non-empty pending list in which some entry stays
pending for ever, a state is reached which a scan leaves unchanged. -/
theorem scans_stuck (k : Nat) :
    ∀ (s : AssembleState), s.categories.length ≤ k →
      (∀ n, (assembleScans n s).categories ≠ []) →
      ∃ n, assemblePass (assembleScans n s) = assembleScans n s := by
  induction k with
  | zero =>
    intro s hk hne
    have := hne 0
    simp [assembleScans] at this
    simp [this] at hk
  | succ k ih =>
    intro s hk hne
    by_cases hlen : (assemblePass s).categories.length = s.categories.length
    · exact ⟨0, by simpa [assembleScans] using pass_noop_of_length s hlen⟩
    · have hlt : (assemblePass s).categories.length < s.categories.length :=
        lt_of_le_of_ne (pass_sublist s).length_le hlen
      obtain ⟨n, hn⟩ := ih (assemblePass s) (by omega)
        (fun n => by rw [← assembleScans_succ_left]; exact hne (n + 1))
      exact ⟨n + 1, by rw [assembleScans_succ_left]; exact hn⟩

theorem assembleLoop_none (s : AssembleState)
    (hne : ∀ n, (assembleScans n s).categories ≠ []) :
    ∀ fuel, assembleLoop fuel s = none := by
  intro fuel
  cases hr : assembleLoop fuel s with
  | none => rfl
  | some r =>
    obtain ⟨n, _, hrn, hc⟩ := assembleLoop_some fuel s r hr
    rw [hrn] at hc
    exact absurd hc (hne n)


/-! ## Lemmas on `appendChild` -/

@[simp] theorem appendChild_childItems (h : Heap) (p c x : Nat) :
    ((appendChild h p c).item x).childItems =
      if x = p then (h.item x).childItems ++ [c] else (h.item x).childItems := by
  unfold appendChild Heap.store
  by_cases hxc : x = c <;> by_cases hxp : x = p <;> by_cases hcp : c = p <;>
    simp_all

@[simp] theorem appendChild_id (h : Heap) (p c x : Nat) :
    ((appendChild h p c).item x).id = (h.item x).id := by
  unfold appendChild Heap.store
  by_cases hxc : x = c <;> by_cases hxp : x = p <;> by_cases hcp : c = p <;>
    simp_all

@[simp] theorem appendChild_kind (h : Heap) (p c x : Nat) :
    ((appendChild h p c).item x).kind = (h.item x).kind := by
  unfold appendChild Heap.store
  by_cases hxc : x = c <;> by_cases hxp : x = p <;> by_cases hcp : c = p <;>
    simp_all

@[simp] theorem appendChild_title (h : Heap) (p c x : Nat) :
    ((appendChild h p c).item x).title = (h.item x).title := by
  unfold appendChild Heap.store
  by_cases hxc : x = c <;> by_cases hxp : x = p <;> by_cases hcp : c = p <;>
    simp_all

@[simp] theorem appendChild_parent (h : Heap) (p c x : Nat) :
    ((appendChild h p c).item x).parent =
      if x = c then some p else (h.item x).parent := by
  unfold appendChild Heap.store
  by_cases hxc : x = c <;> by_cases hxp : x = p <;> by_cases hcp : c = p <;>
    simp_all

@[simp] theorem appendChild_next (h : Heap) (p c : Nat) :
    (appendChild h p c).next = h.next := by
  simp [appendChild, Heap.store]


/-! ## Termination of `assembleCategories` -/

theorem exists_common_scan (s : AssembleState) (l : List (Int × Nat))
    (hl : ∀ p ∈ l, ∃ n, ((assembleScans n s).assignments p.1).isSome = true) :
    ∃ N, ∀ p ∈ l, ((assembleScans N s).assignments p.1).isSome = true := by
  induction l with
  | nil => exact ⟨0, by simp⟩
  | cons q l ih =>
    obtain ⟨N, hN⟩ := ih (fun p hp => hl p (List.mem_cons_of_mem _ hp))
    obtain ⟨n, hn⟩ := hl q (List.mem_cons_self _ _)
    refine ⟨max N n, ?_⟩
    intro p hp
    rcases List.mem_cons.1 hp with rfl | hp
    · exact scans_keys_mono _ _ (le_max_right _ _) hn
    · exact scans_keys_mono _ _ (le_max_left _ _) (hN p hp)

theorem scans_empty_of_keys (s : AssembleState) (N : Nat)
    (hN : ∀ p ∈ s.categories, ((assembleScans N s).assignments p.1).isSome = true) :
    (assembleScans (N + 1) s).categories = [] := by
  rw [List.eq_nil_iff_forall_not_mem]
  intro p hp
  have hmem : p ∈ s.categories :=
    (scans_sublist s (Nat.zero_le (N + 1))).subset hp
  rw [assembleScans_succ] at hp
  have hnone := scan_pending_none _ _ _ _ hp
  have := hN p hmem
  rw [hnone] at this
  simp at this

theorem scan_ids (todo : List (Int × Nat)) :
    ∀ (g : Heap) (a : QHash) (x : Nat),
      ((scanCategories g a [] todo).heap.item x).id = (g.item x).id := by
  induction todo with
  | nil => intro g a x; rfl
  | cons p0 rest ih =>
    intro g a x
    obtain ⟨pid, c⟩ := p0
    cases hq : a pid with
    | some q => rw [scan_cons_some _ _ _ _ _ _ hq, ih, appendChild_id]
    | none => rw [scan_cons_none _ _ _ _ _ hq]; exact ih g a x

theorem scans_ids (s : AssembleState) (n : Nat) (x : Nat) :
    ((assembleScans n s).heap.item x).id = (s.heap.item x).id := by
  induction n with
  | zero => rfl
  | succ n ih =>
    rw [assembleScans_succ]
    unfold assemblePass
    rw [scan_ids, ih]

/-- The id of an entry that left the pending list is a key of `assignments`. -/
theorem scan_attached_id (todo : List (Int × Nat)) :
    ∀ (g : Heap) (a : QHash) (p : Int × Nat), p ∈ todo →
      p ∉ (scanCategories g a [] todo).categories →
      ((scanCategories g a [] todo).assignments (g.item p.2).id).isSome = true := by
  induction todo with
  | nil => intro g a p hp; simp at hp
  | cons p0 rest ih =>
    intro g a p hp hn
    obtain ⟨pid, c⟩ := p0
    cases hq : a pid with
    | some q =>
      rw [scan_cons_some _ _ _ _ _ _ hq] at hn ⊢
      by_cases hmem : p ∈ rest
      · have := ih _ _ p hmem hn
        simp only [appendChild_id] at this ⊢
        exact this
      · have hpe : p = (pid, c) := by
          rcases List.mem_cons.1 hp with h1 | h1
          · exact h1
          · exact absurd h1 hmem
        subst hpe
        apply scan_keys_mono
        simp [QHash.insert]
    | none =>
      rw [scan_cons_none _ _ _ _ _ hq] at hn ⊢
      simp only [List.mem_cons, not_or] at hn
      rcases List.mem_cons.1 hp with h1 | h1
      · exact absurd h1 hn.1
      · exact ih _ _ p h1 hn.2

/-- The keys of `assignments` after a scan were keys before, or are ids of
entries whose parent id is a key after the scan. -/
theorem scan_keys_resolvable (np : Int) (h : Heap) (cats : List (Int × Nat))
    (todo : List (Int × Nat)) :
    ∀ (g : Heap) (a : QHash), (∀ x, (g.item x).id = (h.item x).id) →
      (∀ p ∈ todo, p ∈ cats) →
      (∀ k, (a k).isSome = true → Resolvable np h cats k) →
      ∀ k, ((scanCategories g a [] todo).assignments k).isSome = true →
        Resolvable np h cats k := by
  induction todo with
  | nil => intro g a _ _ ha k hk; exact ha k hk
  | cons p0 rest ih =>
    intro g a hg hsub ha k hk
    obtain ⟨pid, c⟩ := p0
    cases hq : a pid with
    | some q =>
      rw [scan_cons_some _ _ _ _ _ _ hq] at hk
      refine ih _ _ (fun x => by rw [appendChild_id]; exact hg x)
        (fun p hp => hsub p (List.mem_cons_of_mem _ hp)) ?_ k hk
      intro k' hk'
      unfold QHash.insert at hk'
      split at hk'
      · next hkc =>
        rw [hkc, appendChild_id, hg]
        exact Resolvable.step (pid, c) (hsub _ (List.mem_cons_self _ _))
          (ha pid (by rw [hq]; rfl))
      · exact ha k' hk'
    | none =>
      rw [scan_cons_none _ _ _ _ _ hq] at hk
      exact ih g a hg (fun p hp => hsub p (List.mem_cons_of_mem _ hp)) ha k hk

theorem scans_keys_resolvable (np : Int) (h : Heap) (root : Nat) (cats : List (Int × Nat))
    (n : Nat) :
    ∀ k, ((assembleScans n (assembleInit np h root cats)).assignments k).isSome = true →
      Resolvable np h cats k := by
  induction n with
  | zero =>
    intro k hk
    simp only [assembleScans, Function.iterate_zero, id_eq, assembleInit, QHash.insert,
      QHash.empty] at hk
    split at hk
    · next hkn => rw [hkn]; exact Resolvable.sentinel
    · simp at hk
  | succ n ih =>
    rw [assembleScans_succ]
    exact scan_keys_resolvable np h cats _ _ _
      (fun x => scans_ids (assembleInit np h root cats) n x)
      (fun p hp => (scans_sublist (assembleInit np h root cats) (Nat.zero_le n)).subset hp) ih

theorem resolvable_enters (np : Int) (h : Heap) (root : Nat) (cats : List (Int × Nat))
    (k : Int) (hk : Resolvable np h cats k) :
    ∃ n, ((assembleScans n (assembleInit np h root cats)).assignments k).isSome = true := by
  induction hk with
  | sentinel => exact ⟨0, by simp [assembleScans, assembleInit, QHash.insert]⟩
  | step p hp _ ih =>
    obtain ⟨n, hn⟩ := ih
    have hgone : p ∉ (assembleScans (n + 1) (assembleInit np h root cats)).categories := by
      intro hin
      rw [assembleScans_succ] at hin
      have := scan_pending_none _ _ _ _ hin
      rw [this] at hn
      simp at hn
    -- the first scan after which the entry is no longer pending
    have hfirst : ∀ m, p ∉ (assembleScans m (assembleInit np h root cats)).categories →
        ∃ j, ((assembleScans j (assembleInit np h root cats)).assignments
          (h.item p.2).id).isSome = true := by
      intro m
      induction m with
      | zero => intro hm; exact absurd hp hm
      | succ m ihm =>
        intro hm
        by_cases hmem : p ∈ (assembleScans m (assembleInit np h root cats)).categories
        · refine ⟨m + 1, ?_⟩
          rw [assembleScans_succ] at hm ⊢
          have := scan_attached_id _ _ _ p hmem hm
          rwa [scans_ids] at this
        · exact ihm hmem
    exact hfirst (n + 1) hgone

/-- C2: `assembleCategories` terminates (some amount of fuel makes the `while`
loop return) if and only if the parent id of every pair of the input list is,
after some number of scans, a key of `assignments` (which starts as
`{NO_PARENT_CATEGORY -> root}` and grows by the id of each attached category).
And when the parent id of some pair never becomes a key of `assignments`, a
state is reached whose pending list is non-empty and which a full scan leaves
unchanged, so that the loop returns for no amount of fuel.  The ids that
become keys of `assignments` are the sentinel and, for every pair of the list
whose parent id becomes a key, the id of its category. -/
theorem assembleCategories_terminates_iff (np : Int) (h : Heap) (root : Nat)
    (cats : List (Int × Nat)) :
    ((∃ fuel r, assembleCategories np fuel h root cats = some r) ↔
      ∀ p ∈ cats, ∃ n,
        (assembleScans n (assembleInit np h root cats)).assignments.contains p.1 = true) ∧
    ((∃ p ∈ cats, ∀ n,
        (assembleScans n (assembleInit np h root cats)).assignments.contains p.1 = false) →
      (∃ n, (assembleScans n (assembleInit np h root cats)).categories ≠ [] ∧
          assemblePass (assembleScans n (assembleInit np h root cats)) =
            assembleScans n (assembleInit np h root cats)) ∧
        ∀ fuel, assembleCategories np fuel h root cats = none) ∧
    (∀ k, (∃ n, (assembleScans n (assembleInit np h root cats)).assignments.contains k
        = true) ↔ Resolvable np h cats k) := by
  have hcats : (assembleInit np h root cats).categories = cats := rfl
  refine ⟨⟨?_, ?_⟩, ?_, ?_⟩
  · rintro ⟨fuel, r, hr⟩ p hp
    unfold assembleCategories at hr
    cases hl : assembleLoop fuel (assembleInit np h root cats) with
    | none => rw [hl] at hr; simp at hr
    | some r' =>
      obtain ⟨n, _, hrn, hc⟩ := assembleLoop_some _ _ _ hl
      rw [hrn] at hc
      obtain ⟨m, _, hk⟩ := scans_removed_key (assembleInit np h root cats) p
        (by rw [hcats]; exact hp) n (by rw [hc]; simp)
      exact ⟨m, by simpa [QHash.contains] using hk⟩
  · intro hall
    obtain ⟨N, hN⟩ := exists_common_scan (assembleInit np h root cats) cats
      (fun p hp => by simpa [QHash.contains] using hall p hp)
    have he := scans_empty_of_keys (assembleInit np h root cats) N
      (by rw [hcats]; exact hN)
    obtain ⟨m, _, hl, _⟩ := assembleLoop_of_scans (N + 1) _ he (N + 1) (le_refl _)
    exact ⟨N + 1, (assembleScans m (assembleInit np h root cats)).heap, by
      simp [assembleCategories, hl]⟩
  · rintro ⟨p, hp, hnever⟩
    have hpend : ∀ n, p ∈ (assembleScans n (assembleInit np h root cats)).categories := by
      intro n
      by_contra hn
      obtain ⟨m, _, hk⟩ := scans_removed_key (assembleInit np h root cats) p
        (by rw [hcats]; exact hp) n hn
      have := hnever m
      simp [QHash.contains] at this
      rw [this] at hk
      simp at hk
    have hne : ∀ n, (assembleScans n (assembleInit np h root cats)).categories ≠ [] :=
      fun n he => by have := hpend n; rw [he] at this; simp at this
    obtain ⟨n, hn⟩ := scans_stuck cats.length (assembleInit np h root cats)
      (by rw [hcats]) hne
    refine ⟨⟨n, hne n, hn⟩, ?_⟩
    intro fuel
    simp [assembleCategories, assembleLoop_none _ hne fuel]
  · intro k
    constructor
    · rintro ⟨n, hn⟩
      exact scans_keys_resolvable np h root cats n k (by simpa [QHash.contains] using hn)
    · intro hk
      obtain ⟨n, hn⟩ := resolvable_enters np h root cats k hk
      exact ⟨n, by simpa [QHash.contains] using hn⟩

/-! ## The invariant of `assembleCategories` -/

theorem wf_pair_of_id {np : Int} {h : Heap} {cats : List (Int × Nat)}
    (hwf : WellFormedCategories np h cats) {p q : Int × Nat} (hp : p ∈ cats)
    (hq : q ∈ cats) (hid : (h.item p.2).id = (h.item q.2).id) : p = q :=
  List.inj_on_of_nodup_map hwf.ids_nodup hp hq hid

theorem wf_pair_of_handle {np : Int} {h : Heap} {cats : List (Int × Nat)}
    (hwf : WellFormedCategories np h cats) {p q : Int × Nat} (hp : p ∈ cats)
    (hq : q ∈ cats) (hc : p.2 = q.2) : p = q :=
  wf_pair_of_id hwf hp hq (by rw [hc])

theorem wf_nodup {np : Int} {h : Heap} {cats : List (Int × Nat)}
    (hwf : WellFormedCategories np h cats) : cats.Nodup :=
  List.Nodup.of_map _ hwf.ids_nodup

theorem AssembleInv.congr {np : Int} {h : Heap} {root : Nat} {cats : List (Int × Nat)}
    {h' : Heap} {a : QHash} {att att' : Int × Nat → Prop}
    (hinv : AssembleInv np h root cats h' a att)
    (hiff : ∀ p ∈ cats, att p ↔ att' p) : AssembleInv np h root cats h' a att' where
  ids := hinv.ids
  keys := by
    intro k v
    rw [hinv.keys]
    constructor
    · rintro (h1 | ⟨p, hp, hatt, h2⟩)
      · exact Or.inl h1
      · exact Or.inr ⟨p, hp, (hiff p hp).1 hatt, h2⟩
    · rintro (h1 | ⟨p, hp, hatt, h2⟩)
      · exact Or.inl h1
      · exact Or.inr ⟨p, hp, (hiff p hp).2 hatt, h2⟩
  pending := fun p hp hn => hinv.pending p hp (fun ha => hn ((hiff p hp).1 ha))
  attached := fun p hp ha => hinv.attached p hp ((hiff p hp).2 ha)

theorem AssembleInv.init (np : Int) (h : Heap) (root : Nat) (cats : List (Int × Nat))
    (hfresh : Unattached h cats) :
    AssembleInv np h root cats h (QHash.empty.insert np root) (fun p => p ∉ cats) where
  ids := fun _ => rfl
  keys := by
    intro k v
    unfold QHash.insert QHash.empty
    constructor
    · intro hk
      split at hk
      · left; simp_all
      · simp at hk
    · rintro (⟨rfl, rfl⟩ | ⟨p, hp, hn, _⟩)
      · simp
      · exact absurd hp hn
  pending := fun p hp _ => hfresh p hp
  attached := fun p hp hn => absurd hp hn

theorem AssembleInv.attach {np : Int} {h : Heap} {root : Nat} {cats : List (Int × Nat)}
    (hwf : WellFormedCategories np h cats)
    {h' : Heap} {a : QHash} {att : Int × Nat → Prop}
    (hinv : AssembleInv np h root cats h' a att) {pid : Int} {c par : Nat}
    (hmem : (pid, c) ∈ cats) (hnatt : ¬ att (pid, c)) (hpar : a pid = some par) :
    AssembleInv np h root cats (appendChild h' par c)
      (a.insert ((appendChild h' par c).item c).id c) (fun p => att p ∨ p = (pid, c)) where
  ids := by intro x; rw [appendChild_id]; exact hinv.ids x
  keys := by
    intro k v
    rw [appendChild_id, hinv.ids]
    unfold QHash.insert
    constructor
    · intro hk
      split at hk
      · next hkc =>
        cases hk
        exact Or.inr ⟨(pid, c), hmem, Or.inr rfl, rfl, hkc.symm⟩
      · rcases (hinv.keys k v).1 hk with h1 | ⟨p, hp, hatt, h2⟩
        · exact Or.inl h1
        · exact Or.inr ⟨p, hp, Or.inl hatt, h2⟩
    · rintro (⟨rfl, rfl⟩ | ⟨p, hp, hatt | rfl, hpv, hid⟩)
      · have hne : k ≠ (h.item c).id := fun he => hwf.ids_ne _ hmem he.symm
        rw [if_neg hne]
        exact (hinv.keys k v).2 (Or.inl ⟨rfl, rfl⟩)
      · have hne : k ≠ (h.item c).id := by
          intro he
          have hpe : p = (pid, c) := wf_pair_of_id hwf hp hmem (by rw [hpv, hid, he])
          exact hnatt (hpe ▸ hatt)
        rw [if_neg hne]
        exact (hinv.keys k v).2 (Or.inr ⟨p, hp, hatt, hpv, hid⟩)
      · simp only at hpv
        subst hpv
        rw [if_pos hid.symm]
  pending := by
    intro p hp hn x
    rw [not_or] at hn
    have h1 := hinv.pending p hp hn.1 x
    have h2 : p.2 ≠ c := fun he => hn.2 (wf_pair_of_handle hwf hp hmem he)
    rw [appendChild_childItems]
    split
    · simp [h1, h2]
    · exact h1
  attached := by
    intro p hp hatt
    by_cases hpe : p = (pid, c)
    · subst hpe
      refine ⟨par, ?_, ?_, ?_⟩
      · rcases (hinv.keys _ _).1 hpar with h1 | ⟨q, hq, _, h2, h3⟩
        · exact Or.inl h1
        · exact Or.inr ⟨q, hq, h2, h3⟩
      · intro x
        have h0 : (h'.item x).childItems.count c = 0 :=
          List.count_eq_zero.2 (hinv.pending _ hmem hnatt x)
        rw [appendChild_childItems]
        split
        · simp [List.count_append, h0]
        · exact h0
      · simp
    · have hatt' : att p := hatt.resolve_right hpe
      have h2 : p.2 ≠ c := fun he => hpe (wf_pair_of_handle hwf hp hmem he)
      obtain ⟨par0, hspec, hcount, hparent⟩ := hinv.attached p hp hatt'
      refine ⟨par0, hspec, ?_, ?_⟩
      · intro x
        rw [appendChild_childItems, ← hcount x]
        split
        · rw [List.count_append, List.count_singleton]
          have : (c == p.2) = false := by simpa using fun he => h2 he.symm
          simp [this]
        · rfl
      · rw [appendChild_parent, if_neg h2]
        exact hparent


theorem AssembleInv.scan {np : Int} {h : Heap} {root : Nat} {cats : List (Int × Nat)}
    (hwf : WellFormedCategories np h cats) (todo : List (Int × Nat)) :
    ∀ (h' : Heap) (a : QHash) (att : Int × Nat → Prop),
      AssembleInv np h root cats h' a att →
      (∀ p ∈ todo, p ∈ cats ∧ ¬ att p) → todo.Nodup →
      AssembleInv np h root cats (scanCategories h' a [] todo).heap
        (scanCategories h' a [] todo).assignments
        (fun p => att p ∨ (p ∈ todo ∧ p ∉ (scanCategories h' a [] todo).categories)) := by
  induction todo with
  | nil =>
    intro h' a att hinv _ _
    exact hinv.congr (fun p _ => by simp)
  | cons p0 rest ih =>
    intro h' a att hinv htodo hnd
    obtain ⟨pid, c⟩ := p0
    have hmem := (htodo (pid, c) (List.mem_cons_self _ _)).1
    have hnatt := (htodo (pid, c) (List.mem_cons_self _ _)).2
    have hnotin : (pid, c) ∉ rest := (List.nodup_cons.1 hnd).1
    cases hq : a pid with
    | some par =>
      rw [scan_cons_some _ _ _ _ _ _ hq]
      have hstep := hinv.attach hwf hmem hnatt hq
      have hrec := ih _ _ _ hstep
        (fun p hp => ⟨(htodo p (List.mem_cons_of_mem _ hp)).1, by
          rw [not_or]
          exact ⟨(htodo p (List.mem_cons_of_mem _ hp)).2,
            fun he => hnotin (he ▸ hp)⟩⟩)
        (List.nodup_cons.1 hnd).2
      have hgone : (pid, c) ∉ (scanCategories (appendChild h' par c)
          (a.insert ((appendChild h' par c).item c).id c) [] rest).categories := by
        intro hin
        exact hnotin ((scan_sublist _ _ _).subset hin)
      refine hrec.congr (fun p _ => ?_)
      constructor
      · rintro ((h1 | rfl) | ⟨h1, h2⟩)
        · exact Or.inl h1
        · exact Or.inr ⟨List.mem_cons_self _ _, hgone⟩
        · exact Or.inr ⟨List.mem_cons_of_mem _ h1, h2⟩
      · rintro (h1 | ⟨h1, h2⟩)
        · exact Or.inl (Or.inl h1)
        · rcases List.mem_cons.1 h1 with rfl | h1
          · exact Or.inl (Or.inr rfl)
          · exact Or.inr ⟨h1, h2⟩
    | none =>
      rw [scan_cons_none _ _ _ _ _ hq]
      have hrec := ih h' a att hinv
        (fun p hp => htodo p (List.mem_cons_of_mem _ hp)) (List.nodup_cons.1 hnd).2
      refine hrec.congr (fun p _ => ?_)
      constructor
      · rintro (h1 | ⟨h1, h2⟩)
        · exact Or.inl h1
        · refine Or.inr ⟨List.mem_cons_of_mem _ h1, ?_⟩
          simp only [List.mem_cons, not_or]
          exact ⟨fun he => hnotin (he ▸ h1), h2⟩
      · rintro (h1 | ⟨h1, h2⟩)
        · exact Or.inl h1
        · simp only [List.mem_cons, not_or] at h2
          rcases List.mem_cons.1 h1 with h3 | h3
          · exact absurd h3 h2.1
          · exact Or.inr ⟨h3, h2.2⟩

/-- The invariant at the start of an iteration of the `while` loop: the pairs
attached are the ones that are no longer pending. -/
theorem AssembleInv.pass {np : Int} {h : Heap} {root : Nat} {cats : List (Int × Nat)}
    (hwf : WellFormedCategories np h cats) (s : AssembleState)
    (hsub : s.categories.Sublist cats)
    (hinv : AssembleInv np h root cats s.heap s.assignments (fun p => p ∉ s.categories)) :
    AssembleInv np h root cats (assemblePass s).heap (assemblePass s).assignments
      (fun p => p ∉ (assemblePass s).categories) := by
  have hrec := hinv.scan hwf s.categories s.heap s.assignments _ 
    (fun p hp => ⟨hsub.subset hp, fun hn => hn hp⟩) ((wf_nodup hwf).sublist hsub)
  refine hrec.congr (fun p _ => ?_)
  show _ ↔ p ∉ (scanCategories s.heap s.assignments [] s.categories).categories
  constructor
  · rintro (h1 | ⟨_, h2⟩)
    · exact fun hin => h1 ((scan_sublist _ _ _).subset hin)
    · exact h2
  · intro h1
    by_cases h2 : p ∈ s.categories
    · exact Or.inr ⟨h2, h1⟩
    · exact Or.inl h2

theorem AssembleInv.scans {np : Int} {h : Heap} {root : Nat} {cats : List (Int × Nat)}
    (hwf : WellFormedCategories np h cats) (hfresh : Unattached h cats) (n : Nat) :
    AssembleInv np h root cats (assembleScans n (assembleInit np h root cats)).heap
      (assembleScans n (assembleInit np h root cats)).assignments
      (fun p => p ∉ (assembleScans n (assembleInit np h root cats)).categories) := by
  induction n with
  | zero => exact AssembleInv.init np h root cats hfresh
  | succ n ih =>
    rw [assembleScans_succ]
    exact ih.pass hwf _ (scans_sublist _ (Nat.zero_le n))


/-- In a well-formed list, every non-empty set of pending pairs has a pair
whose parent id is a key of `assignments`. -/
theorem AssembleInv.progress {np : Int} {h : Heap} {root : Nat} {cats : List (Int × Nat)}
    (hwf : WellFormedCategories np h cats) (s : AssembleState)
    (hsub : s.categories.Sublist cats)
    (hinv : AssembleInv np h root cats s.heap s.assignments (fun p => p ∉ s.categories))
    (hne : s.categories ≠ []) :
    ∃ p ∈ s.categories, (s.assignments p.1).isSome = true := by
  haveI : IsStrictOrder (Int × Nat) (Relation.TransGen (ParentOf h cats)) :=
    { irrefl := hwf.acyclic
      trans := fun _ _ _ => Relation.TransGen.trans }
  have hfin : {p : Int × Nat | p ∈ s.categories}.Finite := List.finite_toSet _
  have hwfo := (Set.wellFoundedOn_iff
    (r := Relation.TransGen (ParentOf h cats))).1 hfin.wellFoundedOn
  obtain ⟨q0, hq0⟩ := List.exists_mem_of_ne_nil _ hne
  obtain ⟨m, hm, hmin⟩ := hwfo.has_min {p : Int × Nat | p ∈ s.categories} ⟨q0, hq0⟩
  refine ⟨m, hm, ?_⟩
  have hmc : m ∈ cats := hsub.subset hm
  rcases hwf.parents m hmc with h1 | ⟨q, hq, _, hid⟩
  · rw [(hinv.keys m.1 root).2 (Or.inl ⟨h1, rfl⟩)]
    rfl
  · have hqn : q ∉ s.categories := by
      intro hqs
      exact hmin q hqs ⟨Relation.TransGen.single ⟨hq, hmc, hid⟩, hqs, hm⟩
    rw [(hinv.keys m.1 q.2).2 (Or.inr ⟨q, hq, hqn, rfl, hid⟩)]
    rfl

theorem AssembleInv.pass_length {np : Int} {h : Heap} {root : Nat}
    {cats : List (Int × Nat)}
    (hwf : WellFormedCategories np h cats) (s : AssembleState)
    (hsub : s.categories.Sublist cats)
    (hinv : AssembleInv np h root cats s.heap s.assignments (fun p => p ∉ s.categories))
    (hne : s.categories ≠ []) :
    (assemblePass s).categories.length < s.categories.length := by
  obtain ⟨p, hp, hk⟩ := hinv.progress hwf s hsub hne
  apply lt_of_le_of_ne (pass_sublist s).length_le
  intro hlen
  have heq := (pass_sublist s).eq_of_length hlen
  rw [← heq] at hp
  have := scan_pending_none _ _ _ _ hp
  rw [this] at hk
  simp at hk

theorem scans_length_le {np : Int} {h : Heap} {root : Nat} {cats : List (Int × Nat)}
    (hwf : WellFormedCategories np h cats) (hfresh : Unattached h cats) (n : Nat) :
    (assembleScans n (assembleInit np h root cats)).categories.length ≤ cats.length - n := by
  induction n with
  | zero => simp [assembleScans, assembleInit]
  | succ n ih =>
    by_cases hne : (assembleScans n (assembleInit np h root cats)).categories = []
    · have := (scans_sublist (assembleInit np h root cats) (Nat.le_succ n)).length_le
      rw [hne] at this
      simp at this
      simp [this]
    · have hlt := (@AssembleInv.scans np h root cats hwf hfresh n).pass_length hwf _
        (scans_sublist (assembleInit np h root cats) (Nat.zero_le n)) hne
      rw [assembleScans_succ]
      omega

/-- On a well-formed list the loop returns, the ids are the ones before the
call, and every category of the list is once among the children of its parent
of record and nowhere else. -/
theorem assembleCategories_positions (np : Int) (h : Heap) (root : Nat)
    (cats : List (Int × Nat)) (hwf : WellFormedCategories np h cats)
    (hfresh : Unattached h cats) (fuel : Nat) (hfuel : cats.length ≤ fuel) :
    ∃ h', assembleCategories np fuel h root cats = some h' ∧
      (∀ x, (h'.item x).id = (h.item x).id) ∧
      ∀ p ∈ cats, ∃ par,
        ((p.1 = np ∧ par = root) ∨ ∃ q ∈ cats, q.2 = par ∧ (h.item par).id = p.1) ∧
        (∀ x, (h'.item x).childItems.count p.2 = if x = par then 1 else 0) ∧
        (h'.item p.2).parent = some par := by
  have hempty : (assembleScans cats.length (assembleInit np h root cats)).categories = [] := by
    have := @scans_length_le np h root cats hwf hfresh cats.length
    simpa using this
  obtain ⟨m, _, hl, hc⟩ := assembleLoop_of_scans _ _ hempty fuel hfuel
  have hinv := @AssembleInv.scans np h root cats hwf hfresh m
  refine ⟨(assembleScans m (assembleInit np h root cats)).heap, by
    simp [assembleCategories, hl], hinv.ids, ?_⟩
  intro p hp
  exact hinv.attached p hp (by rw [hc]; simp)

theorem WellFormedCategories.of_perm {np : Int} {h : Heap} {cats cats' : List (Int × Nat)}
    (hwf : WellFormedCategories np h cats) (hperm : cats'.Perm cats) :
    WellFormedCategories np h cats' where
  ids_nodup := (hperm.map _).nodup_iff.2 hwf.ids_nodup
  ids_ne := fun p hp => hwf.ids_ne p (hperm.mem_iff.1 hp)
  parents := by
    intro p hp
    rcases hwf.parents p (hperm.mem_iff.1 hp) with h1 | ⟨q, hq, h2⟩
    · exact Or.inl h1
    · exact Or.inr ⟨q, hperm.mem_iff.2 hq, h2⟩
  acyclic := by
    intro p hp
    apply hwf.acyclic p
    exact Relation.TransGen.mono
      (fun a b hab => ⟨hperm.mem_iff.1 hab.1, hperm.mem_iff.1 hab.2.1, hab.2.2⟩) hp

/-- C1: for a well-formed list of (parent id, category) pairs whose categories
are not yet in the hierarchy, `assembleCategories` returns (with any fuel that
is at least the length of the list), and in the heap it returns every category
of the list occurs exactly once among the children of the objects of the heap:
once in the children of `par`, never in the children of another object, where
`par` is the root when the parent id of the pair is the sentinel and otherwise
is the category of the list whose id is that parent id; the back-reference of
the category is `par`.  The order of the pairs plays no role: on every
reordering of the list `assembleCategories` returns as well, and every
category is the child of the same object. -/
theorem assembleCategories_tree (np : Int) (h : Heap) (root : Nat)
    (cats : List (Int × Nat)) (hwf : WellFormedCategories np h cats)
    (hfresh : Unattached h cats) (fuel : Nat) (hfuel : cats.length ≤ fuel) :
    ∃ h', assembleCategories np fuel h root cats = some h' ∧
      (∀ p ∈ cats, ∃ par,
        (if p.1 = np then par = root
          else ∃ q ∈ cats, q.2 = par ∧ (h'.item par).id = p.1) ∧
        (∀ x, (h'.item x).childItems.count p.2 = if x = par then 1 else 0) ∧
        (h'.item p.2).parent = some par) ∧
      ∀ cats', cats'.Perm cats →
        ∃ h'', assembleCategories np fuel h root cats' = some h'' ∧
          ∀ p ∈ cats, (h''.item p.2).parent = (h'.item p.2).parent ∧
            ∀ x, (h''.item x).childItems.count p.2 = (h'.item x).childItems.count p.2 := by
  obtain ⟨h', hres, hids, hpos⟩ :=
    assembleCategories_positions np h root cats hwf hfresh fuel hfuel
  refine ⟨h', hres, ?_, ?_⟩
  · intro p hp
    obtain ⟨par, hspec, hcount, hparent⟩ := hpos p hp
    refine ⟨par, ?_, hcount, hparent⟩
    rcases hspec with ⟨h1, h2⟩ | ⟨q, hq, h2, h3⟩
    · rw [if_pos h1]; exact h2
    · have hne : p.1 ≠ np := by
        rw [← h3, ← h2]
        exact hwf.ids_ne q hq
      rw [if_neg hne]
      exact ⟨q, hq, h2, by rw [hids]; exact h3⟩
  · intro cats' hperm
    obtain ⟨h'', hres', _, hpos'⟩ :=
      assembleCategories_positions np h root cats' (hwf.of_perm hperm)
        (fun p hp => hfresh p (hperm.mem_iff.1 hp)) fuel (by rw [hperm.length_eq]; exact hfuel)
    refine ⟨h'', hres', ?_⟩
    intro p hp
    obtain ⟨par, hspec, hcount, hparent⟩ := hpos p hp
    obtain ⟨par', hspec', hcount', hparent'⟩ := hpos' p (hperm.mem_iff.2 hp)
    have hpar : par' = par := by
      rcases hspec with ⟨h1, h2⟩ | ⟨q, hq, h2, h3⟩
      · rcases hspec' with ⟨_, h5⟩ | ⟨q', hq', h5, h6⟩
        · rw [h2, h5]
        · exact absurd (h6.trans h1) (by rw [← h5]; exact hwf.ids_ne q' (hperm.mem_iff.1 hq'))
      · rcases hspec' with ⟨h4, _⟩ | ⟨q', hq', h5, h6⟩
        · exact absurd (h3.trans h4) (by rw [← h2]; exact hwf.ids_ne q hq)
        · have hqq : q' = q := wf_pair_of_id hwf (hperm.mem_iff.1 hq') hq
            (by rw [h5, h2, h6, h3])
          rw [← h5, ← h2, hqq]
    subst hpar
    exact ⟨by rw [hparent, hparent'], fun x => by rw [hcount, hcount']⟩

/-! ## `categoriesForItem` -/

theorem categoriesForItemLoop_terminates (h : Heap) (w : Nat → Nat)
    (hw : ∀ x, (h.item x).kind = RootItemKind.Category →
      ((h.item x).childItems.map (fun c => w c + 1)).sum ≤ w x) (fuel : Nat) :
    ∀ (parents : List Nat) (categories : QHash),
      (parents.map (fun c => w c + 1)).sum ≤ fuel →
      ∃ r, categoriesForItemLoop h fuel parents categories = some r := by
  induction fuel with
  | zero =>
    intro parents categories hle
    cases parents with
    | nil => exact ⟨categories, by simp [categoriesForItemLoop]⟩
    | cons a l => simp at hle
  | succ fuel ih =>
    intro parents categories hle
    cases parents with
    | nil => exact ⟨categories, by simp [categoriesForItemLoop]⟩
    | cons a l =>
      simp only [List.map_cons, List.sum_cons] at hle
      by_cases hk : (h.item a).kind = RootItemKind.Category
      · have := hw a hk
        simp only [categoriesForItemLoop, hk, if_true]
        apply ih
        rw [List.map_append, List.sum_append]
        omega
      · simp only [categoriesForItemLoop, hk, if_false]
        apply ih
        omega

theorem categoriesForItem_terminates (h : Heap) (root : Nat) (hf : CategoryForest h) :
    ∃ fuel0, ∀ fuel, fuel0 ≤ fuel → ∃ r, categoriesForItem fuel h root = some r := by
  obtain ⟨w, hw⟩ := hf
  exact ⟨_, fun fuel hfuel =>
    categoriesForItemLoop_terminates h w hw fuel (h.item root).childItems QHash.empty hfuel⟩

/-- Every pointer in the hash that `categoriesForItem` builds is a category. -/
theorem categoriesForItemLoop_kind (h : Heap) (fuel : Nat) :
    ∀ (parents : List Nat) (categories r : QHash),
      categoriesForItemLoop h fuel parents categories = some r →
      (∀ k v, categories k = some v → (h.item v).kind = RootItemKind.Category) →
      ∀ k v, r k = some v → (h.item v).kind = RootItemKind.Category := by
  induction fuel with
  | zero =>
    intro parents categories r hr hc
    cases parents with
    | nil => simp [categoriesForItemLoop] at hr; subst hr; exact hc
    | cons a l => simp [categoriesForItemLoop] at hr
  | succ fuel ih =>
    intro parents categories r hr hc
    cases parents with
    | nil => simp [categoriesForItemLoop] at hr; subst hr; exact hc
    | cons a l =>
      by_cases hk : (h.item a).kind = RootItemKind.Category
      · simp only [categoriesForItemLoop, hk, if_true] at hr
        refine ih _ _ _ hr ?_
        intro k v hkv
        split at hkv
        · exact hc k v hkv
        · unfold QHash.insert at hkv
          split at hkv
          · cases hkv; exact hk
          · exact hc k v hkv
      · simp only [categoriesForItemLoop, hk, if_false] at hr
        exact ih _ _ _ hr hc

theorem categoriesForItem_kind (h : Heap) (fuel : Nat) (root : Nat) (r : QHash)
    (hr : categoriesForItem fuel h root = some r) :
    ∀ k v, r k = some v → (h.item v).kind = RootItemKind.Category :=
  categoriesForItemLoop_kind h fuel _ _ r hr (fun k v hkv => by simp [QHash.empty] at hkv)


/-! ## `assembleFeeds` -/

theorem assembleFeedsStep_kind (np : Int) (root : Nat) (cats : QHash) (g : Heap)
    (p : Int × Nat) (x : Nat) :
    ((assembleFeedsStep np root cats g p).item x).kind = (g.item x).kind := by
  unfold assembleFeedsStep
  split
  · simp
  · split <;> simp

theorem assembleFeeds_fold_kind (np : Int) (root : Nat) (cats : QHash)
    (l : List (Int × Nat)) :
    ∀ (g : Heap) (x : Nat),
      ((l.foldl (assembleFeedsStep np root cats) g).item x).kind = (g.item x).kind := by
  induction l with
  | nil => intro g x; rfl
  | cons p l ih =>
    intro g x
    rw [List.foldl_cons, ih, assembleFeedsStep_kind]

theorem assembleFeedsStep_id_title (np : Int) (root : Nat) (cats : QHash) (g : Heap)
    (p : Int × Nat) (x : Nat) :
    ((assembleFeedsStep np root cats g p).item x).id = (g.item x).id ∧
    ((assembleFeedsStep np root cats g p).item x).title = (g.item x).title := by
  unfold assembleFeedsStep
  split
  · simp
  · split <;> simp

theorem assembleFeeds_fold_id_title (np : Int) (root : Nat) (cats : QHash)
    (l : List (Int × Nat)) :
    ∀ (g : Heap) (x : Nat),
      ((l.foldl (assembleFeedsStep np root cats) g).item x).id = (g.item x).id ∧
      ((l.foldl (assembleFeedsStep np root cats) g).item x).title = (g.item x).title := by
  induction l with
  | nil => intro g x; exact ⟨rfl, rfl⟩
  | cons p l ih =>
    intro g x
    rw [List.foldl_cons, (ih _ x).1, (ih _ x).2]
    exact assembleFeedsStep_id_title np root cats g p x

/-- The children of the root after the `foreach` of `assembleFeeds`: the feeds
with the sentinel as parent id are appended, in the order of the list. -/
theorem assembleFeeds_fold_root (np : Int) (root : Nat) (cats : QHash) (h : Heap)
    (hroot : (h.item root).kind ≠ RootItemKind.Category)
    (hcats : ∀ k v, cats k = some v → (h.item v).kind = RootItemKind.Category)
    (l : List (Int × Nat)) :
    ∀ (g : Heap), (∀ x, (g.item x).kind = (h.item x).kind) →
      ((l.foldl (assembleFeedsStep np root cats) g).item root).childItems =
        (g.item root).childItems ++ (l.filter (fun p => decide (p.1 = np))).map Prod.snd := by
  induction l with
  | nil => intro g _; simp
  | cons p l ih =>
    intro g hg
    rw [List.foldl_cons, ih _ (fun x => by rw [assembleFeedsStep_kind]; exact hg x)]
    unfold assembleFeedsStep
    by_cases hp : p.1 = np
    · simp [hp]
    · simp only [hp, if_false, decide_False, List.filter_cons_of_neg, Bool.false_eq_true,
        not_false_eq_true]
      cases hc : cats p.1 with
      | none => rfl
      | some v =>
        have hne : root ≠ v := by
          intro he
          apply hroot
          rw [he]
          exact hcats _ _ hc
        simp [hne]

/-- Where a child of some object after the `foreach` of `assembleFeeds` comes
from: it was a child before, or it is the feed of a pair of the list, attached
where the parent id of the pair says. -/
theorem assembleFeeds_fold_mem (np : Int) (root : Nat) (cats : QHash)
    (l : List (Int × Nat)) :
    ∀ (g : Heap) (x f : Nat),
      f ∈ ((l.foldl (assembleFeedsStep np root cats) g).item x).childItems →
      f ∈ (g.item x).childItems ∨
        ∃ q ∈ l, q.2 = f ∧ ((q.1 = np ∧ x = root) ∨ (q.1 ≠ np ∧ cats q.1 = some x)) := by
  induction l with
  | nil => intro g x f hf; exact Or.inl hf
  | cons p l ih =>
    intro g x f hf
    rw [List.foldl_cons] at hf
    rcases ih _ x f hf with h1 | ⟨q, hq, h2, h3⟩
    · unfold assembleFeedsStep at h1
      by_cases hp : p.1 = np
      · simp only [hp, if_true, appendChild_childItems] at h1
        split at h1
        · next hx =>
          rcases List.mem_append.1 h1 with h4 | h4
          · exact Or.inl h4
          · simp at h4
            exact Or.inr ⟨p, List.mem_cons_self _ _, h4.symm, Or.inl ⟨hp, hx⟩⟩
        · exact Or.inl h1
      · simp only [hp, if_false] at h1
        cases hc : cats p.1 with
        | none => rw [hc] at h1; exact Or.inl h1
        | some v =>
          rw [hc] at h1
          simp only [appendChild_childItems] at h1
          split at h1
          · next hx =>
            rcases List.mem_append.1 h1 with h4 | h4
            · exact Or.inl h4
            · simp at h4
              exact Or.inr ⟨p, List.mem_cons_self _ _, h4.symm, Or.inr ⟨hp, by rw [hx]; exact hc⟩⟩
          · exact Or.inl h1
    · exact Or.inr ⟨q, List.mem_cons_of_mem _ hq, h2, h3⟩

/-- C3: on a heap whose categories form a finite forest and whose root is not
a category, `assembleFeeds` returns (with enough fuel for `categoriesForItem`);
the children of the root are then the former children followed by the feeds
whose parent id is the sentinel, in the order of the input list, so every such
feed is a child of the root; and when the feeds of the list are distinct
objects not yet in the hierarchy, no such feed is a child of any other
object. -/
theorem assembleFeeds_top_level (np : Int) (h : Heap) (root : Nat)
    (feeds : List (Int × Nat)) (hforest : CategoryForest h)
    (hroot : (h.item root).kind ≠ RootItemKind.Category) :
    ∃ fuel0, ∀ fuel, fuel0 ≤ fuel →
      ∃ h', assembleFeeds np fuel h root feeds = some h' ∧
        (h'.item root).childItems =
          (h.item root).childItems ++
            (feeds.filter (fun p => decide (p.1 = np))).map Prod.snd ∧
        (∀ p ∈ feeds, p.1 = np → p.2 ∈ (h'.item root).childItems) ∧
        ((feeds.map Prod.snd).Nodup → Unattached h feeds →
          ∀ p ∈ feeds, p.1 = np → ∀ x, x ≠ root → p.2 ∉ (h'.item x).childItems) := by
  obtain ⟨fuel0, hterm⟩ := categoriesForItem_terminates h root hforest
  refine ⟨fuel0, fun fuel hfuel => ?_⟩
  obtain ⟨cats, hc⟩ := hterm fuel hfuel
  have hkind := categoriesForItem_kind h fuel root cats hc
  have hrootc := assembleFeeds_fold_root np root cats h hroot hkind feeds h (fun _ => rfl)
  refine ⟨feeds.foldl (assembleFeedsStep np root cats) h, by
    simp [assembleFeeds, hc], hrootc, ?_, ?_⟩
  · intro p hp hp1
    rw [hrootc]
    apply List.mem_append_right
    exact List.mem_map.2 ⟨p, List.mem_filter.2 ⟨hp, by simpa using hp1⟩, rfl⟩
  · intro hnd hfresh p hp hp1 x hx hmem
    rcases assembleFeeds_fold_mem np root cats feeds h x p.2 hmem with h1 | ⟨q, hq, h2, h3⟩
    · exact hfresh p hp x h1
    · have hqp : q = p := List.inj_on_of_nodup_map hnd hq hp h2
      subst hqp
      rcases h3 with ⟨_, h4⟩ | ⟨h4, _⟩
      · exact hx h4
      · exact h4 hp1

theorem assembleFeeds_fold_erase (np : Int) (root : Nat) (cats : QHash) (p : Int × Nat)
    (hp1 : p.1 ≠ np) (hp2 : cats p.1 = none) (l : List (Int × Nat)) :
    ∀ (g : Heap), (l.erase p).foldl (assembleFeedsStep np root cats) g =
      l.foldl (assembleFeedsStep np root cats) g := by
  induction l with
  | nil => intro g; rfl
  | cons q l ih =>
    intro g
    by_cases hq : q = p
    · subst hq
      rw [List.erase_cons_head, List.foldl_cons]
      simp [assembleFeedsStep, hp1, hp2]
    · rw [List.erase_cons_tail (by simpa using hq), List.foldl_cons, List.foldl_cons, ih]

theorem assembleFeeds_fold_parent (np : Int) (root : Nat) (cats : QHash) (x : Nat)
    (l : List (Int × Nat)) :
    ∀ (g : Heap), (∀ q ∈ l, q.2 = x → q.1 ≠ np ∧ cats q.1 = none) →
      ((l.foldl (assembleFeedsStep np root cats) g).item x).parent = (g.item x).parent := by
  induction l with
  | nil => intro g _; rfl
  | cons q l ih =>
    intro g hl
    rw [List.foldl_cons, ih _ (fun q hq => hl q (List.mem_cons_of_mem _ hq))]
    unfold assembleFeedsStep
    by_cases hx : q.2 = x
    · obtain ⟨h1, h2⟩ := hl q (List.mem_cons_self _ _) hx
      simp [h1, h2]
    · have hx' : x ≠ q.2 := fun he => hx he.symm
      split
      · simp [hx']
      · split <;> simp [hx']

theorem assembleFeeds_fold_filter (np : Int) (root : Nat) (cats : QHash) (h : Heap)
    (x : Nat) (l : List (Int × Nat)) :
    ∀ (g : Heap), (∀ q ∈ l, (h.item q.2).kind ≠ RootItemKind.Category) →
      ((l.foldl (assembleFeedsStep np root cats) g).item x).childItems.filter
          (fun c => decide ((h.item c).kind = RootItemKind.Category)) =
        (g.item x).childItems.filter
          (fun c => decide ((h.item c).kind = RootItemKind.Category)) := by
  induction l with
  | nil => intro g _; rfl
  | cons q l ih =>
    intro g hl
    rw [List.foldl_cons, ih _ (fun q hq => hl q (List.mem_cons_of_mem _ hq))]
    have hq := hl q (List.mem_cons_self _ _)
    unfold assembleFeedsStep
    split
    · rw [appendChild_childItems]
      split <;> simp [List.filter_append, hq]
    · split
      · rw [appendChild_childItems]
        split <;> simp [List.filter_append, hq]
      · rfl

/-- The children of every object after the `foreach` of `assembleFeeds`: the
former children, followed by the feeds of the pairs that belong under the
object, in the order of the list. -/
theorem assembleFeeds_fold_children (np : Int) (root : Nat) (cats : QHash) (x : Nat)
    (l : List (Int × Nat)) :
    ∀ (g : Heap), ((l.foldl (assembleFeedsStep np root cats) g).item x).childItems =
      (g.item x).childItems ++
        (l.filter (fun q => decide (feedTarget np root cats q = some x))).map Prod.snd := by
  induction l with
  | nil => intro g; simp
  | cons q l ih =>
    intro g
    rw [List.foldl_cons, ih]
    unfold assembleFeedsStep feedTarget
    by_cases hq : q.1 = np
    · by_cases hx : root = x
      · simp [hq, hx]
      · have hx' : x ≠ root := fun he => hx he.symm
        simp [hq, hx, hx']
    · cases hc : cats q.1 with
      | none => simp [hq, hc]
      | some v =>
        by_cases hx : v = x
        · simp [hq, hc, hx]
        · have hx' : x ≠ v := fun he => hx he.symm
          simp [hq, hc, hx, hx']

/-- The back-reference of the feed of every pair after the `foreach` of
`assembleFeeds`, the feeds of the list being distinct objects: the object
under which the pair belongs, or the former back-reference when the pair
belongs under no object. -/
theorem assembleFeeds_fold_feed_parent (np : Int) (root : Nat) (cats : QHash)
    (l : List (Int × Nat)) :
    ∀ (g : Heap), (l.map Prod.snd).Nodup → ∀ q ∈ l,
      ((l.foldl (assembleFeedsStep np root cats) g).item q.2).parent =
        match feedTarget np root cats q with
        | some t => some t
        | none => (g.item q.2).parent := by
  induction l with
  | nil => intro g _ q hq; simp at hq
  | cons a l ih =>
    intro g hnd q hq
    rw [List.map_cons, List.nodup_cons] at hnd
    rw [List.foldl_cons]
    rcases List.mem_cons.1 hq with rfl | hq
    · rw [assembleFeeds_fold_parent np root cats q.2 l _
        (fun q' hq' he => absurd (List.mem_map.2 ⟨q', hq', he⟩) hnd.1)]
      unfold assembleFeedsStep feedTarget
      by_cases h1 : q.1 = np
      · simp [h1]
      · cases hc : cats q.1 with
        | none => simp [h1, hc]
        | some v => simp [h1, hc]
    · rw [ih _ hnd.2 q hq]
      have hne : q.2 ≠ a.2 := fun he => hnd.1 (List.mem_map.2 ⟨q, hq, he⟩)
      cases ht : feedTarget np root cats q with
      | some t => rfl
      | none =>
        simp only
        unfold assembleFeedsStep
        split
        · simp [hne]
        · split <;> simp [hne]

/-- C4: on a heap whose categories form a finite forest, for feeds that are
distinct feed objects not yet in the hierarchy, `categoriesForItem(root)`
returns and so does `assembleFeeds` (with enough fuel), and whenever
`categoriesForItem(root)` returns a hash `assembleFeeds` returns too.  In its result the children of every object are the former
children followed by the feeds of the pairs that belong under the object (the
root for the sentinel, the category that the hash has for the parent id), in
the order of the list, and the back-reference of every such feed is that
object.  A pair whose parent id is neither the sentinel nor a key of the hash
belongs under no object: its feed is a child of no object, its back-reference
is untouched, and the result is the one of `assembleFeeds` on the list without
that pair.  The category structure is the one before the call: every object
keeps its kind, id and title, every category keeps its parent link, and the
categories among the children of every object are the same, in the same
order. -/
theorem assembleFeeds_loose (np : Int) (h : Heap) (root : Nat)
    (feeds : List (Int × Nat))
    (hnd : (feeds.map Prod.snd).Nodup) (hfresh : Unattached h feeds)
    (hkind : ∀ q ∈ feeds, (h.item q.2).kind = RootItemKind.Feed) :
    (CategoryForest h →
      ∃ fuel0, ∀ fuel, fuel0 ≤ fuel → ∃ cats h',
        categoriesForItem fuel h root = some cats ∧
        assembleFeeds np fuel h root feeds = some h') ∧
    ∀ fuel cats, categoriesForItem fuel h root = some cats →
      ∃ h', assembleFeeds np fuel h root feeds = some h' ∧
        (∀ x, (h'.item x).childItems =
          (h.item x).childItems ++
            (feeds.filter (fun q => decide (feedTarget np root cats q = some x))).map
              Prod.snd) ∧
        (∀ q ∈ feeds, ∀ t, feedTarget np root cats q = some t →
          (h'.item q.2).parent = some t) ∧
        (∀ p ∈ feeds, p.1 ≠ np → cats.contains p.1 = false →
          feedTarget np root cats p = none ∧
          (∀ x, p.2 ∉ (h'.item x).childItems) ∧
          (h'.item p.2).parent = (h.item p.2).parent ∧
          assembleFeeds np fuel h root (feeds.erase p) = some h') ∧
        (∀ x, (h'.item x).kind = (h.item x).kind ∧ (h'.item x).id = (h.item x).id ∧
          (h'.item x).title = (h.item x).title) ∧
        (∀ x, (h.item x).kind = RootItemKind.Category →
          (h'.item x).parent = (h.item x).parent) ∧
        (∀ x, (h'.item x).childItems.filter
            (fun c => decide ((h'.item c).kind = RootItemKind.Category)) =
          (h.item x).childItems.filter
            (fun c => decide ((h.item c).kind = RootItemKind.Category))) := by
  refine ⟨fun hforest => ?_, ?_⟩
  · obtain ⟨fuel0, hfuel⟩ := categoriesForItem_terminates h root hforest
    refine ⟨fuel0, fun fuel hle => ?_⟩
    obtain ⟨cats, hcats⟩ := hfuel fuel hle
    exact ⟨cats, feeds.foldl (assembleFeedsStep np root cats) h, hcats,
      by simp [assembleFeeds, hcats]⟩
  intro fuel cats hcats
  have hkinds := assembleFeeds_fold_kind np root cats feeds h
  refine ⟨feeds.foldl (assembleFeedsStep np root cats) h, by simp [assembleFeeds, hcats],
    fun x => assembleFeeds_fold_children np root cats x feeds h, ?_, ?_, ?_, ?_, ?_⟩
  · intro q hq t ht
    rw [assembleFeeds_fold_feed_parent np root cats feeds h hnd q hq, ht]
  · intro p hp hp1 hp2
    have hnone : cats p.1 = none := by
      simpa [QHash.contains] using hp2
    refine ⟨by simp [feedTarget, hp1, hnone], ?_, ?_, ?_⟩
    · intro x hmem
      rcases assembleFeeds_fold_mem np root cats feeds h x p.2 hmem with
        h1 | ⟨q, hq, h2, h3⟩
      · exact hfresh p hp x h1
      · have hqp : q = p := List.inj_on_of_nodup_map hnd hq hp h2
        subst hqp
        rcases h3 with ⟨h4, _⟩ | ⟨_, h4⟩
        · exact hp1 h4
        · rw [hnone] at h4; cases h4
    · apply assembleFeeds_fold_parent
      intro q hq h2
      have hqp : q = p := List.inj_on_of_nodup_map hnd hq hp h2
      subst hqp
      exact ⟨hp1, hnone⟩
    · simp [assembleFeeds, hcats, assembleFeeds_fold_erase np root cats p hp1 hnone]
  · intro x
    exact ⟨hkinds x, assembleFeeds_fold_id_title np root cats feeds h x⟩
  · intro x hx
    apply assembleFeeds_fold_parent
    intro q hq h2
    have := hkind q hq
    rw [h2, hx] at this
    cases this
  · intro x
    have hcongr : (fun c => decide (((feeds.foldl (assembleFeedsStep np root cats) h).item c).kind
        = RootItemKind.Category)) =
        (fun c => decide ((h.item c).kind = RootItemKind.Category)) := by
      funext c
      rw [hkinds]
    rw [hcongr]
    apply assembleFeeds_fold_filter
    intro q hq
    rw [hkind q hq]
    decide

/-! ## The steps of `mergeImportExportModel` -/

/-- The six ways the body of the `foreach` can go. -/
theorem mergeItem_cases (addItself : AddItself) (target : Nat) (s : MergeState)
    (path : List Nat) (c : SrcItem) :
    (mergeItem addItself target s path c = s ∧
      (c.checked = false ∨
        (c.kind ≠ RootItemKind.Category ∧ c.kind ≠ RootItemKind.Feed))) ∨
    (c.checked = true ∧ c.kind = RootItemKind.Category ∧
      addItself s.log.length s.heap target (cloneOf c) = true ∧
      mergeItem addItself target s path c =
        { s with
          heap := attachClone s.heap target (cloneOf c)
          original_parents := s.heap.next :: s.original_parents
          new_parents := (path, c) :: s.new_parents
          log := s.log ++ [attachEvent s target path c true] }) ∨
    (c.checked = true ∧ c.kind = RootItemKind.Category ∧
      addItself s.log.length s.heap target (cloneOf c) = false ∧
      ∃ existing, findExisting s.heap target (cloneOf c).title = some existing ∧
      mergeItem addItself target s path c =
        { s with
          original_parents := existing :: s.original_parents
          new_parents := (path, c) :: s.new_parents
          log := s.log ++ [attachEvent s target path c false] }) ∨
    (c.checked = true ∧ c.kind = RootItemKind.Category ∧
      addItself s.log.length s.heap target (cloneOf c) = false ∧
      findExisting s.heap target (cloneOf c).title = none ∧
      mergeItem addItself target s path c =
        { s with
          some_feed_category_error := true
          log := s.log ++ [attachEvent s target path c false] }) ∨
    (c.checked = true ∧ c.kind = RootItemKind.Feed ∧
      addItself s.log.length s.heap target (cloneOf c) = true ∧
      mergeItem addItself target s path c =
        { s with
          heap := attachClone s.heap target (cloneOf c)
          log := s.log ++ [attachEvent s target path c true] }) ∨
    (c.checked = true ∧ c.kind = RootItemKind.Feed ∧
      addItself s.log.length s.heap target (cloneOf c) = false ∧
      mergeItem addItself target s path c =
        { s with
          some_feed_category_error := true
          log := s.log ++ [attachEvent s target path c false] }) := by
  by_cases hch : c.checked = true
  · by_cases hk : c.kind = RootItemKind.Category
    · by_cases ha : addItself s.log.length s.heap target (cloneOf c) = true
      · right; left
        refine ⟨hch, hk, ha, ?_⟩
        simp [mergeItem, hch, hk, ha, attachEvent]
      · have ha' : addItself s.log.length s.heap target (cloneOf c) = false := by
          simpa using ha
        cases hf : findExisting s.heap target (cloneOf c).title with
        | some ex =>
          right; right; left
          refine ⟨hch, hk, ha', ex, rfl, ?_⟩
          simp [mergeItem, hch, hk, ha', hf, attachEvent]
        | none =>
          right; right; right; left
          refine ⟨hch, hk, ha', rfl, ?_⟩
          simp [mergeItem, hch, hk, ha', hf, attachEvent]
    · by_cases hkf : c.kind = RootItemKind.Feed
      · by_cases ha : addItself s.log.length s.heap target (cloneOf c) = true
        · right; right; right; right; left
          refine ⟨hch, hkf, ha, ?_⟩
          simp [mergeItem, hch, hkf, ha, attachEvent]
        · have ha' : addItself s.log.length s.heap target (cloneOf c) = false := by
            simpa using ha
          right; right; right; right; right
          refine ⟨hch, hkf, ha', ?_⟩
          simp [mergeItem, hch, hkf, ha', attachEvent]
      · left
        refine ⟨?_, Or.inr ⟨hk, hkf⟩⟩
        simp [mergeItem, hch, hk, hkf]
  · left
    have hch' : c.checked = false := by simpa using hch
    exact ⟨by simp [mergeItem, hch'], Or.inl hch'⟩

/-- An invariant of the body of the `foreach` is an invariant of the
`foreach`; the body may use that its item is the child `j` of the list. -/
theorem mergeChildren_induct (P : MergeState → Prop) (addItself : AddItself) (target : Nat)
    (path : List Nat) (all : List SrcItem)
    (hstep : ∀ (s : MergeState) (j : Nat) (c : SrcItem), all[j]? = some c → P s →
      P (mergeItem addItself target s (path ++ [j]) c)) :
    ∀ (cs : List SrcItem) (i : Nat) (s : MergeState), all.drop i = cs → P s →
      P (mergeChildren addItself target path i cs s) := by
  intro cs
  induction cs with
  | nil => intro i s _ hs; exact hs
  | cons c rest ih =>
    intro i s hdrop hs
    have hget : all[i]? = some c := by
      have := congrArg (fun l => l[0]?) hdrop
      simpa using this
    have hrest : all.drop (i + 1) = rest := by
      have := congrArg List.tail hdrop
      simpa using this
    exact ih (i + 1) _ hrest (hstep s i c hget hs)


/-! ## Termination of the merge -/

theorem nodeCount_eq (c : SrcItem) :
    c.nodeCount = 1 + SrcItem.nodeCountList c.childItems := by
  cases c
  simp [SrcItem.nodeCount, SrcItem.childItems]

theorem stackSize_cons (path : List Nat) (c : SrcItem) (l : List (List Nat × SrcItem)) :
    stackSize ((path, c) :: l) = c.nodeCount + stackSize l := by
  simp [stackSize]

theorem mergeItem_stacks (addItself : AddItself) (target : Nat) (s : MergeState)
    (path : List Nat) (c : SrcItem) :
    (mergeItem addItself target s path c).iterations = s.iterations ∧
    (((mergeItem addItself target s path c).new_parents = s.new_parents ∧
        (mergeItem addItself target s path c).original_parents = s.original_parents) ∨
      ∃ t, (mergeItem addItself target s path c).new_parents = (path, c) :: s.new_parents ∧
        (mergeItem addItself target s path c).original_parents = t :: s.original_parents) := by
  rcases mergeItem_cases addItself target s path c with
    ⟨h, _⟩ | ⟨_, _, _, h⟩ | ⟨_, _, _, ex, _, h⟩ | ⟨_, _, _, _, h⟩ | ⟨_, _, _, h⟩ | ⟨_, _, _, h⟩ <;>
    rw [h] <;> simp

theorem mergeChildren_stacks (addItself : AddItself) (target : Nat) (path : List Nat)
    (cs : List SrcItem) :
    ∀ (i : Nat) (s : MergeState),
      (mergeChildren addItself target path i cs s).iterations = s.iterations ∧
      (mergeChildren addItself target path i cs s).original_parents.length +
          s.new_parents.length =
        (mergeChildren addItself target path i cs s).new_parents.length +
          s.original_parents.length ∧
      stackSize (mergeChildren addItself target path i cs s).new_parents ≤
        SrcItem.nodeCountList cs + stackSize s.new_parents := by
  induction cs with
  | nil => intro i s; simp [mergeChildren, SrcItem.nodeCountList]; omega
  | cons c rest ih =>
    intro i s
    obtain ⟨h1, h2, h3⟩ := ih (i + 1) (mergeItem addItself target s (path ++ [i]) c)
    obtain ⟨h4, h5⟩ := mergeItem_stacks addItself target s (path ++ [i]) c
    simp only [mergeChildren, SrcItem.nodeCountList]
    refine ⟨by rw [h1, h4], ?_, ?_⟩
    · rcases h5 with ⟨h6, h7⟩ | ⟨t, h6, h7⟩
      · rw [h6, h7] at h2; exact h2
      · rw [h6, h7] at h2; simp only [List.length_cons] at h2; omega
    · rcases h5 with ⟨h6, _⟩ | ⟨t, h6, _⟩
      · rw [h6] at h3; omega
      · rw [h6, stackSize_cons] at h3; omega

/-- With the two stacks of the same length and fuel for every source node
under the entries of `new_parents`, the loop ends, and the number of its
iterations is at most the number of these nodes. -/
theorem mergeLoop_terminates (addItself : AddItself) (fuel : Nat) :
    ∀ (s : MergeState), s.original_parents.length = s.new_parents.length →
      stackSize s.new_parents ≤ fuel →
      ∃ s', mergeLoop addItself fuel s = Run.done s' ∧
        s'.iterations ≤ s.iterations + stackSize s.new_parents := by
  induction fuel with
  | zero =>
    intro s hlen hfuel
    cases hnp : s.new_parents with
    | nil => exact ⟨s, by simp [mergeLoop, hnp], by omega⟩
    | cons e l =>
      obtain ⟨path, sp⟩ := e
      rw [hnp, stackSize_cons, nodeCount_eq] at hfuel
      omega
  | succ n ih =>
    intro s hlen hfuel
    cases hnp : s.new_parents with
    | nil => exact ⟨s, by simp [mergeLoop, hnp], by omega⟩
    | cons e l =>
      obtain ⟨path, sp⟩ := e
      cases hop : s.original_parents with
      | nil => rw [hnp, hop] at hlen; simp at hlen
      | cons t ol =>
        rw [hnp, hop] at hlen
        rw [hnp, stackSize_cons, nodeCount_eq] at hfuel
        obtain ⟨h1, h2, h3⟩ := mergeChildren_stacks addItself t path sp.childItems 0
          { s with original_parents := ol, new_parents := l, iterations := s.iterations + 1 }
        simp only [List.length_cons] at hlen
        dsimp only at h1 h2 h3
        obtain ⟨s', hs', hit⟩ := ih
          (mergeChildren addItself t path 0 sp.childItems
            { s with original_parents := ol, new_parents := l,
                     iterations := s.iterations + 1 })
          (by omega) (by omega)
        refine ⟨s', ?_, ?_⟩
        · rw [mergeLoop, hnp]
          simp only [mergeIteration, hop, hnp]
          exact hs'
        · rw [h1] at hit
          rw [stackSize_cons, nodeCount_eq]
          omega

theorem stackSize_init (h : Heap) (root : Nat) (src : SrcItem) :
    stackSize (mergeInit h root src).new_parents = src.nodeCount := by
  simp [mergeInit, stackSize]

/-- The merge loop run from the initial state with fuel for every source node. -/
theorem mergeLoop_init (addItself : AddItself) (h : Heap) (root : Nat) (src : SrcItem)
    (k : Nat) :
    ∃ s, mergeLoop addItself (src.nodeCount + k) (mergeInit h root src) = Run.done s ∧
      s.iterations ≤ src.nodeCount := by
  obtain ⟨s, hs, hit⟩ := mergeLoop_terminates addItself (src.nodeCount + k)
    (mergeInit h root src) rfl (by rw [stackSize_init]; omega)
  refine ⟨s, hs, ?_⟩
  rw [stackSize_init] at hit
  simpa [mergeInit] using hit

/-- C9: for every source tree the merge loop ends: with fuel for as many
iterations as the source tree has nodes (or more), `mergeImportExportModel`
returns, and the number of iterations of its `while` loop is at most the
number of nodes of the source tree. -/
theorem mergeImportExportModel_terminates (addItself : AddItself) (h : Heap) (root : Nat)
    (src : SrcItem) (k : Nat) :
    ∃ r, mergeImportExportModel addItself (src.nodeCount + k) h root src = Run.done r ∧
      r.iterations ≤ src.nodeCount := by
  obtain ⟨s, hs, hit⟩ := mergeLoop_init addItself h root src k
  exact ⟨mergeFinish s, by simp [mergeImportExportModel, hs], hit⟩


/-! ## The outcome of the merge -/

theorem mergeLoop_induct (P : MergeState → Prop) (addItself : AddItself)
    (hpop : ∀ (s : MergeState) (t : Nat) (ol : List Nat) (path : List Nat) (sp : SrcItem)
      (l : List (List Nat × SrcItem)),
      s.original_parents = t :: ol → s.new_parents = (path, sp) :: l → P s →
      P (mergeChildren addItself t path 0 sp.childItems
        { s with original_parents := ol, new_parents := l,
                 iterations := s.iterations + 1 })) (fuel : Nat) :
    ∀ (s s' : MergeState), P s → mergeLoop addItself fuel s = Run.done s' → P s' := by
  induction fuel with
  | zero =>
    intro s s' hs hrun
    cases hnp : s.new_parents with
    | nil =>
      rw [mergeLoop, hnp] at hrun
      cases hrun
      exact hs
    | cons e l =>
      rw [mergeLoop, hnp] at hrun
      cases hrun
  | succ n ih =>
    intro s s' hs hrun
    cases hnp : s.new_parents with
    | nil =>
      rw [mergeLoop, hnp] at hrun
      cases hrun
      exact hs
    | cons e l =>
      obtain ⟨path, sp⟩ := e
      cases hop : s.original_parents with
      | nil =>
        rw [mergeLoop, hnp] at hrun
        simp only [mergeIteration, hop, hnp] at hrun
        cases hrun
      | cons t ol =>
        rw [mergeLoop, hnp] at hrun
        simp only [mergeIteration, hop, hnp] at hrun
        exact ih _ _ (hpop s t ol path sp l hop hnp hs) hrun

theorem exists_mem_append_singleton {α : Type} (l : List α) (a : α) (P : α → Prop) :
    (∃ e ∈ l ++ [a], P e) ↔ (∃ e ∈ l, P e) ∨ P a := by
  constructor
  · rintro ⟨e, he, hP⟩
    rcases List.mem_append.1 he with h1 | h1
    · exact Or.inl ⟨e, h1, hP⟩
    · simp at h1; subst h1; exact Or.inr hP
  · rintro (⟨e, he, hP⟩ | hP)
    · exact ⟨e, List.mem_append_left _ he, hP⟩
    · exact ⟨a, by simp, hP⟩

theorem findExisting_fold (h : Heap) (title : String) (l : List Nat) :
    ∀ (acc : Option Nat),
      (l.foldl (fun existing_category child =>
        if (h.item child).kind = RootItemKind.Category ∧ (h.item child).title = title
        then some child else existing_category) acc = none ↔
        acc = none ∧ l.any (fun child => decide ((h.item child).kind = RootItemKind.Category ∧
          (h.item child).title = title)) = false) ∧
      ∀ ex, l.foldl (fun existing_category child =>
        if (h.item child).kind = RootItemKind.Category ∧ (h.item child).title = title
        then some child else existing_category) acc = some ex →
        acc = some ex ∨ (ex ∈ l ∧ (h.item ex).kind = RootItemKind.Category ∧
          (h.item ex).title = title) := by
  induction l with
  | nil => intro acc; simp
  | cons c l ih =>
    intro acc
    simp only [List.foldl_cons, List.any_cons]
    by_cases hc : (h.item c).kind = RootItemKind.Category ∧ (h.item c).title = title
    · simp only [hc, and_self, if_true, decide_True, Bool.true_or]
      constructor
      · rw [(ih (some c)).1]; simp
      · intro ex hex
        rcases (ih (some c)).2 ex hex with h1 | ⟨h1, h2⟩
        · cases h1; exact Or.inr ⟨List.mem_cons_self _ _, hc⟩
        · exact Or.inr ⟨List.mem_cons_of_mem _ h1, h2⟩
    · simp only [hc, if_false, decide_False, Bool.false_or]
      constructor
      · exact (ih acc).1
      · intro ex hex
        rcases (ih acc).2 ex hex with h1 | ⟨h1, h2⟩
        · exact Or.inl h1
        · exact Or.inr ⟨List.mem_cons_of_mem _ h1, h2⟩

theorem findExisting_none_iff (h : Heap) (target : Nat) (title : String) :
    findExisting h target title = none ↔ hasChildCategoryTitled h target title = false := by
  unfold findExisting hasChildCategoryTitled
  rw [(findExisting_fold h title _ none).1]
  simp

theorem findExisting_some (h : Heap) (target : Nat) (title : String) (ex : Nat)
    (hex : findExisting h target title = some ex) :
    ex ∈ (h.item target).childItems ∧ (h.item ex).kind = RootItemKind.Category ∧
      (h.item ex).title = title := by
  unfold findExisting at hex
  rcases (findExisting_fold h title _ none).2 ex hex with h1 | h1
  · cases h1
  · exact h1

theorem cloneOf_kind (c : SrcItem) : (cloneOf c).kind = c.kind := rfl

/-- The conflict flag is set exactly when the log has a conflict. -/
theorem mergeItem_conflict (addItself : AddItself) (target : Nat) (s : MergeState)
    (path : List Nat) (c : SrcItem)
    (hs : s.some_feed_category_error = true ↔ ∃ e ∈ s.log, e.isConflict = true) :
    (mergeItem addItself target s path c).some_feed_category_error = true ↔
      ∃ e ∈ (mergeItem addItself target s path c).log, e.isConflict = true := by
  rcases mergeItem_cases addItself target s path c with
    ⟨h, _⟩ | ⟨_, _, _, h⟩ | ⟨_, hk, _, ex, hex, h⟩ | ⟨_, _, _, hex, h⟩ | ⟨_, _, _, h⟩ |
      ⟨_, hk, _, h⟩ <;> rw [h]
  · exact hs
  · dsimp only
    rw [exists_mem_append_singleton, hs]
    simp [attachEvent, AttachEvent.isConflict]
  · have hne : hasChildCategoryTitled s.heap target (cloneOf c).title = true := by
      by_contra hcon
      have := (findExisting_none_iff s.heap target (cloneOf c).title).2 (by simpa using hcon)
      rw [this] at hex
      cases hex
    dsimp only
    rw [exists_mem_append_singleton, hs]
    simp [attachEvent, AttachEvent.isConflict, hne, cloneOf_kind, hk]
  · have hno := (findExisting_none_iff s.heap target (cloneOf c).title).1 hex
    dsimp only
    rw [exists_mem_append_singleton]
    simp [attachEvent, AttachEvent.isConflict, hno]
  · dsimp only
    rw [exists_mem_append_singleton, hs]
    simp [attachEvent, AttachEvent.isConflict]
  · dsimp only
    rw [exists_mem_append_singleton]
    simp [attachEvent, AttachEvent.isConflict, cloneOf_kind, hk]

theorem mergeLoop_conflict (addItself : AddItself) (fuel : Nat) (s s' : MergeState)
    (hs : s.some_feed_category_error = true ↔ ∃ e ∈ s.log, e.isConflict = true)
    (hrun : mergeLoop addItself fuel s = Run.done s') :
    s'.some_feed_category_error = true ↔ ∃ e ∈ s'.log, e.isConflict = true := by
  refine mergeLoop_induct
    (fun s => s.some_feed_category_error = true ↔ ∃ e ∈ s.log, e.isConflict = true)
    addItself ?_ fuel s s' hs hrun
  intro s t ol path sp l _ _ hs
  exact mergeChildren_induct _ addItself t path sp.childItems
    (fun s j c _ hs => mergeItem_conflict addItself t s (path ++ [j]) c hs)
    sp.childItems 0 _ rfl hs


/-! ## Unchecked nodes and the fallback on an existing category -/

theorem allUnchecked_children (src : SrcItem) (hall : src.allUnchecked = true) :
    SrcItem.allUncheckedList src.childItems = true := by
  cases src
  simp [SrcItem.allUnchecked] at hall
  exact hall.2

theorem mergeItem_unchecked (addItself : AddItself) (target : Nat) (s : MergeState)
    (path : List Nat) (c : SrcItem) (hc : c.checked = false) :
    mergeItem addItself target s path c = s := by
  simp [mergeItem, hc]

theorem mergeChildren_unchecked (addItself : AddItself) (target : Nat) (path : List Nat)
    (cs : List SrcItem) :
    ∀ (i : Nat) (s : MergeState), (∀ c ∈ cs, c.checked = false) →
      mergeChildren addItself target path i cs s = s := by
  induction cs with
  | nil => intro i s _; rfl
  | cons c rest ih =>
    intro i s hall
    simp only [mergeChildren]
    rw [mergeItem_unchecked _ _ _ _ _ (hall c (List.mem_cons_self _ _))]
    exact ih _ _ (fun c hc => hall c (List.mem_cons_of_mem _ hc))

theorem allUncheckedList_mem (cs : List SrcItem)
    (hall : SrcItem.allUncheckedList cs = true) : ∀ c ∈ cs, c.checked = false := by
  induction cs with
  | nil => intro c hc; simp at hc
  | cons d rest ih =>
    intro c hc
    simp only [SrcItem.allUncheckedList, Bool.and_eq_true] at hall
    rcases List.mem_cons.1 hc with rfl | hc
    · cases c
      simp [SrcItem.allUnchecked] at hall
      simpa [SrcItem.checked] using hall.1.1
    · exact ih hall.2 c hc

/-- C7: when every node of the source tree is unchecked, `mergeImportExportModel`
(with fuel for one iteration or more) calls `addItself` not once, returns with
the destination heap it was given, returns true, and the message is the one of
the complete import. -/
theorem mergeImportExportModel_all_unchecked (addItself : AddItself) (h : Heap)
    (root : Nat) (src : SrcItem) (k : Nat) (hall : src.allUnchecked = true) :
    mergeImportExportModel addItself (k + 1) h root src =
      Run.done
        { heap := h, returned := true,
          output_message := "Import was completely successfull.",
          log := [], iterations := 1 } := by
  have hch := allUncheckedList_mem _ (allUnchecked_children src hall)
  have hstep : mergeIteration addItself (mergeInit h root src) =
      some { heap := h, original_parents := [], new_parents := [],
             some_feed_category_error := false, log := [], iterations := 1 } := by
    simp only [mergeIteration, mergeInit]
    rw [mergeChildren_unchecked _ _ _ _ _ _ hch]
  have hloop : mergeLoop addItself (k + 1) (mergeInit h root src) =
      Run.done { heap := h, original_parents := [], new_parents := [],
                 some_feed_category_error := false, log := [], iterations := 1 } := by
    rw [mergeLoop]
    simp only [mergeInit] at hstep ⊢
    rw [hstep]
    simp only
    cases k <;> rw [mergeLoop]
  simp [mergeImportExportModel, hloop, mergeFinish]

theorem nodeAt_snoc (src : SrcItem) (path : List Nat) :
    ∀ (sp c : SrcItem) (j : Nat), src.nodeAt path = some sp → sp.childItems[j]? = some c →
      src.nodeAt (path ++ [j]) = some c := by
  induction path generalizing src with
  | nil =>
    intro sp c j h1 h2
    simp only [SrcItem.nodeAt, Option.some.injEq] at h1
    subst h1
    simp [SrcItem.nodeAt, h2]
  | cons i rest ih =>
    intro sp c j h1 h2
    simp only [SrcItem.nodeAt, List.cons_append] at h1 ⊢
    cases hi : src.childItems[i]? with
    | none => rw [hi] at h1; cases h1
    | some d =>
      rw [hi] at h1
      exact ih d sp c j h1 h2

theorem checkedAlong_snoc (src : SrcItem) (path : List Nat) :
    ∀ (sp c : SrcItem) (j : Nat), src.nodeAt path = some sp → sp.childItems[j]? = some c →
      src.checkedAlong path = true → c.checked = true →
      src.checkedAlong (path ++ [j]) = true := by
  induction path generalizing src with
  | nil =>
    intro sp c j h1 h2 _ h4
    simp only [SrcItem.nodeAt, Option.some.injEq] at h1
    subst h1
    simp [SrcItem.checkedAlong, h2, h4]
  | cons i rest ih =>
    intro sp c j h1 h2 h3 h4
    simp only [SrcItem.nodeAt, SrcItem.checkedAlong, List.cons_append] at h1 h3 ⊢
    cases hi : src.childItems[i]? with
    | none => rw [hi] at h1; cases h1
    | some d =>
      rw [hi] at h1 h3
      simp only [Bool.and_eq_true] at h3 ⊢
      exact ⟨h3.1, ih d sp c j h1 h2 h3.2 h4⟩

/-- On a position whose nodes are all checked, the node at every non-empty
prefix is checked. -/
theorem checkedAlong_initial (pre : List Nat) :
    ∀ (src u : SrcItem) (post : List Nat), pre ≠ [] → src.nodeAt pre = some u →
      src.checkedAlong (pre ++ post) = true → u.checked = true := by
  induction pre with
  | nil => intro src u post h; exact absurd rfl h
  | cons i rest ih =>
    intro src u post _ h1 h2
    simp only [SrcItem.nodeAt, SrcItem.checkedAlong, List.cons_append] at h1 h2
    cases hi : src.childItems[i]? with
    | none => rw [hi] at h1; cases h1
    | some d =>
      rw [hi] at h1 h2
      simp only [Bool.and_eq_true] at h2
      by_cases hr : rest = []
      · subst hr
        simp only [SrcItem.nodeAt, Option.some.injEq] at h1
        subst h1
        exact h2.1
      · exact ih d u post hr h1 h2.2

theorem pathInv_mergeItem (src : SrcItem) (addItself : AddItself) (target : Nat)
    (s : MergeState) (path : List Nat) (sp c : SrcItem) (j : Nat)
    (hsp : src.nodeAt path = some sp) (hpath : src.checkedAlong path = true)
    (hj : sp.childItems[j]? = some c) (hs : PathInv src s) :
    PathInv src (mergeItem addItself target s (path ++ [j]) c) := by
  have hnode := nodeAt_snoc src path sp c j hsp hj
  have hlog : ∀ ok, c.checked = true →
      ∀ e ∈ s.log ++ [attachEvent s target (path ++ [j]) c ok],
        e.path ≠ [] ∧ src.checkedAlong e.path = true ∧
          ∃ c, src.nodeAt e.path = some c ∧ e.item = cloneOf c := by
    intro ok hch e he
    rcases List.mem_append.1 he with h1 | h1
    · exact hs.1 e h1
    · simp only [List.mem_singleton] at h1
      subst h1
      exact ⟨by simp [attachEvent],
        checkedAlong_snoc src path sp c j hsp hj hpath hch, c, hnode, rfl⟩
  have hstack : c.checked = true → ∀ e ∈ (path ++ [j], c) :: s.new_parents,
      src.nodeAt e.1 = some e.2 ∧ src.checkedAlong e.1 = true := by
    intro hch e he
    rcases List.mem_cons.1 he with h1 | h1
    · subst h1
      exact ⟨hnode, checkedAlong_snoc src path sp c j hsp hj hpath hch⟩
    · exact hs.2 e h1
  rcases mergeItem_cases addItself target s (path ++ [j]) c with
    ⟨h, _⟩ | ⟨hch, _, _, h⟩ | ⟨hch, _, _, ex, _, h⟩ | ⟨hch, _, _, _, h⟩ | ⟨hch, _, _, h⟩ |
      ⟨hch, _, _, h⟩ <;> rw [h]
  · exact hs
  · exact ⟨hlog true hch, hstack hch⟩
  · exact ⟨hlog false hch, hstack hch⟩
  · exact ⟨hlog false hch, hs.2⟩
  · exact ⟨hlog true hch, hs.2⟩
  · exact ⟨hlog false hch, hs.2⟩

theorem pathInv_mergeLoop (src : SrcItem) (addItself : AddItself) (fuel : Nat)
    (s s' : MergeState) (hs : PathInv src s)
    (hrun : mergeLoop addItself fuel s = Run.done s') : PathInv src s' := by
  refine mergeLoop_induct (PathInv src) addItself ?_ fuel s s' hs hrun
  intro s t ol path sp l _ hnp hs
  have htop := hs.2 (path, sp) (by rw [hnp]; exact List.mem_cons_self _ _)
  refine mergeChildren_induct _ addItself t path sp.childItems
    (fun s j c hj hs => pathInv_mergeItem src addItself t s path sp c j htop.1 htop.2 hj hs)
    sp.childItems 0 _ rfl ?_
  exact ⟨hs.1, fun e he => hs.2 e (by rw [hnp]; exact List.mem_cons_of_mem _ he)⟩

theorem pathInv_init (h : Heap) (root : Nat) (src : SrcItem) :
    PathInv src (mergeInit h root src) := by
  constructor
  · intro e he; simp [mergeInit] at he
  · intro e he
    simp only [mergeInit, List.mem_singleton] at he
    subst he
    exact ⟨rfl, rfl⟩

/-! ## The objects created by the merge -/

theorem attachClone_next (h : Heap) (t : Nat) (v : RootItem) :
    (attachClone h t v).next = h.next + 1 := by
  simp [attachClone, Heap.alloc]

theorem attachClone_kind (h : Heap) (t : Nat) (v : RootItem) (x : Nat) :
    ((attachClone h t v).item x).kind = if x = h.next then v.kind else (h.item x).kind := by
  simp only [attachClone, appendChild_kind, Heap.alloc]
  split <;> rfl

theorem attachClone_id (h : Heap) (t : Nat) (v : RootItem) (x : Nat) :
    ((attachClone h t v).item x).id = if x = h.next then v.id else (h.item x).id := by
  simp only [attachClone, appendChild_id, Heap.alloc]
  split <;> rfl

theorem attachClone_title (h : Heap) (t : Nat) (v : RootItem) (x : Nat) :
    ((attachClone h t v).item x).title =
      if x = h.next then v.title else (h.item x).title := by
  simp only [attachClone, appendChild_title, Heap.alloc]
  split <;> rfl

theorem attachClone_parent (h : Heap) (t : Nat) (v : RootItem) (x : Nat) :
    ((attachClone h t v).item x).parent =
      if x = h.next then some t else (h.item x).parent := by
  simp only [attachClone, appendChild_parent, Heap.alloc]
  split
  · rfl
  · next hx => simp [hx]

theorem attachClone_childItems (h : Heap) (t : Nat) (v : RootItem) (x : Nat)
    (ht : t ≠ h.next) :
    ((attachClone h t v).item x).childItems =
      if x = h.next then v.childItems
      else if x = t then (h.item x).childItems ++ [h.next] else (h.item x).childItems := by
  simp only [attachClone, appendChild_childItems, Heap.alloc]
  by_cases hx : x = h.next
  · have hxt : x ≠ t := fun he => ht (by rw [← he, hx])
    simp [hx, hxt, Ne.symm ht]
  · by_cases hxt : x = t
    · subst hxt; simp [hx]
    · simp [hx, hxt]

theorem newObjects_failed (h : Heap) (s : MergeState) (target : Nat) (path : List Nat)
    (c : SrcItem) (hs : NewObjects h s.heap s.log) :
    NewObjects h s.heap (s.log ++ [attachEvent s target path c false]) := by
  obtain ⟨h1, h2⟩ := hs
  refine ⟨by simpa [List.filter_append, attachEvent] using h1, ?_⟩
  intro a ha hlt
  obtain ⟨e, he, h3⟩ := h2 a ha hlt
  exact ⟨e, List.mem_append_left _ he, h3⟩

theorem newObjects_attached (h : Heap) (s : MergeState) (target : Nat) (path : List Nat)
    (c : SrcItem) (hs : NewObjects h s.heap s.log) :
    NewObjects h (attachClone s.heap target (cloneOf c))
      (s.log ++ [attachEvent s target path c true]) := by
  obtain ⟨h1, h2⟩ := hs
  refine ⟨?_, ?_⟩
  · rw [attachClone_next, h1]
    simp [List.filter_append, attachEvent]
    omega
  · intro a ha hlt
    rw [attachClone_next] at hlt
    rw [attachClone_kind, attachClone_id, attachClone_title, attachClone_parent]
    by_cases han : a = s.heap.next
    · refine ⟨attachEvent s target path c true, by simp, rfl, ?_⟩
      simp [attachEvent, han]
    · obtain ⟨e, he, h3⟩ := h2 a ha (by omega)
      refine ⟨e, List.mem_append_left _ he, ?_⟩
      simpa [han] using h3

theorem newObjects_mergeItem (h : Heap) (addItself : AddItself) (target : Nat)
    (s : MergeState) (path : List Nat) (c : SrcItem) (hs : NewObjects h s.heap s.log) :
    NewObjects h (mergeItem addItself target s path c).heap
      (mergeItem addItself target s path c).log := by
  rcases mergeItem_cases addItself target s path c with
    ⟨h1, _⟩ | ⟨_, _, _, h1⟩ | ⟨_, _, _, ex, _, h1⟩ | ⟨_, _, _, _, h1⟩ | ⟨_, _, _, h1⟩ |
      ⟨_, _, _, h1⟩ <;> rw [h1]
  · exact hs
  · exact newObjects_attached h s target path c hs
  · exact newObjects_failed h s target path c hs
  · exact newObjects_failed h s target path c hs
  · exact newObjects_attached h s target path c hs
  · exact newObjects_failed h s target path c hs

theorem newObjects_mergeLoop (h : Heap) (addItself : AddItself) (fuel : Nat)
    (s s' : MergeState) (hs : NewObjects h s.heap s.log)
    (hrun : mergeLoop addItself fuel s = Run.done s') : NewObjects h s'.heap s'.log := by
  refine mergeLoop_induct (fun s => NewObjects h s.heap s.log) addItself ?_ fuel s s' hs hrun
  intro s t ol path sp l _ _ hs
  exact mergeChildren_induct (fun s => NewObjects h s.heap s.log) addItself t path
    sp.childItems (fun s j c _ hs => newObjects_mergeItem h addItself t s (path ++ [j]) c hs)
    sp.childItems 0 _ rfl hs

theorem newObjects_init (h : Heap) (root : Nat) (src : SrcItem) :
    NewObjects h (mergeInit h root src).heap (mergeInit h root src).log := by
  refine ⟨by simp [mergeInit], ?_⟩
  intro a ha hlt
  simp only [mergeInit] at hlt
  omega

/-! ## The two stacks of the merge -/

theorem mergeAfter_induct (P : MergeState → Prop) (addItself : AddItself)
    (hpop : ∀ (s : MergeState) (t : Nat) (ol : List Nat) (path : List Nat) (sp : SrcItem)
      (l : List (List Nat × SrcItem)),
      s.original_parents = t :: ol → s.new_parents = (path, sp) :: l → P s →
      P (mergeChildren addItself t path 0 sp.childItems
        { s with original_parents := ol, new_parents := l,
                 iterations := s.iterations + 1 })) (n : Nat) :
    ∀ (s s' : MergeState), P s → mergeAfter addItself n s = some s' → P s' := by
  induction n with
  | zero =>
    intro s s' hs hrun
    simp only [mergeAfter, Option.some.injEq] at hrun
    exact hrun ▸ hs
  | succ n ih =>
    intro s s' hs hrun
    cases hnp : s.new_parents with
    | nil => simp [mergeAfter, hnp] at hrun
    | cons e l =>
      obtain ⟨path, sp⟩ := e
      cases hop : s.original_parents with
      | nil => simp [mergeAfter, hnp, mergeIteration, hop] at hrun
      | cons t ol =>
        simp only [mergeAfter, hnp, mergeIteration, hop] at hrun
        exact ih _ _ (hpop s t ol path sp l hop hnp hs) hrun

/-- The loop run from the start goes on from the state after `n` iterations. -/
theorem mergeLoop_after (addItself : AddItself) (n : Nat) :
    ∀ (s s' : MergeState), mergeAfter addItself n s = some s' →
      ∀ fuel, mergeLoop addItself (n + fuel) s = mergeLoop addItself fuel s' := by
  induction n with
  | zero =>
    intro s s' hrun fuel
    simp only [mergeAfter, Option.some.injEq] at hrun
    rw [hrun, Nat.zero_add]
  | succ n ih =>
    intro s s' hrun fuel
    cases hnp : s.new_parents with
    | nil => simp [mergeAfter, hnp] at hrun
    | cons e l =>
      cases hit : mergeIteration addItself s with
      | none => simp [mergeAfter, hnp, hit] at hrun
      | some s1 =>
        simp only [mergeAfter, hnp, hit] at hrun
        have hfuel : n + 1 + fuel = (n + fuel) + 1 := by omega
        rw [hfuel, mergeLoop, hnp]
        simp only [hit]
        exact ih s1 s' hrun fuel

/-- With the two stacks of the same length the loop never pops an empty
stack. -/
theorem mergeLoop_no_pop_on_empty (addItself : AddItself) (fuel : Nat) :
    ∀ (s : MergeState), s.original_parents.length = s.new_parents.length →
      mergeLoop addItself fuel s ≠ Run.popOnEmpty := by
  induction fuel with
  | zero =>
    intro s _
    cases hnp : s.new_parents with
    | nil => rw [mergeLoop, hnp]; exact fun h => by cases h
    | cons e l => rw [mergeLoop, hnp]; exact fun h => by cases h
  | succ n ih =>
    intro s hlen
    cases hnp : s.new_parents with
    | nil => rw [mergeLoop, hnp]; exact fun h => by cases h
    | cons e l =>
      obtain ⟨path, sp⟩ := e
      cases hop : s.original_parents with
      | nil => rw [hnp, hop] at hlen; simp at hlen
      | cons t ol =>
        rw [hnp, hop] at hlen
        simp only [List.length_cons] at hlen
        obtain ⟨_, h2, _⟩ := mergeChildren_stacks addItself t path sp.childItems 0
          { s with original_parents := ol, new_parents := l, iterations := s.iterations + 1 }
        dsimp only at h2
        rw [mergeLoop, hnp]
        simp only [mergeIteration, hop, hnp]
        exact ih _ (by omega)

theorem heapExt_attach (g : Heap) (t : Nat) (v : RootItem) :
    HeapExt g (attachClone g t v) := by
  refine ⟨by rw [attachClone_next]; omega, ?_⟩
  intro x hx
  have hne : x ≠ g.next := Nat.ne_of_lt hx
  rw [attachClone_kind, attachClone_id, attachClone_title, attachClone_parent]
  simp [hne]

theorem heapExt_refl (g : Heap) : HeapExt g g :=
  ⟨le_refl _, fun _ _ => ⟨rfl, rfl, rfl, rfl⟩⟩

/-- The body of the `foreach` only extends the heap and the log. -/
theorem mergeItem_ext (addItself : AddItself) (target : Nat) (s : MergeState)
    (path : List Nat) (c : SrcItem) :
    HeapExt s.heap (mergeItem addItself target s path c).heap ∧
      ∀ e ∈ s.log, e ∈ (mergeItem addItself target s path c).log := by
  rcases mergeItem_cases addItself target s path c with
    ⟨h, _⟩ | ⟨_, _, _, h⟩ | ⟨_, _, _, ex, _, h⟩ | ⟨_, _, _, _, h⟩ | ⟨_, _, _, h⟩ |
      ⟨_, _, _, h⟩ <;> rw [h]
  · exact ⟨heapExt_refl _, fun e he => he⟩
  · exact ⟨heapExt_attach _ _ _, fun e he => List.mem_append_left _ he⟩
  · exact ⟨heapExt_refl _, fun e he => List.mem_append_left _ he⟩
  · exact ⟨heapExt_refl _, fun e he => List.mem_append_left _ he⟩
  · exact ⟨heapExt_attach _ _ _, fun e he => List.mem_append_left _ he⟩
  · exact ⟨heapExt_refl _, fun e he => List.mem_append_left _ he⟩

theorem pairOK_ext {root : Nat} {src : SrcItem} {g g' : Heap} {log log' : List AttachEvent}
    {t : Nat} {path : List Nat} {sp : SrcItem} (hp : PairOK root src g log t path sp)
    (hext : HeapExt g g') (hlog : ∀ e ∈ log, e ∈ log') :
    PairOK root src g' log' t path sp := by
  rcases hp with h1 | ⟨e, he, h1, h2, h3, h4, h5, h6, h7, h8, h9, h10⟩ |
    ⟨e, he, h1⟩
  · exact Or.inl h1
  · obtain ⟨k1, k2, k3, k4⟩ := hext.2 t h6
    exact Or.inr (Or.inl ⟨e, hlog e he, h1, h2, h3, h4, h5, lt_of_lt_of_le h6 hext.1,
      by rw [k1, h7], by rw [k2, h8], by rw [k3, h9], by rw [k4, h10]⟩)
  · exact Or.inr (Or.inr ⟨e, hlog e he, h1⟩)

theorem stacksPaired_mergeItem (root : Nat) (src : SrcItem) (addItself : AddItself)
    (target : Nat) (s : MergeState) (path : List Nat) (c : SrcItem)
    (hs : StacksPaired root src s) :
    StacksPaired root src (mergeItem addItself target s path c) := by
  obtain ⟨hlen, hpairs⟩ := hs
  obtain ⟨hext, hlog⟩ := mergeItem_ext addItself target s path c
  have hold : ∀ pr ∈ s.original_parents.zip s.new_parents,
      PairOK root src (mergeItem addItself target s path c).heap
        (mergeItem addItself target s path c).log pr.1 pr.2.1 pr.2.2 :=
    fun pr hpr => pairOK_ext (hpairs pr hpr) hext hlog
  rcases mergeItem_cases addItself target s path c with
    ⟨h, _⟩ | ⟨_, hk, _, h⟩ | ⟨_, hk, _, ex, hex, h⟩ | ⟨_, _, _, _, h⟩ | ⟨_, _, _, h⟩ |
      ⟨_, _, _, h⟩
  · rw [h]; exact ⟨hlen, hpairs⟩
  · rw [h] at hold ⊢
    refine ⟨by simp [hlen], ?_⟩
    intro pr hpr
    simp only [List.zip_cons_cons, List.mem_cons] at hpr
    rcases hpr with rfl | hpr
    · refine Or.inr (Or.inl ⟨attachEvent s target path c true, by simp, rfl, rfl, rfl, hk,
        rfl, ?_, ?_, ?_, ?_, ?_⟩)
      · simp [attachClone_next]
      · simp [attachClone_kind, cloneOf]
      · simp [attachClone_id, cloneOf]
      · simp [attachClone_title, cloneOf]
      · simp [attachClone_parent, attachEvent]
    · exact hold pr hpr
  · rw [h] at hold ⊢
    refine ⟨by simp [hlen], ?_⟩
    intro pr hpr
    simp only [List.zip_cons_cons, List.mem_cons] at hpr
    rcases hpr with rfl | hpr
    · obtain ⟨k1, k2, k3⟩ := findExisting_some _ _ _ _ hex
      exact Or.inr (Or.inr ⟨attachEvent s target path c false, by simp, rfl, rfl, rfl, hk,
        k1, k2, k3⟩)
    · exact hold pr hpr
  · rw [h] at hold ⊢; exact ⟨hlen, hold⟩
  · rw [h] at hold ⊢; exact ⟨hlen, hold⟩
  · rw [h] at hold ⊢; exact ⟨hlen, hold⟩

theorem stacksPaired_pop (root : Nat) (src : SrcItem) (addItself : AddItself)
    (s : MergeState) (t : Nat) (ol : List Nat) (path : List Nat) (sp : SrcItem)
    (l : List (List Nat × SrcItem)) (hop : s.original_parents = t :: ol)
    (hnp : s.new_parents = (path, sp) :: l) (hs : StacksPaired root src s) :
    StacksPaired root src (mergeChildren addItself t path 0 sp.childItems
      { s with original_parents := ol, new_parents := l,
               iterations := s.iterations + 1 }) := by
  refine mergeChildren_induct (StacksPaired root src) addItself t path sp.childItems
    (fun s j c _ hs => stacksPaired_mergeItem root src addItself t s (path ++ [j]) c hs)
    sp.childItems 0 _ rfl ?_
  obtain ⟨hlen, hpairs⟩ := hs
  rw [hop, hnp] at hlen hpairs
  refine ⟨by simpa using hlen, ?_⟩
  intro pr hpr
  exact hpairs pr (by simp only [List.zip_cons_cons]; exact List.mem_cons_of_mem _ hpr)

theorem stacksPaired_init (h : Heap) (root : Nat) (src : SrcItem) :
    StacksPaired root src (mergeInit h root src) := by
  refine ⟨rfl, ?_⟩
  intro pr hpr
  simp only [mergeInit, List.zip_cons_cons, List.zip_nil_right, List.mem_singleton] at hpr
  subst hpr
  exact Or.inl ⟨rfl, rfl, rfl⟩

theorem pathInv_pop (src : SrcItem) (addItself : AddItself)
    (s : MergeState) (t : Nat) (ol : List Nat) (path : List Nat) (sp : SrcItem)
    (l : List (List Nat × SrcItem)) (hnp : s.new_parents = (path, sp) :: l)
    (hs : PathInv src s) :
    PathInv src (mergeChildren addItself t path 0 sp.childItems
      { s with original_parents := ol, new_parents := l,
               iterations := s.iterations + 1 }) := by
  have htop := hs.2 (path, sp) (by rw [hnp]; exact List.mem_cons_self _ _)
  refine mergeChildren_induct _ addItself t path sp.childItems
    (fun s j c hj hs => pathInv_mergeItem src addItself t s path sp c j htop.1 htop.2 hj hs)
    sp.childItems 0 _ rfl ?_
  exact ⟨hs.1, fun e he => hs.2 e (by rw [hnp]; exact List.mem_cons_of_mem _ he)⟩

/-! ## The log of the merge -/

/-- An invariant of the body of the `foreach` that depends on the index of the
item is an invariant of the `foreach`. -/
theorem mergeChildren_induct_index (P : Nat → MergeState → Prop) (addItself : AddItself)
    (target : Nat) (path : List Nat) (all : List SrcItem)
    (hstep : ∀ (s : MergeState) (j : Nat) (c : SrcItem), all[j]? = some c → P j s →
      P (j + 1) (mergeItem addItself target s (path ++ [j]) c)) :
    ∀ (cs : List SrcItem) (i : Nat) (s : MergeState), all.drop i = cs → P i s →
      P (i + cs.length) (mergeChildren addItself target path i cs s) := by
  intro cs
  induction cs with
  | nil => intro i s _ hs; exact hs
  | cons c rest ih =>
    intro i s hdrop hs
    have hget : all[i]? = some c := by
      have := congrArg (fun l => l[0]?) hdrop
      simpa using this
    have hrest : all.drop (i + 1) = rest := by
      have := congrArg List.tail hdrop
      simpa using this
    have := ih (i + 1) _ hrest (hstep s i c hget hs)
    have hlen : i + (c :: rest).length = i + 1 + rest.length := by
      simp only [List.length_cons]; omega
    rw [hlen]
    exact this

theorem replayLog_snoc (h : Heap) (log : List AttachEvent) (e : AttachEvent) :
    replayLog h (log ++ [e]) =
      if e.ok then attachClone (replayLog h log) e.target e.item else replayLog h log := by
  simp [replayLog, List.foldl_append]

theorem attachPointAt_mono {root : Nat} {log log' : List AttachEvent} {t : Nat}
    {path : List Nat} (hp : AttachPointAt root log t path) (hlog : ∀ e ∈ log, e ∈ log') :
    AttachPointAt root log' t path := by
  rcases hp with h1 | ⟨e, he, h2⟩
  · exact Or.inl h1
  · exact Or.inr ⟨e, hlog e he, h2⟩

theorem childrenTried_mono {log log' : List AttachEvent} {t : Nat} {path : List Nat}
    {sp : SrcItem} (hp : ChildrenTried log t path sp) (hlog : ∀ e ∈ log, e ∈ log') :
    ChildrenTried log' t path sp := by
  intro j c h1 h2 h3
  obtain ⟨e, he, h4⟩ := hp j c h1 h2 h3
  exact ⟨e, hlog e he, h4⟩

theorem childrenTriedUpTo_mono {log log' : List AttachEvent} {t : Nat} {path : List Nat}
    {sp : SrcItem} {i : Nat} (hp : ChildrenTriedUpTo log t path sp i)
    (hlog : ∀ e ∈ log, e ∈ log') : ChildrenTriedUpTo log' t path sp i := by
  intro j c hj h1 h2 h3
  obtain ⟨e, he, h4⟩ := hp j c hj h1 h2 h3
  exact ⟨e, hlog e he, h4⟩

/-- The entries of a log extended by one call. -/
theorem calls_snoc (addItself : AddItself) (h : Heap) (log : List AttachEvent)
    (e0 : AttachEvent)
    (hcalls : ∀ i e, log[i]? = some e →
      e.heap = replayLog h (log.take i) ∧ e.ok = addItself i e.heap e.target e.item)
    (h0 : e0.heap = replayLog h log)
    (hok : e0.ok = addItself log.length e0.heap e0.target e0.item) :
    ∀ i e, (log ++ [e0])[i]? = some e →
      e.heap = replayLog h ((log ++ [e0]).take i) ∧
        e.ok = addItself i e.heap e.target e.item := by
  intro i e hi
  by_cases hlt : i < log.length
  · rw [List.getElem?_append_left hlt] at hi
    rw [List.take_append_of_le_length (Nat.le_of_lt hlt)]
    exact hcalls i e hi
  · have hge : log.length ≤ i := Nat.le_of_not_lt hlt
    rw [List.getElem?_append_right hge] at hi
    have hi0 : i - log.length = 0 := by
      by_contra hne
      rw [List.getElem?_eq_none (by simp; omega)] at hi
      cases hi
    have hil : i = log.length := by omega
    subst hil
    simp only [Nat.sub_self, List.getElem?_cons_zero, Option.some.injEq] at hi
    subst hi
    rw [List.take_left]
    exact ⟨h0, hok⟩

/-- The invariant on the log after one more call of `addItself`. -/
theorem logInv_event (addItself : AddItself) (h : Heap) (root : Nat) (t0 : Nat)
    (path0 : List Nat) (i : Nat) (s s' : MergeState) (c : SrcItem) (ok : Bool)
    (hs : LogInv addItself h root s) (ht : AttachPointAt root s.log t0 path0)
    (hok : addItself s.log.length s.heap t0 (cloneOf c) = ok)
    (hkind : c.kind = RootItemKind.Category ∨ c.kind = RootItemKind.Feed)
    (hlog : s'.log = s.log ++ [attachEvent s t0 (path0 ++ [i]) c ok])
    (hheap : s'.heap = if ok then attachClone s.heap t0 (cloneOf c) else s.heap)
    (hstack : ∀ pr ∈ s'.original_parents.zip s'.new_parents,
      AttachPointAt root s'.log pr.1 pr.2.1) :
    LogInv addItself h root s' where
  heap_eq := by
    rw [hheap, hlog, replayLog_snoc, ← hs.heap_eq]
    rfl
  calls := by
    rw [hlog]
    exact calls_snoc addItself h s.log _ hs.calls hs.heap_eq hok.symm
  kinds := by
    intro e he
    rw [hlog] at he
    rcases List.mem_append.1 he with h1 | h1
    · exact hs.kinds e h1
    · simp only [List.mem_singleton] at h1
      subst h1
      exact hkind
  targets := by
    intro e he
    rw [hlog] at he ⊢
    rcases List.mem_append.1 he with h1 | h1
    · obtain ⟨path, j, h2, h3⟩ := hs.targets e h1
      exact ⟨path, j, h2, attachPointAt_mono h3 (fun e he => List.mem_append_left _ he)⟩
    · simp only [List.mem_singleton] at h1
      subst h1
      exact ⟨path0, i, rfl, attachPointAt_mono ht (fun e he => List.mem_append_left _ he)⟩
  stack := hstack

theorem logInv_mergeItem (addItself : AddItself) (h : Heap) (root : Nat) (t0 : Nat)
    (path0 : List Nat) (i : Nat) (s : MergeState) (c : SrcItem)
    (hs : LogInv addItself h root s) (ht : AttachPointAt root s.log t0 path0) :
    LogInv addItself h root (mergeItem addItself t0 s (path0 ++ [i]) c) := by
  have hold : ∀ (e0 : AttachEvent), ∀ pr ∈ s.original_parents.zip s.new_parents,
      AttachPointAt root (s.log ++ [e0]) pr.1 pr.2.1 :=
    fun e0 pr hpr => attachPointAt_mono (hs.stack pr hpr)
      (fun e he => List.mem_append_left _ he)
  rcases mergeItem_cases addItself t0 s (path0 ++ [i]) c with
    ⟨h1, _⟩ | ⟨_, hk, ha, h1⟩ | ⟨_, hk, ha, ex, hex, h1⟩ | ⟨_, hk, ha, _, h1⟩ |
      ⟨_, hk, ha, h1⟩ | ⟨_, hk, ha, h1⟩
  · rw [h1]; exact hs
  · rw [h1]
    refine logInv_event addItself h root t0 path0 i s _ c true hs ht ha (Or.inl hk) rfl rfl ?_
    intro pr hpr
    simp only [List.zip_cons_cons, List.mem_cons] at hpr
    rcases hpr with rfl | hpr
    · exact Or.inr ⟨attachEvent s t0 (path0 ++ [i]) c true, by simp, rfl, hk,
        Or.inl ⟨rfl, rfl⟩⟩
    · exact hold _ pr hpr
  · rw [h1]
    refine logInv_event addItself h root t0 path0 i s _ c false hs ht ha (Or.inl hk) rfl rfl ?_
    intro pr hpr
    simp only [List.zip_cons_cons, List.mem_cons] at hpr
    rcases hpr with rfl | hpr
    · exact Or.inr ⟨attachEvent s t0 (path0 ++ [i]) c false, by simp, rfl, hk,
        Or.inr ⟨rfl, hex⟩⟩
    · exact hold _ pr hpr
  · rw [h1]
    exact logInv_event addItself h root t0 path0 i s _ c false hs ht ha (Or.inl hk) rfl rfl
      (hold _)
  · rw [h1]
    exact logInv_event addItself h root t0 path0 i s _ c true hs ht ha (Or.inr hk) rfl rfl
      (hold _)
  · rw [h1]
    exact logInv_event addItself h root t0 path0 i s _ c false hs ht ha (Or.inr hk) rfl rfl
      (hold _)

theorem attachPointAt_snoc {root : Nat} {log : List AttachEvent} {e0 : AttachEvent}
    {t : Nat} {path : List Nat} (hp : AttachPointAt root (log ++ [e0]) t path) :
    AttachPointAt root log t path ∨
      (e0.path = path ∧ e0.item.kind = RootItemKind.Category ∧ NextAttachPoint e0 t) := by
  rcases hp with h1 | ⟨e, he, h2⟩
  · exact Or.inl (Or.inl h1)
  · rcases List.mem_append.1 he with h3 | h3
    · exact Or.inl (Or.inr ⟨e, h3, h2⟩)
    · simp only [List.mem_singleton] at h3
      subst h3
      exact Or.inr h2

/-- The obligations that were there before the body of the `foreach` ran for
the child of index `i` are met after it. -/
theorem pendingAt_old (root : Nat) (src : SrcItem) (t0 : Nat) (path0 : List Nat) (i : Nat)
    (s s' : MergeState) (sp0 c : SrcItem) (hsp0 : src.nodeAt path0 = some sp0)
    (hc : sp0.childItems[i]? = some c) (hs : PendingAt root src t0 path0 i s)
    (hlog : ∀ e ∈ s.log, e ∈ s'.log)
    (hzip : ∀ pr ∈ s.original_parents.zip s.new_parents,
      pr ∈ s'.original_parents.zip s'.new_parents)
    (hnew : c.checked = true →
      (c.kind = RootItemKind.Category ∨ c.kind = RootItemKind.Feed) →
      ∃ e ∈ s'.log, e.path = path0 ++ [i] ∧ e.target = t0 ∧ e.item = cloneOf c) :
    ∀ t path sp, AttachPointAt root s.log t path → src.nodeAt path = some sp →
      (t, (path, sp)) ∈ s'.original_parents.zip s'.new_parents ∨
        ChildrenTried s'.log t path sp ∨
        (t = t0 ∧ path = path0 ∧ ChildrenTriedUpTo s'.log t path sp (i + 1)) := by
  intro t path sp hap hnode
  rcases hs t path sp hap hnode with h1 | h1 | ⟨h1, h2, h3⟩
  · exact Or.inl (hzip _ h1)
  · exact Or.inr (Or.inl (childrenTried_mono h1 hlog))
  · refine Or.inr (Or.inr ⟨h1, h2, ?_⟩)
    intro j c' hj hc' hch hk
    by_cases hji : j < i
    · obtain ⟨e, he, h4⟩ := h3 j c' hji hc' hch hk
      exact ⟨e, hlog e he, h4⟩
    · have hje : j = i := by omega
      subst hje
      subst h2
      rw [hsp0] at hnode
      cases hnode
      rw [hc] at hc'
      cases hc'
      subst h1
      exact hnew hch hk

theorem pendingAt_mergeItem (root : Nat) (src : SrcItem) (addItself : AddItself) (t0 : Nat)
    (path0 : List Nat) (i : Nat) (s : MergeState) (sp0 c : SrcItem)
    (hsp0 : src.nodeAt path0 = some sp0) (hc : sp0.childItems[i]? = some c)
    (hs : PendingAt root src t0 path0 i s) :
    PendingAt root src t0 path0 (i + 1) (mergeItem addItself t0 s (path0 ++ [i]) c) := by
  have hnode0 := nodeAt_snoc src path0 sp0 c i hsp0 hc
  have hsame : ∀ pr ∈ s.original_parents.zip s.new_parents,
      pr ∈ s.original_parents.zip s.new_parents := fun _ h => h
  rcases mergeItem_cases addItself t0 s (path0 ++ [i]) c with
    ⟨h1, hskip⟩ | ⟨_, hk, ha, h1⟩ | ⟨_, hk, ha, ex, hex, h1⟩ | ⟨_, hk, ha, hex, h1⟩ |
      ⟨_, hk, ha, h1⟩ | ⟨_, hk, ha, h1⟩
  · rw [h1]
    refine pendingAt_old root src t0 path0 i s s sp0 c hsp0 hc hs (fun _ h => h) hsame ?_
    intro hch hkind
    rcases hskip with h2 | ⟨h2, h3⟩
    · rw [hch] at h2; cases h2
    · rcases hkind with h4 | h4
      · exact absurd h4 h2
      · exact absurd h4 h3
  · rw [h1]
    have hold := pendingAt_old root src t0 path0 i s
      { s with
        heap := attachClone s.heap t0 (cloneOf c)
        original_parents := s.heap.next :: s.original_parents
        new_parents := (path0 ++ [i], c) :: s.new_parents
        log := s.log ++ [attachEvent s t0 (path0 ++ [i]) c true] } sp0 c hsp0 hc hs
      (fun e he => List.mem_append_left _ he)
      (fun pr hpr => by simp only [List.zip_cons_cons]; exact List.mem_cons_of_mem _ hpr)
      (fun _ _ => ⟨attachEvent s t0 (path0 ++ [i]) c true, by simp, rfl, rfl, rfl⟩)
    intro t path sp hap hnode
    rcases attachPointAt_snoc hap with h2 | ⟨h2, _, h4⟩
    · exact hold t path sp h2 hnode
    · have hp : path = path0 ++ [i] := h2.symm
      subst hp
      rw [hnode0] at hnode
      cases hnode
      rcases h4 with ⟨_, h5⟩ | ⟨h5, _⟩
      · left
        simp only [List.zip_cons_cons]
        rw [h5]
        exact List.mem_cons_self _ _
      · cases h5
  · rw [h1]
    have hold := pendingAt_old root src t0 path0 i s
      { s with
        original_parents := ex :: s.original_parents
        new_parents := (path0 ++ [i], c) :: s.new_parents
        log := s.log ++ [attachEvent s t0 (path0 ++ [i]) c false] } sp0 c hsp0 hc hs
      (fun e he => List.mem_append_left _ he)
      (fun pr hpr => by simp only [List.zip_cons_cons]; exact List.mem_cons_of_mem _ hpr)
      (fun _ _ => ⟨attachEvent s t0 (path0 ++ [i]) c false, by simp, rfl, rfl, rfl⟩)
    intro t path sp hap hnode
    rcases attachPointAt_snoc hap with h2 | ⟨h2, _, h4⟩
    · exact hold t path sp h2 hnode
    · have hp : path = path0 ++ [i] := h2.symm
      subst hp
      rw [hnode0] at hnode
      cases hnode
      rcases h4 with ⟨h5, _⟩ | ⟨_, h5⟩
      · cases h5
      · have hfe : findExisting s.heap t0 (cloneOf c).title = some t := h5
        rw [hex] at hfe
        cases hfe
        left
        simp only [List.zip_cons_cons]
        exact List.mem_cons_self _ _
  · rw [h1]
    have hold := pendingAt_old root src t0 path0 i s
      { s with
        some_feed_category_error := true
        log := s.log ++ [attachEvent s t0 (path0 ++ [i]) c false] } sp0 c hsp0 hc hs
      (fun e he => List.mem_append_left _ he) hsame
      (fun _ _ => ⟨attachEvent s t0 (path0 ++ [i]) c false, by simp, rfl, rfl, rfl⟩)
    intro t path sp hap hnode
    rcases attachPointAt_snoc hap with h2 | ⟨h2, _, h4⟩
    · exact hold t path sp h2 hnode
    · rcases h4 with ⟨h5, _⟩ | ⟨_, h5⟩
      · cases h5
      · have hfe : findExisting s.heap t0 (cloneOf c).title = some t := h5
        rw [hex] at hfe
        cases hfe
  · rw [h1]
    have hold := pendingAt_old root src t0 path0 i s
      { s with
        heap := attachClone s.heap t0 (cloneOf c)
        log := s.log ++ [attachEvent s t0 (path0 ++ [i]) c true] } sp0 c hsp0 hc hs
      (fun e he => List.mem_append_left _ he) hsame
      (fun _ _ => ⟨attachEvent s t0 (path0 ++ [i]) c true, by simp, rfl, rfl, rfl⟩)
    intro t path sp hap hnode
    rcases attachPointAt_snoc hap with h2 | ⟨_, h3, _⟩
    · exact hold t path sp h2 hnode
    · have hkc : c.kind = RootItemKind.Category := h3
      rw [hk] at hkc
      cases hkc
  · rw [h1]
    have hold := pendingAt_old root src t0 path0 i s
      { s with
        some_feed_category_error := true
        log := s.log ++ [attachEvent s t0 (path0 ++ [i]) c false] } sp0 c hsp0 hc hs
      (fun e he => List.mem_append_left _ he) hsame
      (fun _ _ => ⟨attachEvent s t0 (path0 ++ [i]) c false, by simp, rfl, rfl, rfl⟩)
    intro t path sp hap hnode
    rcases attachPointAt_snoc hap with h2 | ⟨_, h3, _⟩
    · exact hold t path sp h2 hnode
    · have hkc : c.kind = RootItemKind.Category := h3
      rw [hk] at hkc
      cases hkc

theorem mergeLoop_done_empty (addItself : AddItself) (fuel : Nat) :
    ∀ (s s' : MergeState), mergeLoop addItself fuel s = Run.done s' →
      s'.new_parents = [] := by
  induction fuel with
  | zero =>
    intro s s' hrun
    cases hnp : s.new_parents with
    | nil => rw [mergeLoop, hnp] at hrun; cases hrun; exact hnp
    | cons e l => rw [mergeLoop, hnp] at hrun; cases hrun
  | succ n ih =>
    intro s s' hrun
    cases hnp : s.new_parents with
    | nil => rw [mergeLoop, hnp] at hrun; cases hrun; exact hnp
    | cons e l =>
      rw [mergeLoop, hnp] at hrun
      cases hit : mergeIteration addItself s with
      | none => rw [hit] at hrun; cases hrun
      | some s1 =>
        rw [hit] at hrun
        exact ih s1 s' hrun

/-- One iteration of the `while` loop keeps the invariants on positions, on
the log and on the pairs still to be processed. -/
theorem logInv_pop (addItself : AddItself) (h : Heap) (root : Nat) (src : SrcItem)
    (s : MergeState) (t : Nat) (ol : List Nat) (path : List Nat) (sp : SrcItem)
    (l : List (List Nat × SrcItem)) (hop : s.original_parents = t :: ol)
    (hnp : s.new_parents = (path, sp) :: l)
    (hs : PathInv src s ∧ LogInv addItself h root s ∧ Pending root src s) :
    PathInv src (mergeChildren addItself t path 0 sp.childItems
        { s with original_parents := ol, new_parents := l,
                 iterations := s.iterations + 1 }) ∧
      LogInv addItself h root (mergeChildren addItself t path 0 sp.childItems
        { s with original_parents := ol, new_parents := l,
                 iterations := s.iterations + 1 }) ∧
      Pending root src (mergeChildren addItself t path 0 sp.childItems
        { s with original_parents := ol, new_parents := l,
                 iterations := s.iterations + 1 }) := by
  obtain ⟨hpath, hlog, hpend⟩ := hs
  have htop := hpath.2 (path, sp) (by rw [hnp]; exact List.mem_cons_self _ _)
  have hzip : s.original_parents.zip s.new_parents = (t, (path, sp)) :: ol.zip l := by
    rw [hop, hnp, List.zip_cons_cons]
  have hat : AttachPointAt root s.log t path :=
    hlog.stack (t, (path, sp)) (by rw [hzip]; exact List.mem_cons_self _ _)
  have hend := mergeChildren_induct_index
    (fun i s => PathInv src s ∧ LogInv addItself h root s ∧ AttachPointAt root s.log t path ∧
      PendingAt root src t path i s)
    addItself t path sp.childItems
    (fun s j c hj hq =>
      ⟨pathInv_mergeItem src addItself t s path sp c j htop.1 htop.2 hj hq.1,
        logInv_mergeItem addItself h root t path j s c hq.2.1 hq.2.2.1,
        attachPointAt_mono hq.2.2.1 (mergeItem_ext addItself t s (path ++ [j]) c).2,
        pendingAt_mergeItem root src addItself t path j s sp c htop.1 hj hq.2.2.2⟩)
    sp.childItems 0
    { s with original_parents := ol, new_parents := l, iterations := s.iterations + 1 } rfl
    ⟨⟨hpath.1, fun e he => hpath.2 e (by rw [hnp]; exact List.mem_cons_of_mem _ he)⟩,
      ⟨hlog.heap_eq, hlog.calls, hlog.kinds, hlog.targets,
        fun pr hpr => hlog.stack pr (by rw [hzip]; exact List.mem_cons_of_mem _ hpr)⟩,
      hat, by
        intro t' path' sp' hap hnode
        rcases hpend t' path' sp' hap hnode with h1 | h1
        · rw [hzip] at h1
          rcases List.mem_cons.1 h1 with h2 | h2
          · injection h2 with h3 h4
            injection h4 with h5 _
            exact Or.inr (Or.inr ⟨h3, h5, fun j c hj => absurd hj (Nat.not_lt_zero j)⟩)
          · exact Or.inl h2
        · exact Or.inr (Or.inl h1)⟩
  obtain ⟨e1, e2, _, e4⟩ := hend
  refine ⟨e1, e2, ?_⟩
  intro t' path' sp' hap hnode
  rcases e4 t' path' sp' hap hnode with h1 | h1 | ⟨_, h2, h3⟩
  · exact Or.inl h1
  · exact Or.inr h1
  · right
    intro j c hj hch hk
    subst h2
    rw [htop.1] at hnode
    cases hnode
    have hjl : j < sp.childItems.length := by
      by_contra hge
      rw [List.getElem?_eq_none (Nat.le_of_not_lt hge)] at hj
      cases hj
    exact h3 j c (by omega) hj hch hk

theorem logInv_init (addItself : AddItself) (h : Heap) (root : Nat) (src : SrcItem) :
    LogInv addItself h root (mergeInit h root src) ∧ Pending root src (mergeInit h root src) := by
  refine ⟨⟨rfl, ?_, ?_, ?_, ?_⟩, ?_⟩
  · intro i e hi; simp [mergeInit] at hi
  · intro e he; simp [mergeInit] at he
  · intro e he; simp [mergeInit] at he
  · intro pr hpr
    simp only [mergeInit, List.zip_cons_cons, List.zip_nil_right, List.mem_singleton] at hpr
    subst hpr
    exact Or.inl ⟨rfl, rfl⟩
  · intro t path sp hap hnode
    rcases hap with ⟨h1, h2⟩ | ⟨e, he, _⟩
    · subst h1
      subst h2
      simp only [SrcItem.nodeAt, Option.some.injEq] at hnode
      subst hnode
      left
      simp [mergeInit]
    · simp [mergeInit] at he

/-- The log of a finished merge: every entry has the heap at the time of the
call and the answer of `addItself`; every call was made at an attach point;
and for every attach point of a source node the children of the node were
tried. -/
theorem mergeLoop_log (addItself : AddItself) (h : Heap) (root : Nat) (src : SrcItem)
    (fuel : Nat) (s : MergeState)
    (hrun : mergeLoop addItself fuel (mergeInit h root src) = Run.done s) :
    LogInv addItself h root s ∧
      ∀ t path sp, AttachPointAt root s.log t path → src.nodeAt path = some sp →
        ChildrenTried s.log t path sp := by
  have hinv := mergeLoop_induct
    (fun s => PathInv src s ∧ LogInv addItself h root s ∧ Pending root src s) addItself
    (fun s t ol path sp l hop hnp hs =>
      logInv_pop addItself h root src s t ol path sp l hop hnp hs)
    fuel (mergeInit h root src) s
    ⟨pathInv_init h root src, (logInv_init addItself h root src).1,
      (logInv_init addItself h root src).2⟩ hrun
  refine ⟨hinv.2.1, ?_⟩
  intro t path sp hap hnode
  rcases hinv.2.2 t path sp hap hnode with h1 | h1
  · rw [mergeLoop_done_empty addItself fuel _ s hrun] at h1
    simp at h1
  · exact h1

/-- C5 (amended): `mergeImportExportModel` returns (with fuel for every source
node); it returns false with the message of the partial import if and only if
some call of `addItself` failed on a clone that was a feed, or on a clone whose
attach point had no child category with the title of the clone; otherwise it
returns true with the message of the complete import.  Every call of
`addItself` is for the clone of a checked node of the source tree.  The calls
are exactly the entries of `r.log`, in order: entry `i` holds the heap at the
time of call `i`, which is the heap `h` after the successful calls before it,
and its `ok` is the answer of `addItself` to call `i`; the final heap is `h`
after all successful calls.  Every call is for a category or a feed and is
made at an attach point: the root for a child of the source root, else the
object which an earlier call for the parent category attached or found.  No
call is missing: at every attach point of a source node there is a call for
each checked category or feed child of the node. -/
theorem mergeImportExportModel_conflict_iff (addItself : AddItself) (h : Heap) (root : Nat)
    (src : SrcItem) (k : Nat) :
    ∃ r, mergeImportExportModel addItself (src.nodeCount + k) h root src = Run.done r ∧
      ((r.returned = false ∧ r.output_message =
          "Import successfull, but some feeds/categories were not imported due to error.") ↔
        ∃ e ∈ r.log, e.isConflict = true) ∧
      (¬ (∃ e ∈ r.log, e.isConflict = true) →
        r.returned = true ∧ r.output_message = "Import was completely successfull.") ∧
      (∀ e ∈ r.log, ∃ c, src.nodeAt e.path = some c ∧ c.checked = true ∧
        e.item = cloneOf c) ∧
      r.heap = replayLog h r.log ∧
      (∀ i e, r.log[i]? = some e →
        e.heap = replayLog h (r.log.take i) ∧ e.ok = addItself i e.heap e.target e.item) ∧
      (∀ e ∈ r.log, e.item.kind = RootItemKind.Category ∨ e.item.kind = RootItemKind.Feed) ∧
      (∀ e ∈ r.log, ∃ path j, e.path = path ++ [j] ∧ AttachPointAt root r.log e.target path) ∧
      (∀ t path sp, AttachPointAt root r.log t path → src.nodeAt path = some sp →
        ChildrenTried r.log t path sp) ∧
      (r.returned = false ↔ ∃ i e, r.log[i]? = some e ∧
        addItself i (replayLog h (r.log.take i)) e.target e.item = false ∧
        (e.item.kind = RootItemKind.Feed ∨
          hasChildCategoryTitled (replayLog h (r.log.take i)) e.target e.item.title = false)) := by
  obtain ⟨s, hs, _⟩ := mergeLoop_init addItself h root src k
  have hinv := mergeLoop_conflict addItself _ (mergeInit h root src) s
    (by simp [mergeInit]) hs
  have hpath := pathInv_mergeLoop src addItself _ (mergeInit h root src) s
    (pathInv_init h root src) hs
  have hlog := mergeLoop_log addItself h root src _ s hs
  refine ⟨mergeFinish s, by simp [mergeImportExportModel, hs], ?_, ?_, ?_,
    hlog.1.heap_eq, hlog.1.calls, hlog.1.kinds, hlog.1.targets, hlog.2, ?_⟩
  · show _ ↔ ∃ e ∈ s.log, e.isConflict = true
    rw [← hinv]
    cases herr : s.some_feed_category_error <;> simp [mergeFinish, herr]
  · show ¬ (∃ e ∈ s.log, e.isConflict = true) → _
    rw [← hinv]
    cases herr : s.some_feed_category_error <;> simp [mergeFinish, herr]
  · intro e he
    obtain ⟨hne, hch, c, hc, hitem⟩ := hpath.1 e he
    refine ⟨c, hc, ?_, hitem⟩
    have := checkedAlong_initial e.path src c [] hne hc (by rw [List.append_nil]; exact hch)
    exact this
  · show (!s.some_feed_category_error) = false ↔
      ∃ i e, s.log[i]? = some e ∧
        addItself i (replayLog h (s.log.take i)) e.target e.item = false ∧
        (e.item.kind = RootItemKind.Feed ∨
          hasChildCategoryTitled (replayLog h (s.log.take i)) e.target e.item.title = false)
    have hflag : (!s.some_feed_category_error) = false ↔ s.some_feed_category_error = true := by
      cases s.some_feed_category_error <;> simp
    rw [hflag, hinv]
    constructor
    · rintro ⟨e, he, hc⟩
      obtain ⟨i, hi⟩ := List.mem_iff_getElem?.1 he
      obtain ⟨hheap, hok⟩ := hlog.1.calls i e hi
      refine ⟨i, e, hi, ?_⟩
      rw [← hheap]
      simp only [AttachEvent.isConflict, Bool.and_eq_true, Bool.not_eq_true', Bool.or_eq_true,
        decide_eq_true_eq] at hc
      exact ⟨by rw [← hok]; exact hc.1, hc.2⟩
    · rintro ⟨i, e, hi, hfail, hc⟩
      obtain ⟨hheap, hok⟩ := hlog.1.calls i e hi
      rw [← hheap] at hfail hc
      refine ⟨e, List.mem_iff_getElem?.2 ⟨i, hi⟩, ?_⟩
      simp only [AttachEvent.isConflict, Bool.and_eq_true, Bool.not_eq_true', Bool.or_eq_true,
        decide_eq_true_eq]
      exact ⟨by rw [hok]; exact hfail, hc⟩

/-- The merge only reads the children of the root item of the model. -/
theorem mergeLoop_root_children (addItself : AddItself) (h : Heap) (root : Nat)
    (src src' : SrcItem) (hc : src'.childItems = src.childItems) (fuel : Nat) :
    mergeLoop addItself fuel (mergeInit h root src') =
      mergeLoop addItself fuel (mergeInit h root src) := by
  cases fuel with
  | zero =>
    rw [mergeLoop, mergeLoop]
    simp [mergeInit]
  | succ n =>
    rw [mergeLoop, mergeLoop]
    simp only [mergeInit, mergeIteration, hc]

theorem withChecked_childItems (b : Bool) (src : SrcItem) :
    (src.withChecked b).childItems = src.childItems := by
  cases src
  rfl

/-- C10 (amended): `mergeImportExportModel` returns (with fuel for every source
node), and every call of `addItself` it made was for the clone of a node of the
source tree, other than its root, that is checked and whose ancestors, the
root apart, are all checked.  So for a node other than the root that is
unchecked, no call was made for the node or for a node below it.  The body of
the `foreach` leaves the whole state, the conflict flag included, as it is
when its item is unchecked.  The objects created (attached) are the clones
of the calls of `addItself` that succeeded, one for each.  And the checked flag
of the root item is never read: the merge of the source tree with the flag of
its root set to either value is the merge of the source tree; more, the merge
only depends on the children of the root item. -/
theorem mergeImportExportModel_skips_unchecked (addItself : AddItself) (h : Heap)
    (root : Nat) (src : SrcItem) (k : Nat) :
    ∃ r, mergeImportExportModel addItself (src.nodeCount + k) h root src = Run.done r ∧
      (∀ e ∈ r.log, e.path ≠ [] ∧ src.checkedAlong e.path = true ∧
        ∃ c, src.nodeAt e.path = some c ∧ e.item = cloneOf c) ∧
      (∀ (pre : List Nat) (u : SrcItem), pre ≠ [] → src.nodeAt pre = some u →
        u.checked = false → ∀ (post : List Nat), ∀ e ∈ r.log, e.path ≠ pre ++ post) ∧
      (∀ (target : Nat) (s : MergeState) (path : List Nat) (c : SrcItem),
        c.checked = false → mergeItem addItself target s path c = s) ∧
      NewObjects h r.heap r.log ∧
      (∀ (b : Bool) (fuel : Nat),
        mergeImportExportModel addItself fuel h root (src.withChecked b) =
          mergeImportExportModel addItself fuel h root src) ∧
      (∀ (src' : SrcItem) (fuel : Nat), src'.childItems = src.childItems →
        mergeImportExportModel addItself fuel h root src' =
          mergeImportExportModel addItself fuel h root src) := by
  obtain ⟨s, hs, _⟩ := mergeLoop_init addItself h root src k
  have hinv : PathInv src s :=
    pathInv_mergeLoop src addItself _ (mergeInit h root src) s (pathInv_init h root src) hs
  refine ⟨mergeFinish s, by simp [mergeImportExportModel, hs], hinv.1, ?_,
    fun target s path c hc => mergeItem_unchecked addItself target s path c hc,
    newObjects_mergeLoop h addItself _ (mergeInit h root src) s
      (newObjects_init h root src) hs, ?_, ?_⟩
  intro pre u hpre hu hch post e he hpath
  have h1 := (hinv.1 e he).2.1
  rw [hpath] at h1
  have := checkedAlong_initial pre src u post hpre hu h1
  rw [hch] at this
  cases this
  · intro b fuel
    unfold mergeImportExportModel
    rw [mergeLoop_root_children addItself h root src (src.withChecked b)
      (withChecked_childItems b src) fuel]
  · intro src' fuel hc
    unfold mergeImportExportModel
    rw [mergeLoop_root_children addItself h root src src' hc fuel]

/-! ## The parents of categories -/

theorem mergeInv_attach {root : Nat} {s : MergeState} (hs : MergeInv root s) {target : Nat}
    (ht : AttachPoint root s.heap target) (c : SrcItem) :
    WellAllocated (attachClone s.heap target (cloneOf c)) ∧
    CategoryParentOK root (attachClone s.heap target (cloneOf c)) ∧
    (∀ t, AttachPoint root s.heap t →
      AttachPoint root (attachClone s.heap target (cloneOf c)) t) ∧
    (c.kind = RootItemKind.Category →
      AttachPoint root (attachClone s.heap target (cloneOf c)) s.heap.next) := by
  have htn : target ≠ s.heap.next := Nat.ne_of_lt ht.1
  refine ⟨?_, ?_, ?_, ?_⟩
  · intro x hx
    rw [attachClone_next] at hx
    rw [attachClone_next, attachClone_parent, attachClone_childItems _ _ _ _ htn]
    by_cases hxn : x = s.heap.next
    · simp only [hxn, if_true]
      refine ⟨by simp [cloneOf], ?_⟩
      intro p hp
      cases hp
      have := ht.1
      omega
    · have hx' : x < s.heap.next := by omega
      obtain ⟨h1, h2⟩ := hs.alloc x hx'
      simp only [hxn, if_false]
      refine ⟨?_, fun p hp => by have := h2 p hp; omega⟩
      intro d hd
      split at hd
      · rcases List.mem_append.1 hd with h3 | h3
        · have := h1 d h3; omega
        · simp at h3; omega
      · have := h1 d hd; omega
  · intro x hx hk p hp
    rw [attachClone_next] at hx
    rw [attachClone_kind] at hk ⊢
    rw [attachClone_parent] at hp
    by_cases hxn : x = s.heap.next
    · simp only [hxn, if_true] at hp hk
      cases hp
      rw [if_neg htn]
      exact ht.2
    · have hx' : x < s.heap.next := by omega
      simp only [hxn, if_false] at hp hk
      have hpl := (hs.alloc x hx').2 p hp
      rw [if_neg (Nat.ne_of_lt hpl)]
      exact hs.parents x hx' hk p hp
  · intro t htp
    refine ⟨by rw [attachClone_next]; have := htp.1; omega, ?_⟩
    rw [attachClone_kind, if_neg (Nat.ne_of_lt htp.1)]
    exact htp.2
  · intro hk
    refine ⟨by rw [attachClone_next]; omega, Or.inr ?_⟩
    rw [attachClone_kind, if_pos rfl]
    exact hk

theorem mergeInv_mergeItem {root : Nat} (addItself : AddItself) (target : Nat)
    (s : MergeState) (path : List Nat) (c : SrcItem)
    (hs : MergeInv root s ∧ AttachPoint root s.heap target) :
    MergeInv root (mergeItem addItself target s path c) ∧
      AttachPoint root (mergeItem addItself target s path c).heap target := by
  obtain ⟨hinv, ht⟩ := hs
  obtain ⟨ha1, ha2, ha3, ha4⟩ := mergeInv_attach hinv ht c
  rcases mergeItem_cases addItself target s path c with
    ⟨h, _⟩ | ⟨_, hk, _, h⟩ | ⟨_, _, _, ex, hex, h⟩ | ⟨_, _, _, _, h⟩ | ⟨_, _, _, h⟩ |
      ⟨_, _, _, h⟩ <;> rw [h]
  · exact ⟨hinv, ht⟩
  · refine ⟨⟨ha1, ha2, ?_⟩, ha3 target ht⟩
    intro t htm
    rcases List.mem_cons.1 htm with h1 | h1
    · rw [h1]; exact ha4 hk
    · exact ha3 t (hinv.stack t h1)
  · refine ⟨⟨hinv.alloc, hinv.parents, ?_⟩, ht⟩
    intro t htm
    rcases List.mem_cons.1 htm with h1 | h1
    · obtain ⟨h2, h3, _⟩ := findExisting_some _ _ _ _ hex
      rw [h1]
      exact ⟨(hinv.alloc target ht.1).1 ex h2, Or.inr h3⟩
    · exact hinv.stack t h1
  · exact ⟨⟨hinv.alloc, hinv.parents, hinv.stack⟩, ht⟩
  · exact ⟨⟨ha1, ha2, fun t htm => ha3 t (hinv.stack t htm)⟩, ha3 target ht⟩
  · exact ⟨⟨hinv.alloc, hinv.parents, hinv.stack⟩, ht⟩

theorem mergeInv_mergeLoop {root : Nat} (addItself : AddItself) (fuel : Nat)
    (s s' : MergeState) (hs : MergeInv root s)
    (hrun : mergeLoop addItself fuel s = Run.done s') : MergeInv root s' := by
  refine mergeLoop_induct (MergeInv root) addItself ?_ fuel s s' hs hrun
  intro s t ol path sp l hop _ hs
  have ht : AttachPoint root s.heap t := hs.stack t (by rw [hop]; exact List.mem_cons_self _ _)
  have hs0 : MergeInv root
      { s with original_parents := ol, new_parents := l, iterations := s.iterations + 1 } :=
    ⟨hs.alloc, hs.parents, fun t htm => hs.stack t (by rw [hop]; exact List.mem_cons_of_mem _ htm)⟩
  exact (mergeChildren_induct
    (fun s => MergeInv root s ∧ AttachPoint root s.heap t) addItself t path sp.childItems
    (fun s j c _ hs => mergeInv_mergeItem addItself t s (path ++ [j]) c hs)
    sp.childItems 0 _ rfl ⟨hs0, ht⟩).1

/-- The scan of `assembleCategories` keeps the parents of categories right
when the pointers of the list are categories. -/
theorem scan_parentOK (root : Nat) (todo : List (Int × Nat)) :
    ∀ (g : Heap) (a : QHash), CategoryParentOK root g →
      (∀ k v, a k = some v → v = root ∨ (g.item v).kind = RootItemKind.Category) →
      (∀ p ∈ todo, (g.item p.2).kind = RootItemKind.Category) →
      CategoryParentOK root (scanCategories g a [] todo).heap ∧
      (∀ k v, (scanCategories g a [] todo).assignments k = some v →
        v = root ∨ ((scanCategories g a [] todo).heap.item v).kind = RootItemKind.Category) ∧
      (∀ x, ((scanCategories g a [] todo).heap.item x).kind = (g.item x).kind) := by
  induction todo with
  | nil => intro g a h1 h2 _; exact ⟨h1, h2, fun _ => rfl⟩
  | cons p0 rest ih =>
    intro g a h1 h2 h3
    obtain ⟨pid, c⟩ := p0
    cases hq : a pid with
    | none =>
      rw [scan_cons_none _ _ _ _ _ hq]
      exact ih g a h1 h2 (fun p hp => h3 p (List.mem_cons_of_mem _ hp))
    | some par =>
      rw [scan_cons_some _ _ _ _ _ _ hq]
      have hc : (g.item c).kind = RootItemKind.Category := h3 (pid, c) (List.mem_cons_self _ _)
      obtain ⟨i1, i2, i3⟩ := ih (appendChild g par c)
        (a.insert ((appendChild g par c).item c).id c)
        (by
          intro x hx hk p hp
          rw [appendChild_next] at hx
          rw [appendChild_kind] at hk ⊢
          rw [appendChild_parent] at hp
          split at hp
          · cases hp; exact h2 pid _ hq
          · exact h1 x hx hk p hp)
        (by
          intro k v hkv
          rw [appendChild_kind]
          unfold QHash.insert at hkv
          split at hkv
          · cases hkv; exact Or.inr hc
          · exact h2 k v hkv)
        (by
          intro p hp
          rw [appendChild_kind]
          exact h3 p (List.mem_cons_of_mem _ hp))
      refine ⟨i1, i2, ?_⟩
      intro x
      rw [i3, appendChild_kind]

theorem scans_parentOK (np : Int) (h : Heap) (root : Nat) (cats : List (Int × Nat))
    (hinv : CategoryParentOK root h)
    (hcats : ∀ p ∈ cats, (h.item p.2).kind = RootItemKind.Category) (n : Nat) :
    CategoryParentOK root (assembleScans n (assembleInit np h root cats)).heap ∧
    (∀ k v, (assembleScans n (assembleInit np h root cats)).assignments k = some v →
      v = root ∨ ((assembleScans n (assembleInit np h root cats)).heap.item v).kind =
        RootItemKind.Category) ∧
    (∀ x, ((assembleScans n (assembleInit np h root cats)).heap.item x).kind =
      (h.item x).kind) := by
  induction n with
  | zero =>
    refine ⟨hinv, ?_, fun _ => rfl⟩
    intro k v hkv
    simp only [assembleScans, Function.iterate_zero, id_eq, assembleInit, QHash.insert,
      QHash.empty] at hkv
    split at hkv
    · cases hkv; exact Or.inl rfl
    · cases hkv
  | succ n ih =>
    obtain ⟨i1, i2, i3⟩ := ih
    rw [assembleScans_succ]
    obtain ⟨j1, j2, j3⟩ := scan_parentOK root
      (assembleScans n (assembleInit np h root cats)).categories _ _ i1 i2
      (fun p hp => by
        rw [i3]
        exact hcats p ((scans_sublist (assembleInit np h root cats) (Nat.zero_le n)).subset hp))
    exact ⟨j1, j2, fun x => by rw [← i3 x]; exact j3 x⟩

/-- C8: starting from a heap in which every allocated category that has a
parent has the root or a category as its parent, this still holds after any
number of scans of `assembleCategories` on a list of categories, hence in any
heap `assembleCategories` returns; and on a heap whose allocated objects only
point to allocated objects, with the root allocated, it still holds in the
heap that `mergeImportExportModel` returns (which it does with fuel for every
source node), whatever the source tree, the checked flags and the outcomes of
`addItself`. -/
theorem category_parent_preserved (root : Nat) (h : Heap) (hinv : CategoryParentOK root h) :
    (∀ (np : Int) (cats : List (Int × Nat)),
      (∀ p ∈ cats, (h.item p.2).kind = RootItemKind.Category) →
      (∀ n, CategoryParentOK root (assembleScans n (assembleInit np h root cats)).heap) ∧
      ∀ fuel h', assembleCategories np fuel h root cats = some h' →
        CategoryParentOK root h') ∧
    (WellAllocated h → root < h.next →
      ∀ (addItself : AddItself) (src : SrcItem) (k : Nat),
        ∃ r, mergeImportExportModel addItself (src.nodeCount + k) h root src = Run.done r ∧
          CategoryParentOK root r.heap) := by
  constructor
  · intro np cats hcats
    refine ⟨fun n => (scans_parentOK np h root cats hinv hcats n).1, ?_⟩
    intro fuel h' hres
    unfold assembleCategories at hres
    cases hl : assembleLoop fuel (assembleInit np h root cats) with
    | none => rw [hl] at hres; cases hres
    | some r =>
      rw [hl] at hres
      simp only [Option.map_some', Option.some.injEq] at hres
      obtain ⟨n, _, hrn, _⟩ := assembleLoop_some _ _ _ hl
      rw [← hres, hrn]
      exact (scans_parentOK np h root cats hinv hcats n).1
  · intro halloc hroot addItself src k
    obtain ⟨s, hs, _⟩ := mergeLoop_init addItself h root src k
    have hm : MergeInv root s := by
      refine mergeInv_mergeLoop addItself _ (mergeInit h root src) s ?_ hs
      refine ⟨halloc, hinv, ?_⟩
      intro t ht
      simp only [mergeInit, List.mem_singleton] at ht
      subst ht
      exact ⟨hroot, Or.inl rfl⟩
    exact ⟨mergeFinish s, by simp [mergeImportExportModel, hs], hm.parents⟩


theorem wellAllocated_attach (g : Heap) (t : Nat) (c : SrcItem) (hg : WellAllocated g)
    (ht : t < g.next) : WellAllocated (attachClone g t (cloneOf c)) := by
  have htn : t ≠ g.next := Nat.ne_of_lt ht
  intro x hx
  rw [attachClone_next] at hx
  rw [attachClone_next, attachClone_parent, attachClone_childItems _ _ _ _ htn]
  by_cases hxn : x = g.next
  · simp only [hxn, if_true]
    refine ⟨by simp [cloneOf], ?_⟩
    intro p hp
    cases hp
    omega
  · have hx' : x < g.next := by omega
    obtain ⟨h1, h2⟩ := hg x hx'
    simp only [hxn, if_false]
    refine ⟨?_, fun p hp => by have := h2 p hp; omega⟩
    intro d hd
    split at hd
    · rcases List.mem_append.1 hd with h3 | h3
      · have := h1 d h3; omega
      · simp at h3; omega
    · have := h1 d hd; omega

theorem pairNow_ext {root : Nat} {g g' : Heap} {t : Nat} {sp : SrcItem}
    (hp : PairNow root g t sp) (ht : t < g.next) (hext : HeapExt g g') :
    PairNow root g' t sp := by
  rcases hp with h1 | ⟨h1, h2⟩
  · exact Or.inl h1
  · obtain ⟨k1, _, k3, _⟩ := hext.2 t ht
    exact Or.inr ⟨by rw [k1, h1], by rw [k3, h2]⟩

theorem stacksNow_mergeItem (root : Nat) (addItself : AddItself) (target : Nat)
    (s : MergeState) (path : List Nat) (c : SrcItem)
    (hs : StacksNow root s ∧ target < s.heap.next) :
    StacksNow root (mergeItem addItself target s path c) ∧
      target < (mergeItem addItself target s path c).heap.next := by
  obtain ⟨⟨hwa, hroot, hpairs⟩, ht⟩ := hs
  obtain ⟨hext, _⟩ := mergeItem_ext addItself target s path c
  have hold : ∀ pr ∈ s.original_parents.zip s.new_parents,
      pr.1 < (mergeItem addItself target s path c).heap.next ∧
        PairNow root (mergeItem addItself target s path c).heap pr.1 pr.2.2 :=
    fun pr hpr => ⟨lt_of_lt_of_le (hpairs pr hpr).1 hext.1,
      pairNow_ext (hpairs pr hpr).2 (hpairs pr hpr).1 hext⟩
  have hwa' := wellAllocated_attach s.heap target c hwa ht
  rcases mergeItem_cases addItself target s path c with
    ⟨h, _⟩ | ⟨_, hk, _, h⟩ | ⟨_, hk, _, ex, hex, h⟩ | ⟨_, _, _, _, h⟩ | ⟨_, _, _, h⟩ |
      ⟨_, _, _, h⟩
  · rw [h]; exact ⟨⟨hwa, hroot, hpairs⟩, ht⟩
  · rw [h] at hold ⊢
    refine ⟨⟨hwa', by simp only [attachClone_next]; omega, ?_⟩,
      by simp only [attachClone_next]; omega⟩
    intro pr hpr
    simp only [List.zip_cons_cons, List.mem_cons] at hpr
    rcases hpr with rfl | hpr
    · refine ⟨by simp [attachClone_next], Or.inr ⟨?_, ?_⟩⟩
      · simp [attachClone_kind, cloneOf, hk]
      · simp [attachClone_title, cloneOf]
    · exact hold pr hpr
  · rw [h] at hold ⊢
    refine ⟨⟨hwa, hroot, ?_⟩, ht⟩
    intro pr hpr
    simp only [List.zip_cons_cons, List.mem_cons] at hpr
    rcases hpr with rfl | hpr
    · obtain ⟨k1, k2, k3⟩ := findExisting_some _ _ _ _ hex
      exact ⟨(hwa target ht).1 ex k1, Or.inr ⟨k2, k3⟩⟩
    · exact hold pr hpr
  · rw [h] at hold ⊢; exact ⟨⟨hwa, hroot, hold⟩, ht⟩
  · rw [h] at hold ⊢
    exact ⟨⟨hwa', by simp only [attachClone_next]; omega, hold⟩,
      by simp only [attachClone_next]; omega⟩
  · rw [h] at hold ⊢; exact ⟨⟨hwa, hroot, hold⟩, ht⟩

theorem stacksNow_pop (root : Nat) (addItself : AddItself)
    (s : MergeState) (t : Nat) (ol : List Nat) (path : List Nat) (sp : SrcItem)
    (l : List (List Nat × SrcItem)) (hop : s.original_parents = t :: ol)
    (hnp : s.new_parents = (path, sp) :: l) (hs : StacksNow root s) :
    StacksNow root (mergeChildren addItself t path 0 sp.childItems
      { s with original_parents := ol, new_parents := l,
               iterations := s.iterations + 1 }) := by
  obtain ⟨hwa, hroot, hpairs⟩ := hs
  rw [hop, hnp] at hpairs
  have ht : t < s.heap.next :=
    (hpairs (t, (path, sp)) (by simp only [List.zip_cons_cons]; exact List.mem_cons_self _ _)).1
  exact (mergeChildren_induct (fun s => StacksNow root s ∧ t < s.heap.next) addItself t path
    sp.childItems
    (fun s j c _ hs => stacksNow_mergeItem root addItself t s (path ++ [j]) c hs)
    sp.childItems 0
    { s with original_parents := ol, new_parents := l, iterations := s.iterations + 1 } rfl
    ⟨⟨hwa, hroot, fun pr hpr =>
      hpairs pr (by simp only [List.zip_cons_cons]; exact List.mem_cons_of_mem _ hpr)⟩, ht⟩).1

theorem stacksNow_init (h : Heap) (root : Nat) (src : SrcItem) (hwa : WellAllocated h)
    (hroot : root < h.next) : StacksNow root (mergeInit h root src) := by
  refine ⟨hwa, hroot, ?_⟩
  intro pr hpr
  simp only [mergeInit, List.zip_cons_cons, List.zip_nil_right, List.mem_singleton] at hpr
  subst hpr
  exact ⟨hroot, Or.inl rfl⟩

/-- C11: in `mergeImportExportModel`, after any number of iterations of the
`while` loop (the loop run from the start goes on from that state) the stacks
`original_parents` and `new_parents` have the same length; so when
`new_parents` is not empty both have a top, the next iteration pops them
without hitting an empty stack, and the popped pair is an attach point with
the source node at some position of the source tree, where the attach point is
the root (with the root of the source tree), or the clone of that source node
created by a call of `addItself` that succeeded, or a category that was a child
of the attach point of a failed call for that source node and has its title;
on a heap whose allocated objects only point to allocated objects, the attach
point is, in the heap as it is at the pop, the root or a category with the
title of the source node.  The loop never ends on a `pop()` of an empty stack,
whatever the fuel.  And the body of the `foreach` pushes on both stacks or on
none. -/
theorem mergeImportExportModel_stacks_paired (addItself : AddItself) (h : Heap)
    (root : Nat) (src : SrcItem) :
    (∀ n s, mergeAfter addItself n (mergeInit h root src) = some s →
      (∀ fuel, mergeLoop addItself (n + fuel) (mergeInit h root src) =
        mergeLoop addItself fuel s) ∧
      s.original_parents.length = s.new_parents.length ∧
      (s.new_parents ≠ [] →
        ∃ t ol path sp l, s.original_parents = t :: ol ∧ s.new_parents = (path, sp) :: l ∧
          mergeIteration addItself s =
            some (mergeChildren addItself t path 0 sp.childItems
              { s with original_parents := ol, new_parents := l,
                       iterations := s.iterations + 1 }) ∧
          src.nodeAt path = some sp ∧
          PairOK root src s.heap s.log t path sp ∧
          (WellAllocated h → root < h.next → PairNow root s.heap t sp))) ∧
    (∀ fuel, mergeLoop addItself fuel (mergeInit h root src) ≠ Run.popOnEmpty) ∧
    (∀ fuel, mergeImportExportModel addItself fuel h root src ≠ Run.popOnEmpty) ∧
    (∀ (target : Nat) (s : MergeState) (path : List Nat) (c : SrcItem),
      ((mergeItem addItself target s path c).original_parents = s.original_parents ∧
        (mergeItem addItself target s path c).new_parents = s.new_parents) ∨
      ∃ t, (mergeItem addItself target s path c).original_parents =
          t :: s.original_parents ∧
        (mergeItem addItself target s path c).new_parents = (path, c) :: s.new_parents) := by
  have hnopop : ∀ fuel, mergeLoop addItself fuel (mergeInit h root src) ≠ Run.popOnEmpty :=
    fun fuel => mergeLoop_no_pop_on_empty addItself fuel (mergeInit h root src) rfl
  refine ⟨?_, hnopop, ?_, ?_⟩
  · intro n s hrun
    have hpaired : StacksPaired root src s :=
      mergeAfter_induct (StacksPaired root src) addItself
        (fun s t ol path sp l hop hnp hs =>
          stacksPaired_pop root src addItself s t ol path sp l hop hnp hs)
        n (mergeInit h root src) s (stacksPaired_init h root src) hrun
    have hpath : PathInv src s :=
      mergeAfter_induct (PathInv src) addItself
        (fun s t ol path sp l _ hnp hs => pathInv_pop src addItself s t ol path sp l hnp hs)
        n (mergeInit h root src) s (pathInv_init h root src) hrun
    refine ⟨mergeLoop_after addItself n _ s hrun, hpaired.1, ?_⟩
    intro hne
    cases hnp : s.new_parents with
    | nil => exact absurd hnp hne
    | cons e l =>
      obtain ⟨path, sp⟩ := e
      cases hop : s.original_parents with
      | nil =>
        have := hpaired.1
        rw [hnp, hop] at this
        simp at this
      | cons t ol =>
        have hmem : (t, (path, sp)) ∈ s.original_parents.zip s.new_parents := by
          rw [hop, hnp, List.zip_cons_cons]
          exact List.mem_cons_self _ _
        refine ⟨t, ol, path, sp, l, rfl, rfl, ?_, ?_, hpaired.2 _ hmem, ?_⟩
        · simp only [mergeIteration, hop, hnp]
        · exact (hpath.2 (path, sp) (by rw [hnp]; exact List.mem_cons_self _ _)).1
        · intro hwa hroot
          have hnow : StacksNow root s :=
            mergeAfter_induct (StacksNow root) addItself
              (fun s t ol path sp l hop hnp hs =>
                stacksNow_pop root addItself s t ol path sp l hop hnp hs)
              n (mergeInit h root src) s (stacksNow_init h root src hwa hroot) hrun
          exact (hnow.2.2 _ hmem).2
  · intro fuel hcon
    unfold mergeImportExportModel at hcon
    cases hl : mergeLoop addItself fuel (mergeInit h root src) with
    | done s => rw [hl] at hcon; cases hcon
    | outOfFuel => rw [hl] at hcon; cases hcon
    | popOnEmpty => exact hnopop fuel hl
  · intro target s path c
    rcases (mergeItem_stacks addItself target s path c).2 with ⟨h1, h2⟩ | ⟨t, h1, h2⟩
    · exact Or.inl ⟨h2, h1⟩
    · exact Or.inr ⟨t, h2, h1⟩

/-! ## Concrete runs -/

theorem noCycle_of_rank (h : Heap) (cats : List (Int × Nat)) (rank : Int × Nat → Nat)
    (hrank : ∀ a ∈ cats, ∀ b ∈ cats, (h.item a.2).id = b.1 → rank a < rank b) :
    ∀ p, ¬ Relation.TransGen (ParentOf h cats) p p := by
  have hlt : ∀ a b, Relation.TransGen (ParentOf h cats) a b → rank a < rank b := by
    intro a b hab
    induction hab with
    | single hr => exact hrank _ hr.1 _ hr.2.1 hr.2.2
    | tail _ hr ih => exact lt_trans ih (hrank _ hr.1 _ hr.2.1 hr.2.2)
  intro p hp
  exact lt_irrefl _ (hlt p p hp)

theorem twoCategories_wellFormed :
    WellFormedCategories (-1) twoCategoriesHeap [(5, 2), (-1, 1)] where
  ids_nodup := by decide
  ids_ne := by decide
  parents := by decide
  acyclic := noCycle_of_rank _ _ (fun p => p.2) (by decide)

theorem twoCategories_unattached : Unattached twoCategoriesHeap [(5, 2), (-1, 1)] := by
  intro p _ x
  rcases x with _ | _ | _ | x <;> simp [twoCategoriesHeap, blankItem]

/-- The witness of C1. -/
theorem assembleCategories_tree_witness :
    WellFormedCategories (-1) twoCategoriesHeap [(5, 2), (-1, 1)] ∧
    Unattached twoCategoriesHeap [(5, 2), (-1, 1)] ∧
    ∃ h', assembleCategories (-1) 2 twoCategoriesHeap 0 [(5, 2), (-1, 1)] = some h' ∧
      ∀ p ∈ [((5 : Int), 2), (-1, 1)], ∃ par,
        (if p.1 = -1 then par = 0
          else ∃ q ∈ [((5 : Int), 2), (-1, 1)], q.2 = par ∧ (h'.item par).id = p.1) ∧
        (∀ x, (h'.item x).childItems.count p.2 = if x = par then 1 else 0) ∧
        (h'.item p.2).parent = some par := by
  obtain ⟨h', h1, h2, _⟩ :=
    assembleCategories_tree (-1) twoCategoriesHeap 0 [(5, 2), (-1, 1)]
      twoCategories_wellFormed twoCategories_unattached 2 (by decide)
  exact ⟨twoCategories_wellFormed, twoCategories_unattached, h', h1, h2⟩

theorem scans_fixed (s : AssembleState) (hfix : assemblePass s = s) (n : Nat) :
    assembleScans n s = s := by
  induction n with
  | zero => rfl
  | succ n ih => rw [assembleScans_succ, ih, hfix]

/-- The witness of C2: a category whose parent id, 8, is the id of no category. -/
theorem assembleCategories_terminates_iff_witness :
    (∃ p ∈ [((8 : Int), 1)], ∀ n,
        (assembleScans n (assembleInit (-1) twoCategoriesHeap 0 [(8, 1)])).assignments.contains
          p.1 = false) ∧
      (∃ n, (assembleScans n (assembleInit (-1) twoCategoriesHeap 0 [(8, 1)])).categories ≠ [] ∧
          assemblePass (assembleScans n (assembleInit (-1) twoCategoriesHeap 0 [(8, 1)])) =
            assembleScans n (assembleInit (-1) twoCategoriesHeap 0 [(8, 1)])) ∧
      ∀ fuel, assembleCategories (-1) fuel twoCategoriesHeap 0 [(8, 1)] = none := by
  have hyp : ∃ p ∈ [((8 : Int), 1)], ∀ n,
      (assembleScans n (assembleInit (-1) twoCategoriesHeap 0 [(8, 1)])).assignments.contains
        p.1 = false := by
    refine ⟨(8, 1), by simp, fun n => ?_⟩
    rw [scans_fixed _ rfl n]
    decide
  exact ⟨hyp, (assembleCategories_terminates_iff (-1) twoCategoriesHeap 0 [(8, 1)]).2.1 hyp⟩


theorem oneCategory_forest : CategoryForest oneCategoryHeap := by
  refine ⟨fun _ => 0, ?_⟩
  intro x hx
  rcases x with _ | _ | _ | _ | x <;> simp [oneCategoryHeap, blankItem] at hx ⊢

theorem oneCategory_unattached (l : List (Int × Nat)) (hl : ∀ p ∈ l, 2 ≤ p.2) :
    Unattached oneCategoryHeap l := by
  intro p hp x
  have := hl p hp
  rcases x with _ | _ | _ | _ | x <;> (simp [oneCategoryHeap, blankItem]; try omega)

/-- The witness of C3. -/
theorem assembleFeeds_top_level_witness :
    CategoryForest oneCategoryHeap ∧
    (oneCategoryHeap.item 0).kind ≠ RootItemKind.Category ∧
    ([((-1 : Int), 2), (5, 3)].map Prod.snd).Nodup ∧
    Unattached oneCategoryHeap [(-1, 2), (5, 3)] ∧
    ∃ fuel h', assembleFeeds (-1) fuel oneCategoryHeap 0 [(-1, 2), (5, 3)] = some h' ∧
      (h'.item 0).childItems = [1, 2] ∧
      ∀ x, x ≠ 0 → 2 ∉ (h'.item x).childItems := by
  obtain ⟨fuel, hall⟩ :=
    assembleFeeds_top_level (-1) oneCategoryHeap 0 [(-1, 2), (5, 3)] oneCategory_forest
      (by decide)
  obtain ⟨h', h1, h2, _, h4⟩ := hall fuel (le_refl _)
  exact ⟨oneCategory_forest, by decide, by decide, oneCategory_unattached _ (by decide),
    fuel, h', h1, h2,
    h4 (by decide) (oneCategory_unattached _ (by decide)) (-1, 2) (by decide) rfl⟩

theorem threeFeeds_forest : CategoryForest threeFeedsHeap := by
  refine ⟨fun _ => 0, ?_⟩
  intro x hx
  rcases x with _ | _ | _ | _ | _ | x <;> simp [threeFeedsHeap, blankItem] at hx ⊢

theorem threeFeeds_unattached (l : List (Int × Nat)) (hl : ∀ p ∈ l, 2 ≤ p.2) :
    Unattached threeFeedsHeap l := by
  intro p hp x
  have := hl p hp
  rcases x with _ | _ | _ | _ | _ | x <;> (simp [threeFeedsHeap, blankItem]; try omega)

/-- The witness of C4: the first pair of the list has the parent id 999, the id
of no category; its feed (address 3) is attached nowhere, and the two pairs
after it are processed: the feed at address 2 goes under the root, the feed at
address 4 under the category with id 5. -/
theorem assembleFeeds_loose_witness :
    ([((999 : Int), 3), (-1, 2), (5, 4)].map Prod.snd).Nodup ∧
    Unattached threeFeedsHeap [(999, 3), (-1, 2), (5, 4)] ∧
    CategoryForest threeFeedsHeap ∧
    (∃ fuel0, ∀ fuel, fuel0 ≤ fuel → ∃ cats h',
      categoriesForItem fuel threeFeedsHeap 0 = some cats ∧
      assembleFeeds (-1) fuel threeFeedsHeap 0 [(999, 3), (-1, 2), (5, 4)] = some h') ∧
    categoriesForItem 2 threeFeedsHeap 0 = some (QHash.empty.insert 5 1) ∧
    (QHash.empty.insert 5 1).contains 999 = false ∧
    ∃ h', assembleFeeds (-1) 2 threeFeedsHeap 0 [(999, 3), (-1, 2), (5, 4)] = some h' ∧
      (h'.item 0).childItems = [1, 2] ∧
      (h'.item 1).childItems = [4] ∧
      (h'.item 2).parent = some 0 ∧
      (h'.item 4).parent = some 1 ∧
      (∀ x, 3 ∉ (h'.item x).childItems) ∧
      (h'.item 3).parent = none ∧
      assembleFeeds (-1) 2 threeFeedsHeap 0 [(-1, 2), (5, 4)] = some h' := by
  have hnd : ([((999 : Int), 3), (-1, 2), (5, 4)].map Prod.snd).Nodup := by decide
  have hfresh := threeFeeds_unattached [(999, 3), (-1, 2), (5, 4)] (by decide)
  obtain ⟨hret, hall⟩ :=
    assembleFeeds_loose (-1) threeFeedsHeap 0 [(999, 3), (-1, 2), (5, 4)] hnd hfresh
      (by decide)
  obtain ⟨h', h1, h2, h3, h4, _⟩ := hall 2 (QHash.empty.insert 5 1) rfl
  obtain ⟨_, h5, h6, h7⟩ := h4 (999, 3) (by decide) (by decide) (by decide)
  refine ⟨hnd, hfresh, threeFeeds_forest, hret threeFeeds_forest, rfl, by decide, h', h1,
    ?_, ?_, ?_, ?_, h5, ?_, ?_⟩
  · rw [h2 0]; rfl
  · rw [h2 1]; rfl
  · exact h3 (-1, 2) (by decide) 0 (by decide)
  · exact h3 (5, 4) (by decide) 1 (by decide)
  · rw [h6]; rfl
  · exact h7

/-- The counterexample to C5 as stated: the checked source feed "News" fails to
attach under the root, which has the child category "News"; the merge returns
false with the message of the partial import, although the only failed call of
`addItself` had an attach point with a child category of the same title. -/
theorem mergeImportExportModel_feed_conflict :
    ∃ r, mergeImportExportModel addUnlessTitleTaken 2 newsHeap 0 feedNamedNewsSource =
        Run.done r ∧
      r.returned = false ∧
      r.output_message =
        "Import successfull, but some feeds/categories were not imported due to error." ∧
      r.log.map (fun e => (e.target, e.item.kind, e.item.title, e.ok)) =
        [(0, RootItemKind.Feed, "News", false)] ∧
      ¬ ∃ e ∈ r.log, e.failedWithoutFallback = true :=
  ⟨_, rfl, by decide, by decide, by decide, by decide⟩

/-- A failed category without fallback: the checked source category "Sport"
fails to attach under the root, which has no child category of that title.
The one call of `addItself` is recorded, the merge returns false with the
message of the partial import, creates no object and never reaches the
children of "Sport". -/
theorem mergeImportExportModel_failed_category :
    ∃ r, mergeImportExportModel addNever 3 newsHeap 0 sportSource = Run.done r ∧
      r.returned = false ∧
      r.output_message =
        "Import successfull, but some feeds/categories were not imported due to error." ∧
      r.log.map (fun e => (e.target, e.path, e.item.kind, e.item.title, e.ok)) =
        [(0, [0], RootItemKind.Category, "Sport", false)] ∧
      (∃ e ∈ r.log, e.failedWithoutFallback = true) ∧
      r.heap.next = newsHeap.next ∧
      r.iterations = 1 :=
  ⟨_, rfl, by decide, by decide, by decide, by decide, by decide, by decide⟩

/-- The witness of C7. -/
theorem mergeImportExportModel_all_unchecked_witness :
    uncheckedSource.allUnchecked = true ∧
    mergeImportExportModel addUnlessTitleTaken 1 newsHeap 0 uncheckedSource =
      Run.done
        { heap := newsHeap, returned := true,
          output_message := "Import was completely successfull.",
          log := [], iterations := 1 } :=
  ⟨by decide, mergeImportExportModel_all_unchecked addUnlessTitleTaken newsHeap 0
    uncheckedSource 0 (by decide)⟩

theorem newsHeap_parentOK : CategoryParentOK 0 newsHeap := by
  intro x hx hk p hp
  have hx3 : x < 3 := hx
  interval_cases x
  · simp [newsHeap] at hk
  · simp only [newsHeap, Option.some.injEq] at hp
    exact Or.inl hp.symm
  · simp [newsHeap] at hk

theorem newsHeap_wellAllocated : WellAllocated newsHeap := by
  intro x hx
  have hx3 : x < 3 := hx
  interval_cases x <;> simp [newsHeap]

theorem twoCategories_parentOK : CategoryParentOK 0 twoCategoriesHeap := by
  intro x hx hk p hp
  have hx3 : x < 3 := hx
  interval_cases x <;> simp [twoCategoriesHeap] at hp

/-- The witness of C8.  For `assembleCategories`: the two categories of
`twoCategoriesHeap`, child first; the category with id 5 is placed under the
root and the category with id 7 under it.  For the merge: the source "Sport"
into the heap with the category "News"; the category "Sport" is placed under
the root (address 3) and the category "Football" under it (address 4). -/
theorem category_parent_preserved_witness :
    (CategoryParentOK 0 twoCategoriesHeap ∧
      (∀ p ∈ [((5 : Int), 2), (-1, 1)],
        (twoCategoriesHeap.item p.2).kind = RootItemKind.Category) ∧
      ∃ h', assembleCategories (-1) 2 twoCategoriesHeap 0 [(5, 2), (-1, 1)] = some h' ∧
        (h'.item 1).kind = RootItemKind.Category ∧ (h'.item 1).parent = some 0 ∧
        (h'.item 2).kind = RootItemKind.Category ∧ (h'.item 2).parent = some 1 ∧
        CategoryParentOK 0 h') ∧
    (CategoryParentOK 0 newsHeap ∧ WellAllocated newsHeap ∧ 0 < newsHeap.next ∧
      ∃ r, mergeImportExportModel addUnlessTitleTaken (sportSource.nodeCount + 0) newsHeap 0
          sportSource = Run.done r ∧
        (r.heap.item 3).kind = RootItemKind.Category ∧ (r.heap.item 3).title = "Sport" ∧
        (r.heap.item 3).parent = some 0 ∧
        (r.heap.item 4).kind = RootItemKind.Category ∧ (r.heap.item 4).title = "Football" ∧
        (r.heap.item 4).parent = some 3 ∧
        (r.heap.item 0).childItems = [1, 3] ∧ (r.heap.item 3).childItems = [4, 5] ∧
        r.heap.next = 6 ∧
        CategoryParentOK 0 r.heap) := by
  constructor
  · have hk : ∀ p ∈ [((5 : Int), 2), (-1, 1)],
        (twoCategoriesHeap.item p.2).kind = RootItemKind.Category := by decide
    have hres : assembleCategories (-1) 2 twoCategoriesHeap 0 [(5, 2), (-1, 1)] = some _ := rfl
    exact ⟨twoCategories_parentOK, hk, _, hres, by decide, by decide, by decide, by decide,
      ((category_parent_preserved 0 twoCategoriesHeap twoCategories_parentOK).1 (-1)
        [(5, 2), (-1, 1)] hk).2 2 _ hres⟩
  · obtain ⟨r, hr, hok⟩ :=
      (category_parent_preserved 0 newsHeap newsHeap_parentOK).2 newsHeap_wellAllocated
        (by decide) addUnlessTitleTaken sportSource 0
    have hr0 : mergeImportExportModel addUnlessTitleTaken (sportSource.nodeCount + 0)
        newsHeap 0 sportSource = Run.done _ := rfl
    rw [hr0] at hr
    injection hr with hr
    subst hr
    exact ⟨newsHeap_parentOK, newsHeap_wellAllocated, by decide, _, hr0, by decide,
      by decide, by decide, by decide, by decide, by decide, by decide, by decide,
      by decide, hok⟩

/-- The counterexample to C10 as stated: the root of the source tree is
unchecked, and its child, the checked feed "B", is cloned and attached all the
same (it becomes the object at address 3, the last child of the root). -/
theorem mergeImportExportModel_unchecked_root :
    uncheckedRootSource.nodeAt [] = some uncheckedRootSource ∧
    uncheckedRootSource.checked = false ∧
    ∃ r, mergeImportExportModel addUnlessTitleTaken 2 newsHeap 0 uncheckedRootSource =
        Run.done r ∧
      (∃ e ∈ r.log, e.path = [] ++ [0] ∧ e.ok = true ∧ e.item.title = "B") ∧
      (r.heap.item 0).childItems = [1, 3] ∧ (r.heap.item 3).title = "B" ∧
      (r.heap.item 3).parent = some 0 :=
  ⟨rfl, rfl, _, rfl, by decide, by decide, by decide, by decide⟩

/-- The witness of C10: the category at position [0] is unchecked, and no call
of `addItself` is made for the checked feed below it, at position [0, 0]. -/
theorem mergeImportExportModel_skips_unchecked_witness :
    uncheckedCategorySource.nodeAt [0] =
      some (.mk RootItemKind.Category 0 "News" false [.mk RootItemKind.Feed 0 "B" true []]) ∧
    uncheckedCategorySource.nodeAt [0, 0] = some (.mk RootItemKind.Feed 0 "B" true []) ∧
    ∃ r, mergeImportExportModel addUnlessTitleTaken (uncheckedCategorySource.nodeCount + 0)
        newsHeap 0 uncheckedCategorySource = Run.done r ∧
      ∀ e ∈ r.log, e.path ≠ [0] ++ [0] := by
  refine ⟨rfl, rfl, ?_⟩
  obtain ⟨r, h1, _, h3, _⟩ :=
    mergeImportExportModel_skips_unchecked addUnlessTitleTaken newsHeap 0
      uncheckedCategorySource 0
  exact ⟨r, h1, h3 [0] _ (by decide) rfl rfl [0]⟩

/-- The witness of C11: the merge of the source "News" into the heap with the
category "News", after its first iteration: the stacks hold the existing
category "News" (address 1) and the source category at position [0]. -/
theorem mergeImportExportModel_stacks_paired_witness :
    WellAllocated newsHeap ∧
    ∃ s, mergeAfter addUnlessTitleTaken 1 (mergeInit newsHeap 0 newsSource) = some s ∧
      s.new_parents.length = 1 ∧
      s.original_parents.length = s.new_parents.length ∧
      ∃ t ol path sp l, s.original_parents = t :: ol ∧ s.new_parents = (path, sp) :: l ∧
        t = 1 ∧ path = [0] ∧ sp.title = "News" ∧
        PairOK 0 newsSource s.heap s.log t path sp ∧ PairNow 0 s.heap t sp := by
  refine ⟨newsHeap_wellAllocated, _, rfl, rfl, ?_⟩
  obtain ⟨_, hlen, hpop⟩ :=
    (mergeImportExportModel_stacks_paired addUnlessTitleTaken newsHeap 0 newsSource).1 1 _ rfl
  refine ⟨hlen, ?_⟩
  obtain ⟨t, ol, path, sp, l, h1, h2, _, _, h5, h6⟩ := hpop (fun hnil => by cases hnil)
  have h1' : ([1] : List Nat) = t :: ol := h1
  have h2' : [(([0] : List Nat), SrcItem.mk RootItemKind.Category 0 "News" true
      [.mk RootItemKind.Feed 0 "B" true []])] = (path, sp) :: l := h2
  have ht : t = 1 := by
    injection h1' with h11 _
    exact h11.symm
  have hp : path = [0] ∧ sp.title = "News" := by
    injection h2' with h21 _
    injection h21 with h22 h23
    exact ⟨h22.symm, by rw [← h23]; rfl⟩
  exact ⟨t, ol, path, sp, l, h1, h2, ht, hp.1, hp.2, h5,
    h6 newsHeap_wellAllocated (by decide)⟩

end RssGuard
